import Mathlib

/-!
# ParaSails preconditioned conjugate gradient (`ConjGrad.c`)

A shallow embedding of `distributed_ls/ParaSails/ConjGrad.c`.

* The solve is an SPMD program: `P` ranks run the same code, rank `k` on local
  arrays of `n k` entries (`n = mat->end_row - mat->beg_row + 1`, line 90).  A
  distributed vector is the family of the ranks' local arrays.  The BLAS
  routines act on one rank's array, the wrappers of the source (`CopyVector`,
  `ScaleVector`, `Axpy`) are followed on every rank, and `InnerProd` is each
  rank's `ddot_` followed by `MPI_Allreduce` with `MPI_SUM`.  Every branch of
  the solve tests reduced values only, so all ranks take the same branches.
* `double` is modelled by exact rationals.  A division by zero has no exact
  value (IEEE gives an infinity or a NaN); the divisions of lines 134 and 172
  are recorded in the call trace together with their denominators, and the
  model goes on with the value `0` that the rationals give to `a / 0`.
  Statements about computed values are meaningful for runs whose recorded
  denominators are nonzero.  The other divisor of the source, `bi_prod`, is
  nonzero past line 101.
* `int` is modelled by unbounded integers: the counter `i` stays between `0`
  and `max_iter`, and line 126 evaluates `i + 1`, which is an `int` whenever
  `max_iter < INT_MAX`.  The loop with its counter held in an `int`
  (`PCG_loop_int`) is given as well and is shown to be the same loop for
  `max_iter < INT_MAX`; at `max_iter = INT_MAX` it differs.
* `MatrixMatvec` and `ParaSailsApply` are not part of this file of the source:
  they are parameters `mat` and `ps` (`ps = none` is `ps == NULL`).
* The `printf` calls (rank 0 only) are not modelled in the ensemble; the model
  of a single rank (`rank_PCG_ParaSails`) counts them.

Two further pieces of the repository follow in namespaces of their own: the
method dispatch of `babel-runtime/sidl/sidl_DFinder_IOR.c` (`DFinder`) and the
process-grid coordinates of `test/IJ_linear_solvers_b.c` (`IJ_linear_solvers`).
-/

namespace ConjGrad

/-! ## Vectors and the BLAS level-1 routines (unit strides) -/

/-- One rank's `double *` array of `m` entries. -/
abbrev LVec (m : Nat) := Fin m → ℚ

/-- A distributed vector: the local array of each of the `P` ranks. -/
abbrev DVec {P : Nat} (n : Fin P → Nat) := (k : Fin P) → LVec (n k)

/-- BLAS `ddot_(&n, x, &one, y, &one)`: the dot product of two local arrays. -/
def ddot_ {m : Nat} (x y : LVec m) : ℚ := ∑ j, x j * y j

/-- BLAS `dcopy_(&n, x, &one, y, &one)`: `y` is overwritten by `x`; the new `y`. -/
def dcopy_ {m : Nat} (x _y : LVec m) : LVec m := fun j => x j

/-- BLAS `dscal_(&n, &alpha, x, &one)`: the new `x`. -/
def dscal_ {m : Nat} (alpha : ℚ) (x : LVec m) : LVec m := fun j => alpha * x j

/-- BLAS `daxpy_(&n, &alpha, x, &one, y, &one)`: the new `y = alpha*x + y`. -/
def daxpy_ {m : Nat} (alpha : ℚ) (x y : LVec m) : LVec m := fun j => alpha * x j + y j

/-- `MPI_Allreduce(&local_result, &result, 1, MPI_DOUBLE, MPI_SUM, comm)`: every
rank receives the sum of the ranks' local values. -/
def MPI_Allreduce_SUM {P : Nat} (local_result : Fin P → ℚ) : ℚ := ∑ k, local_result k

variable {P : Nat} {n : Fin P → Nat}

/-- `InnerProd(n, x, y, comm)`, lines 30-44. -/
def InnerProd (x y : DVec n) : ℚ :=
  MPI_Allreduce_SUM fun k => ddot_ (x k) (y k)

/-- `CopyVector(n, x, y)`, lines 46-54, on every rank; the new `y`. -/
def CopyVector (x y : DVec n) : DVec n := fun k => dcopy_ (x k) (y k)

/-- `ScaleVector(n, alpha, x)`, lines 56-64, on every rank; the new `x`. -/
def ScaleVector (alpha : ℚ) (x : DVec n) : DVec n := fun k => dscal_ alpha (x k)

/-- `Axpy(n, alpha, x, y)`, lines 66-74, on every rank; the new `y`. -/
def Axpy (alpha : ℚ) (x y : DVec n) : DVec n := fun k => daxpy_ alpha (x k) (y k)

/-! ## The solver state and its call trace -/

/-- The vector buffers named in `PCG_ParaSails`. -/
inductive Buf
  | b | x | p | s | r
  deriving DecidableEq

/-- The operations of `PCG_ParaSails`, as they are recorded in program order. -/
inductive Op
  | InnerProd (u v : Buf)
  | CopyVector (src dst : Buf)
  | ScaleVector (v : Buf)
  | Axpy (src dst : Buf)
  | MatrixMatvec (src dst : Buf)
  | ParaSailsApply (src dst : Buf)
  | malloc (v : Buf)
  | free (v : Buf)
  | div (denominator : ℚ)
  deriving DecidableEq

/-- The variables of `PCG_ParaSails` (lines 82-86) and the caller's buffer `x`,
with the trace of the operations performed so far.  `bi_prod` and `eps` are
assigned once and are passed along separately. -/
structure PCGState {P : Nat} (n : Fin P → Nat) where
  x : DVec n
  p : DVec n
  s : DVec n
  r : DVec n
  alpha : ℚ
  beta : ℚ
  gamma : ℚ
  gamma_old : ℚ
  i_prod : ℚ
  i : Int
  trace : List Op

/-- How control left `PCG_ParaSails`: the `return` of line 105, the `break` of
line 161, the `break` of line 168, or the loop condition of line 126 failing.
`out_of_fuel` belongs to the model only (the recursion bound of the loop ran
out) and is shown never to occur. -/
inductive Exit
  | zero_rhs | converged | aborted | max_iter | out_of_fuel
  deriving DecidableEq

/-- Lines 128-154: one pass through the loop body up to the stopping tests. -/
def PCG_iter (mat : DVec n → DVec n) (ps : Option (DVec n → DVec n))
    (st : PCGState n) : PCGState n :=
  let s1 := mat st.p
  let sp := InnerProd s1 st.p
  let alpha := st.gamma / sp
  let x := Axpy alpha st.p st.x
  let r := Axpy (-alpha) s1 st.r
  let s2 := match ps with
    | some C => C r
    | none => CopyVector r s1
  { x := x, p := st.p, s := s2, r := r,
    alpha := alpha, beta := st.beta,
    gamma := InnerProd r s2, gamma_old := st.gamma,
    i_prod := InnerProd r r,
    i := st.i + 1,
    trace := st.trace ++
      [Op.MatrixMatvec Buf.p Buf.s, Op.InnerProd Buf.s Buf.p, Op.div sp,
       Op.Axpy Buf.p Buf.x, Op.Axpy Buf.s Buf.r,
       match ps with
       | some _ => Op.ParaSailsApply Buf.r Buf.s
       | none => Op.CopyVector Buf.r Buf.s,
       Op.InnerProd Buf.r Buf.s, Op.InnerProd Buf.r Buf.r] }

/-- Lines 171-176: the direction update `p = s + beta p`. -/
def PCG_dir (st : PCGState n) : PCGState n :=
  let beta := st.gamma / st.gamma_old
  { st with
    beta := beta
    p := Axpy 1 st.s (ScaleVector beta st.p)
    trace := st.trace ++ [Op.div st.gamma_old, Op.ScaleVector Buf.p, Op.Axpy Buf.s Buf.p] }

/-- Line 160: the convergence test. -/
def conv_test (eps : ℚ) (st : PCGState n) : Prop := st.i_prod < eps

/-- Line 164: the non-convergence test (`0.01` read as the exact `1/100`). -/
def stall_test (bi_prod : ℚ) (st : PCGState n) : Prop :=
  st.i ≥ 500 ∧ st.i_prod / bi_prod > 1 / 100

instance (eps : ℚ) (st : PCGState n) : Decidable (conv_test eps st) := by
  unfold conv_test; infer_instance

instance (bi_prod : ℚ) (st : PCGState n) : Decidable (stall_test bi_prod st) := by
  unfold stall_test; infer_instance

/-- Lines 126-177: the `while` loop.  The first argument bounds the number of
times the loop condition is evaluated. -/
def PCG_loop (mat : DVec n → DVec n) (ps : Option (DVec n → DVec n))
    (max_iter : Int) (bi_prod eps : ℚ) : Nat → PCGState n → Exit × PCGState n
  | 0, st => (Exit.out_of_fuel, st)
  | fuel + 1, st =>
    if st.i + 1 ≤ max_iter then
      let st1 := PCG_iter mat ps st
      if conv_test eps st1 then (Exit.converged, st1)
      else if stall_test bi_prod st1 then (Exit.aborted, st1)
      else PCG_loop mat ps max_iter bi_prod eps fuel (PCG_dir st1)
    else (Exit.max_iter, st)

/-- Lines 108-124: allocation of the work vectors, `r = b - A x`, `p = C r`,
`gamma = <r,p>`.  The work vectors and scalars hold no defined value before
their first assignment; the model starts them at zero. -/
def PCG_init (mat : DVec n → DVec n) (ps : Option (DVec n → DVec n))
    (b x : DVec n) : PCGState n :=
  let r := Axpy 1 b (ScaleVector (-1) (mat x))
  let p := match ps with
    | some C => C r
    | none => CopyVector r 0
  { x := x, p := p, s := 0, r := r,
    alpha := 0, beta := 0, gamma := InnerProd r p, gamma_old := 0, i_prod := 0,
    i := 0,
    trace :=
      [Op.InnerProd Buf.b Buf.b,
       Op.malloc Buf.p, Op.malloc Buf.s, Op.malloc Buf.r,
       Op.MatrixMatvec Buf.x Buf.r, Op.ScaleVector Buf.r, Op.Axpy Buf.b Buf.r,
       match ps with
       | some _ => Op.ParaSailsApply Buf.r Buf.p
       | none => Op.CopyVector Buf.r Buf.p,
       Op.InnerProd Buf.r Buf.p] }

/-- Lines 179-189: the work vectors are freed, then the residual `r = b - A x`
and its squared norm are computed once more for the final report. -/
def PCG_final (mat : DVec n → DVec n) (b : DVec n) (st : PCGState n) : PCGState n :=
  let r := Axpy 1 b (ScaleVector (-1) (mat st.x))
  { st with
    r := r
    i_prod := InnerProd r r
    trace := st.trace ++
      [Op.free Buf.p, Op.free Buf.s, Op.free Buf.r,
       Op.MatrixMatvec Buf.x Buf.r, Op.ScaleVector Buf.r, Op.Axpy Buf.b Buf.r,
       Op.InnerProd Buf.r Buf.r] }

/-- The state in which the loop of lines 126-177 is left, with the way it was
left; `bi_prod` is assumed nonzero here (the caller has passed line 101). -/
def PCG_run (mat : DVec n → DVec n) (ps : Option (DVec n → DVec n))
    (b x : DVec n) (tol : ℚ) (max_iter : Int) : Exit × PCGState n :=
  let bi_prod := InnerProd b b
  let eps := (tol * tol) * bi_prod
  PCG_loop mat ps max_iter bi_prod eps (max_iter.toNat + 1) (PCG_init mat ps b x)

/-- `PCG_ParaSails(mat, ps, b, x, tol, max_iter)`, lines 79-192: the way control
left the function and the final values of its variables; the caller sees the
buffer `x` only. -/
def PCG_ParaSails (mat : DVec n → DVec n) (ps : Option (DVec n → DVec n))
    (b x : DVec n) (tol : ℚ) (max_iter : Int) : Exit × PCGState n :=
  let bi_prod := InnerProd b b
  if bi_prod = 0 then
    (Exit.zero_rhs,
      { x := CopyVector b x, p := 0, s := 0, r := 0,
        alpha := 0, beta := 0, gamma := 0, gamma_old := 0, i_prod := 0, i := 0,
        trace := [Op.InnerProd Buf.b Buf.b, Op.CopyVector Buf.b Buf.x] })
  else
    let res := PCG_run mat ps b x tol max_iter
    (res.1, PCG_final mat b res.2)

/-! ## The run without its stopping tests

The vectors and scalars computed in a pass of the loop do not depend on `tol`
or on `max_iter`; the loop only decides where this sequence is cut. -/

/-- The state at the head of the loop after `j` passes through the whole loop
body (lines 128-154 and 171-176), started in `st`. -/
def PCG_top (mat : DVec n → DVec n) (ps : Option (DVec n → DVec n))
    (st : PCGState n) (j : Nat) : PCGState n :=
  (fun t => PCG_dir (PCG_iter mat ps t))^[j] st

/-- The state at the stopping tests (line 160) of pass `j + 1`, started in `st`. -/
def PCG_at (mat : DVec n → DVec n) (ps : Option (DVec n → DVec n))
    (st : PCGState n) (j : Nat) : PCGState n :=
  PCG_iter mat ps (PCG_top mat ps st j)

/-- The values held by the variables of the solve, without the call trace. -/
def PCGState.vals (st : PCGState n) :
    DVec n × DVec n × DVec n × DVec n × ℚ × ℚ × ℚ × ℚ × ℚ × Int :=
  (st.x, st.p, st.s, st.r, st.alpha, st.beta, st.gamma, st.gamma_old, st.i_prod, st.i)

/-! ## Concrete inputs

Two ranks share three rows: rank 0 owns two of them and rank 1 owns one. -/

/-- The local sizes of the two ranks. -/
abbrev n21 : Fin 2 → Nat := ![2, 1]

/-- The distributed vector `(a0, a1 | a2)`. -/
def vec21 (a0 a1 a2 : ℚ) : DVec n21 := fun k =>
  match k with
  | ⟨0, _⟩ => ![a0, a1]
  | ⟨1, _⟩ => ![a2]

/-- The product with the diagonal matrix `diag(d0, d1, d2)`. -/
def diag21 (d0 d1 d2 : ℚ) : DVec n21 → DVec n21 := fun v =>
  vec21 (d0 * v 0 (0 : Fin 2)) (d1 * v 0 (1 : Fin 2)) (d2 * v 1 (0 : Fin 1))

/-! ## The global view of a distributed vector -/

/-- The global vector held by the ranks: their local arrays one after the other. -/
def concat : {Q : Nat} → {m : Fin Q → Nat} → DVec m → List ℚ
  | 0, _, _ => []
  | _ + 1, _, x => List.ofFn (x 0) ++ concat fun k => x k.succ

/-- The dot product of two global vectors. -/
def dot (u v : List ℚ) : ℚ := (List.zipWith (fun a c => a * c) u v).sum

/-- Two operators on differently distributed vectors are the same global operator. -/
def same_global_op {P₁ P₂ : Nat} {n₁ : Fin P₁ → Nat} {n₂ : Fin P₂ → Nat}
    (f₁ : DVec n₁ → DVec n₁) (f₂ : DVec n₂ → DVec n₂) : Prop :=
  ∀ u₁ u₂, concat u₁ = concat u₂ → concat (f₁ u₁) = concat (f₂ u₂)

/-- Two optional preconditioners are the same globally: both absent, or both
present and the same global operator. -/
def same_global_ps {P₁ P₂ : Nat} {n₁ : Fin P₁ → Nat} {n₂ : Fin P₂ → Nat} :
    Option (DVec n₁ → DVec n₁) → Option (DVec n₂ → DVec n₂) → Prop
  | none, none => True
  | some C₁, some C₂ => same_global_op C₁ C₂
  | _, _ => False

/-- The values held by the variables of the solve, the vectors in their global view. -/
def PCGState.gvals (st : PCGState n) :
    List ℚ × List ℚ × List ℚ × List ℚ × ℚ × ℚ × ℚ × ℚ × ℚ × Int :=
  (concat st.x, concat st.p, concat st.s, concat st.r,
    st.alpha, st.beta, st.gamma, st.gamma_old, st.i_prod, st.i)

/-- One rank owning three rows. -/
abbrev n3 : Fin 1 → Nat := fun _ => 3

/-- The vector `(a0, a1, a2)` on one rank. -/
def vec3 (a0 a1 a2 : ℚ) : DVec n3 := fun _ => ![a0, a1, a2]

/-- The product with `diag(d0, d1, d2)` on one rank. -/
def diag3 (d0 d1 d2 : ℚ) : DVec n3 → DVec n3 := fun v =>
  vec3 (d0 * v 0 (0 : Fin 3)) (d1 * v 0 (1 : Fin 3)) (d2 * v 0 (2 : Fin 3))

/-! ## Buffers written by the operations -/

/-- The buffer an operation stores into, if any (`malloc` and `free` change no
contents; an inner product and a division store into scalars). -/
def Op.writes : Op → Option Buf
  | Op.InnerProd _ _ => none
  | Op.CopyVector _ dst => some dst
  | Op.ScaleVector v => some v
  | Op.Axpy _ dst => some dst
  | Op.MatrixMatvec _ dst => some dst
  | Op.ParaSailsApply _ dst => some dst
  | Op.malloc _ => none
  | Op.free _ => none
  | Op.div _ => none

/-! ## What the caller holds after the call -/

/-- What `PCG_ParaSails` hands back: the function is `void` (line 79) and the
assignment `num_iterations = i` is commented out (line 191), so the contents
of the caller's buffer `x` are all the caller receives. -/
def PCG_ParaSails_handed_back (mat : DVec n → DVec n) (ps : Option (DVec n → DVec n))
    (b x : DVec n) (tol : ℚ) (max_iter : Int) : DVec n :=
  (PCG_ParaSails mat ps b x tol max_iter).2.x

/-- A caller's array on every rank; the solve receives a bare `double *` and
does not know its length. -/
abbrev Arrays (P : Nat) := Fin P → List ℚ

/-- The first `n k` entries of rank `k`'s array, which is all the solve reads
of it (the model reads 0 past the end of a shorter array; in C that read is out
of bounds). -/
def window (n : Fin P → Nat) (a : Arrays P) : DVec n := fun k j => (a k).getD j.val 0

/-- The arrays after `v` has been stored into their first `n k` entries. -/
def store (a : Arrays P) (v : DVec n) : Arrays P :=
  fun k => List.ofFn (v k) ++ (a k).drop (n k)

/-- `PCG_ParaSails` called on arrays `b` and `x` of any length: the local size
comes from the matrix alone (line 90) and every routine is given that size. -/
def PCG_ParaSails_arrays (n : Fin P → Nat) (mat : DVec n → DVec n)
    (ps : Option (DVec n → DVec n)) (b x : Arrays P) (tol : ℚ) (max_iter : Int) :
    Exit × Arrays P :=
  ((PCG_ParaSails mat ps (window n b) (window n x) tol max_iter).1,
    store x (PCG_ParaSails mat ps (window n b) (window n x) tol max_iter).2.x)

/-- Arrays on the two ranks of `n21`. -/
def arr21 (a0 a1 : List ℚ) : Arrays 2 := fun k =>
  match k with
  | ⟨0, _⟩ => a0
  | ⟨1, _⟩ => a1

/-! ## An input on the boundary of the non-convergence test

The residual of pass 500 of the solve below has squared norm exactly `<b,b> / 100`. -/

/-- The number of calls of `MatrixMatvec` recorded in a trace. -/
def count_MatrixMatvec (t : List Op) : Nat :=
  t.countP fun op =>
    match op with
    | Op.MatrixMatvec _ _ => true
    | _ => false

/-- The number of calls of `InnerProd` recorded in a trace. -/
def count_InnerProd (t : List Op) : Nat :=
  t.countP fun op =>
    match op with
    | Op.InnerProd _ _ => true
    | _ => false

/-- The number of calls of `ParaSailsApply` recorded in a trace. -/
def count_ParaSailsApply (t : List Op) : Nat :=
  t.countP fun op =>
    match op with
    | Op.ParaSailsApply _ _ => true
    | _ => false

/-! ## The lifetime of the work vectors -/

/-- The buffers an operation reads or writes. -/
def Op.uses : Op → List Buf
  | Op.InnerProd u v => [u, v]
  | Op.CopyVector src dst => [src, dst]
  | Op.ScaleVector v => [v]
  | Op.Axpy src dst => [src, dst]
  | Op.MatrixMatvec src dst => [src, dst]
  | Op.ParaSailsApply src dst => [src, dst]
  | Op.malloc _ => []
  | Op.free _ => []
  | Op.div _ => []

/-- Which of the work vectors `p`, `s`, `r` are allocated at a point of the run. -/
structure Live where
  p : Bool
  s : Bool
  r : Bool
  deriving DecidableEq

/-- Whether a buffer may be accessed: the caller's `b` and `x` always, a work
vector while it is allocated. -/
def Live.has (l : Live) : Buf → Bool
  | Buf.b => true
  | Buf.x => true
  | Buf.p => l.p
  | Buf.s => l.s
  | Buf.r => l.r

/-- The allocation state after `malloc` (`a = true`) or `free` (`a = false`) of a
work vector. -/
def Live.set (l : Live) (a : Bool) : Buf → Live
  | Buf.b => l
  | Buf.x => l
  | Buf.p => { l with p := a }
  | Buf.s => { l with s := a }
  | Buf.r => { l with r := a }

/-- The effect of one operation on the allocation state; `none` when the
operation accesses a work vector that is not allocated, or frees one that is
not allocated. -/
def lifecycle_step (l : Live) : Op → Option Live
  | Op.malloc v => some (l.set true v)
  | Op.free v => if l.has v then some (l.set false v) else none
  | op => if op.uses.all l.has then some l else none

/-- The allocation state after a trace, started in state `l`; `none` as soon as
an operation accesses or frees a work vector that is not allocated. -/
def lifecycle : Live → List Op → Option Live
  | l, [] => some l
  | l, op :: t =>
    match lifecycle_step l op with
    | some l1 => lifecycle l1 t
    | none => none

/-! ## One rank of the solve

`PCG_ParaSails` as one process runs it, on its own local arrays.  What reaches
the process from the rest of the communicator is taken from a `RankEnv`: the
value each `MPI_Allreduce` delivers, and the local rows of the results of
`MatrixMatvec` and `ParaSailsApply`, which depend on the other processes' parts
of the argument.  The process records the operations it performs, the local
values it contributes to the reductions, and the number of its `printf` calls
(lines 156, 166 and 188, made when `mype == 0`). -/

/-- What one process with `m` local rows receives from the communicator. -/
structure RankEnv (m : Nat) where
  /-- The value stored in `result` by the `c`-th call of `MPI_Allreduce` (line 40). -/
  Allreduce : Nat → ℚ
  /-- The local rows of the matrix product called as the `c`-th operation. -/
  MatrixMatvec : Nat → LVec m → LVec m
  /-- The local rows of the preconditioner application called as the `c`-th operation. -/
  ParaSailsApply : Nat → LVec m → LVec m

/-- The variables of `PCG_ParaSails` on one process, with the operations it has
performed (`calls`), its contributions to the reductions (`sent`) and the
number of lines it has printed. -/
structure RankState (m : Nat) where
  x : LVec m
  p : LVec m
  s : LVec m
  r : LVec m
  alpha : ℚ
  beta : ℚ
  gamma : ℚ
  gamma_old : ℚ
  i_prod : ℚ
  i : Int
  calls : List Op
  sent : List ℚ
  printed : Nat

/-- `InnerProd` (lines 30-44) on one process: the local `ddot_` is contributed
and the reduced value is received. -/
def rank_InnerProd {m : Nat} (env : RankEnv m) (sent : List ℚ) (x y : LVec m) : ℚ × List ℚ :=
  let local_result := ddot_ x y
  (env.Allreduce sent.length, sent ++ [local_result])

/-- A `printf` guarded by `if (mype == 0)`. -/
def rank_printf (mype : Int) (printed : Nat) : Nat :=
  if mype = 0 then printed + 1 else printed

/-- Lines 128-157 on one process. -/
def rank_iter {m : Nat} (env : RankEnv m) (ps : Bool) (mype : Int) (st : RankState m) :
    RankState m :=
  let s1 := env.MatrixMatvec st.calls.length st.p
  let sp := rank_InnerProd env st.sent s1 st.p
  let alpha := st.gamma / sp.1
  let x := daxpy_ alpha st.p st.x
  let r := daxpy_ (-alpha) s1 st.r
  let s2 := if ps then env.ParaSailsApply (st.calls.length + 5) r else dcopy_ r s1
  let rs := rank_InnerProd env sp.2 r s2
  let rr := rank_InnerProd env rs.2 r r
  { x := x, p := st.p, s := s2, r := r,
    alpha := alpha, beta := st.beta,
    gamma := rs.1, gamma_old := st.gamma,
    i_prod := rr.1,
    i := st.i + 1,
    calls := st.calls ++
      [Op.MatrixMatvec Buf.p Buf.s, Op.InnerProd Buf.s Buf.p, Op.div sp.1,
       Op.Axpy Buf.p Buf.x, Op.Axpy Buf.s Buf.r,
       if ps then Op.ParaSailsApply Buf.r Buf.s else Op.CopyVector Buf.r Buf.s,
       Op.InnerProd Buf.r Buf.s, Op.InnerProd Buf.r Buf.r],
    sent := rr.2,
    printed := rank_printf mype st.printed }

/-- Lines 171-176 on one process. -/
def rank_dir {m : Nat} (st : RankState m) : RankState m :=
  let beta := st.gamma / st.gamma_old
  { st with
    beta := beta
    p := daxpy_ 1 st.s (dscal_ beta st.p)
    calls := st.calls ++ [Op.div st.gamma_old, Op.ScaleVector Buf.p, Op.Axpy Buf.s Buf.p] }

/-- Lines 126-177 on one process; the first argument bounds the number of times
the loop condition is evaluated. -/
def rank_loop {m : Nat} (env : RankEnv m) (ps : Bool) (mype : Int)
    (max_iter : Int) (bi_prod eps : ℚ) : Nat → RankState m → Exit × RankState m
  | 0, st => (Exit.out_of_fuel, st)
  | fuel + 1, st =>
    if st.i + 1 ≤ max_iter then
      let st1 := rank_iter env ps mype st
      if st1.i_prod < eps then (Exit.converged, st1)
      else if st1.i ≥ 500 ∧ st1.i_prod / bi_prod > 1 / 100 then
        (Exit.aborted, { st1 with printed := rank_printf mype st1.printed })
      else rank_loop env ps mype max_iter bi_prod eps fuel (rank_dir st1)
    else (Exit.max_iter, st)

/-- Lines 108-124 on one process, after the reduction of `<b,b>`. -/
def rank_init {m : Nat} (env : RankEnv m) (ps : Bool) (b x : LVec m) (sent : List ℚ) :
    RankState m :=
  let r := daxpy_ 1 b (dscal_ (-1) (env.MatrixMatvec 4 x))
  let p := if ps then env.ParaSailsApply 7 r else dcopy_ r 0
  let rp := rank_InnerProd env sent r p
  { x := x, p := p, s := 0, r := r,
    alpha := 0, beta := 0, gamma := rp.1, gamma_old := 0, i_prod := 0,
    i := 0,
    calls :=
      [Op.InnerProd Buf.b Buf.b,
       Op.malloc Buf.p, Op.malloc Buf.s, Op.malloc Buf.r,
       Op.MatrixMatvec Buf.x Buf.r, Op.ScaleVector Buf.r, Op.Axpy Buf.b Buf.r,
       if ps then Op.ParaSailsApply Buf.r Buf.p else Op.CopyVector Buf.r Buf.p,
       Op.InnerProd Buf.r Buf.p],
    sent := rp.2,
    printed := 0 }

/-- Lines 179-189 on one process. -/
def rank_final {m : Nat} (env : RankEnv m) (mype : Int) (b : LVec m) (st : RankState m) :
    RankState m :=
  let r := daxpy_ 1 b (dscal_ (-1) (env.MatrixMatvec (st.calls.length + 3) st.x))
  let rr := rank_InnerProd env st.sent r r
  { st with
    r := r
    i_prod := rr.1
    calls := st.calls ++
      [Op.free Buf.p, Op.free Buf.s, Op.free Buf.r,
       Op.MatrixMatvec Buf.x Buf.r, Op.ScaleVector Buf.r, Op.Axpy Buf.b Buf.r,
       Op.InnerProd Buf.r Buf.r]
    sent := rr.2
    printed := rank_printf mype st.printed }

/-- `PCG_ParaSails` (lines 79-192) as the process with rank `mype` runs it;
`ps` tells whether the pointer `ps` is non-null. -/
def rank_PCG_ParaSails {m : Nat} (env : RankEnv m) (ps : Bool) (mype : Int)
    (b x : LVec m) (tol : ℚ) (max_iter : Int) : Exit × RankState m :=
  let bb := rank_InnerProd env [] b b
  let bi_prod := bb.1
  let eps := (tol * tol) * bi_prod
  if bi_prod = 0 then
    (Exit.zero_rhs,
      { x := dcopy_ b x, p := 0, s := 0, r := 0,
        alpha := 0, beta := 0, gamma := 0, gamma_old := 0, i_prod := 0, i := 0,
        calls := [Op.InnerProd Buf.b Buf.b, Op.CopyVector Buf.b Buf.x],
        sent := bb.2,
        printed := 0 })
  else
    let res := rank_loop env ps mype max_iter bi_prod eps (max_iter.toNat + 1)
      (rank_init env ps b x bb.2)
    (res.1, rank_final env mype b res.2)

/-- The calls that involve the whole communicator: `InnerProd` and `MatrixMatvec`. -/
def Op.collective : Op → Bool
  | Op.InnerProd _ _ => true
  | Op.MatrixMatvec _ _ => true
  | _ => false

/-- What the control flow of a process can depend on and what it shows of
itself: the reduced scalars, the counter, the number of reductions made and
the sequence of `InnerProd` and `MatrixMatvec` calls. -/
def RankState.control {m : Nat} (st : RankState m) : ℚ × ℚ × ℚ × Int × Nat × List Op :=
  (st.gamma, st.gamma_old, st.i_prod, st.i, st.sent.length, st.calls.filter Op.collective)

/-- The state of a process without its count of printed lines. -/
def RankState.unprinted {m : Nat} (st : RankState m) : RankState m :=
  { st with printed := 0 }

/-- The reductions of the solve of `diag(1,2,3) x = (1,2,3)` from `x = 0`
without a preconditioner, in program order. -/
def red21 : List ℚ :=
  [14, 14, 36, 133 / 162, 133 / 162, 4067 / 2916, 684 / 6889, 684 / 6889,
   77976 / 571787, 0, 0, 0]

/-- Rank 0 of two (rows 1 and 2) in that solve. -/
def env21_0 : RankEnv 2 where
  Allreduce := fun c => red21.getD c 0
  MatrixMatvec := fun _ v => ![1 * v 0, 2 * v 1]
  ParaSailsApply := fun _ v => v

/-- Rank 1 of two (row 3) in that solve. -/
def env21_1 : RankEnv 1 where
  Allreduce := fun c => red21.getD c 0
  MatrixMatvec := fun _ v => ![3 * v 0]
  ParaSailsApply := fun _ v => v

end ConjGrad

/-! # Method dispatch by name (`sidl_DFinder_IOR.c`)

`ior_sidl_DFinder__exec` (lines 408-441 of `babel-runtime/sidl/sidl_DFinder_IOR.c`)
looks the method name up in a static table by binary search and calls the
function stored with it.

* A `const char *` is `none` for the null pointer and otherwise the string it
  points to; a C string holds no NUL character.
* `strcmp` is the C library's: the difference of the first two characters that
  differ, as unsigned values, the end of a string counting as `0`.  The code
  reads its sign only.
* The ten functions of the table are kept as the names of an enumeration; the
  result of the dispatch is the list of the calls it has made.
* `int` is modelled by natural numbers: `l`, `u` and `i` stay between `0` and
  the table size `10`. -/

namespace DFinder

/-- The functions stored in the method table (lines 414-423). -/
inductive Handler
  | sidl_DFinder_addRef__exec
  | sidl_DFinder_addSearchPath__exec
  | sidl_DFinder_deleteRef__exec
  | sidl_DFinder_findLibrary__exec
  | sidl_DFinder_getClassInfo__exec
  | sidl_DFinder_getSearchPath__exec
  | sidl_DFinder_isSame__exec
  | sidl_DFinder_isType__exec
  | sidl_DFinder_queryInt__exec
  | sidl_DFinder_setSearchPath__exec
  deriving DecidableEq

/-- `struct sidl_DFinder__method` (lines 400-405). -/
structure sidl_DFinder__method where
  d_name : String
  d_func : Handler

/-- The table `s_methods` of lines 413-424. -/
def s_methods : List sidl_DFinder__method :=
  [ ⟨"addRef", Handler.sidl_DFinder_addRef__exec⟩,
    ⟨"addSearchPath", Handler.sidl_DFinder_addSearchPath__exec⟩,
    ⟨"deleteRef", Handler.sidl_DFinder_deleteRef__exec⟩,
    ⟨"findLibrary", Handler.sidl_DFinder_findLibrary__exec⟩,
    ⟨"getClassInfo", Handler.sidl_DFinder_getClassInfo__exec⟩,
    ⟨"getSearchPath", Handler.sidl_DFinder_getSearchPath__exec⟩,
    ⟨"isSame", Handler.sidl_DFinder_isSame__exec⟩,
    ⟨"isType", Handler.sidl_DFinder_isType__exec⟩,
    ⟨"queryInt", Handler.sidl_DFinder_queryInt__exec⟩,
    ⟨"setSearchPath", Handler.sidl_DFinder_setSearchPath__exec⟩ ]

/-- `strcmp` on the characters of two strings. -/
def strcmp_chars : List Char → List Char → Int
  | [], [] => 0
  | [], c :: _ => -(c.toNat : Int)
  | a :: _, [] => (a.toNat : Int)
  | a :: s, c :: t => if a = c then strcmp_chars s t else (a.toNat : Int) - (c.toNat : Int)

/-- `strcmp(s, t)`. -/
def strcmp (s t : String) : Int := strcmp_chars s.data t.data

/-- The loop of lines 428-436 with bounds `l` and `u`: the calls made before the
function returns.  The first argument bounds the number of times the loop
condition is evaluated; the result is `none` when that bound is exhausted or
when the table is indexed outside its ten entries. -/
def exec_loop (methodName : String) : Nat → Nat → Nat → Option (List Handler)
  | 0, _, _ => none
  | fuel + 1, l, u =>
    if l < u then
      let i := (l + u) >>> 1
      match s_methods[i]? with
      | none => none
      | some e =>
        let cmp := strcmp methodName e.d_name
        if cmp = 0 then some [e.d_func]
        else if cmp < 0 then exec_loop methodName fuel l i
        else exec_loop methodName fuel (i + 1) u
    else some []

/-- `ior_sidl_DFinder__exec(self, methodName, inArgs, outArgs)`, lines 408-439:
the calls of table functions it makes. -/
def ior_sidl_DFinder__exec (methodName : Option String) : Option (List Handler) :=
  let l := 0
  let u := s_methods.length
  match methodName with
  | some name => exec_loop name (u + 1) l u
  | none => some []

end DFinder

/-! # Process-grid coordinates (`test/IJ_linear_solvers_b.c`)

`BuildParLaplacian` (lines 1655-1657), `BuildParDifConv` (lines 1820-1822) and
`BuildParLaplacian27pt` (lines 2200-2202) compute the coordinates of a process
in the `P x Q x R` grid by the same three statements, after the check
`(P*Q*R) != num_procs` has passed.  All variables are `int`; C's `/` and `%`
truncate toward zero (`Int.tdiv`, `Int.tmod`). -/

namespace IJ_linear_solvers

/-- The value an `int` holds when the exact result of an operation is `z`
(32 bits, two's complement). -/
def int32 (z : Int) : Int := (z + 2147483648) % 4294967296 - 2147483648

/-- The statements `p = myid % P; q = (( myid - p)/P) % Q;
r = ( myid - p - P*q)/( P*Q );` with every operation carried out on `int`. -/
def compute_pqr (P Q myid : Int) : Int × Int × Int :=
  let p := int32 (myid.tmod P)
  let q := int32 ((int32 ((int32 (myid - p)).tdiv P)).tmod Q)
  let r := int32 ((int32 (int32 (myid - p) - int32 (P * q))).tdiv (int32 (P * Q)))
  (p, q, r)

/-- The same three formulas on exact integers. -/
def pqr_exact (P Q myid : Int) : Int × Int × Int :=
  let p := myid.tmod P
  let q := ((myid - p).tdiv P).tmod Q
  let r := (myid - p - P * q).tdiv (P * Q)
  (p, q, r)

end IJ_linear_solvers

namespace ConjGrad

variable {P : Nat} {n : Fin P → Nat}

/-! ## The loop counter as an `int`

`i` and `max_iter` are `int` in the source.  The loop below evaluates `i + 1`
(line 126) and `i++` (line 128) on 32 bits; an overflowing result, which C
leaves undefined, is given its usual two's complement value.  For
`max_iter < INT_MAX` no result overflows and this loop is the loop `PCG_loop`
on exact integers. -/

/-- The value an `int` holds when the exact result of an operation is `z`
(32 bits, two's complement). -/
def int_wrap (z : Int) : Int := (z + 2147483648) % 4294967296 - 2147483648

/-- Lines 126-177 with the counter held in an `int`.  The first argument bounds
the number of times the loop condition is evaluated. -/
def PCG_loop_int (mat : DVec n → DVec n) (ps : Option (DVec n → DVec n))
    (max_iter : Int) (bi_prod eps : ℚ) : Nat → PCGState n → Exit × PCGState n
  | 0, st => (Exit.out_of_fuel, st)
  | fuel + 1, st =>
    if int_wrap (st.i + 1) ≤ max_iter then
      let st1 := { PCG_iter mat ps st with i := int_wrap (st.i + 1) }
      if conv_test eps st1 then (Exit.converged, st1)
      else if stall_test bi_prod st1 then (Exit.aborted, st1)
      else PCG_loop_int mat ps max_iter bi_prod eps fuel (PCG_dir st1)
    else (Exit.max_iter, st)

/-- `PCG_ParaSails` (lines 79-192) with the counter held in an `int`, its loop
allowed `fuel` evaluations of the loop condition. -/
def PCG_ParaSails_int (fuel : Nat) (mat : DVec n → DVec n) (ps : Option (DVec n → DVec n))
    (b x : DVec n) (tol : ℚ) (max_iter : Int) : Exit × PCGState n :=
  let bi_prod := InnerProd b b
  let eps := (tol * tol) * bi_prod
  if bi_prod = 0 then
    (Exit.zero_rhs,
      { x := CopyVector b x, p := 0, s := 0, r := 0,
        alpha := 0, beta := 0, gamma := 0, gamma_old := 0, i_prod := 0, i := 0,
        trace := [Op.InnerProd Buf.b Buf.b, Op.CopyVector Buf.b Buf.x] })
  else
    let res := PCG_loop_int mat ps max_iter bi_prod eps fuel (PCG_init mat ps b x)
    (res.1, PCG_final mat b res.2)

/-! ## Vector algebra of the wrappers -/

theorem Axpy_eq (a : ℚ) (x y : DVec n) : Axpy a x y = a • x + y := by
  funext k j; simp [Axpy, daxpy_]

theorem ScaleVector_eq (a : ℚ) (x : DVec n) : ScaleVector a x = a • x := by
  funext k j; simp [ScaleVector, dscal_]

theorem CopyVector_eq (x y : DVec n) : CopyVector x y = x := rfl

theorem InnerProd_eq_sum (x y : DVec n) : InnerProd x y = ∑ k, ∑ j, x k j * y k j := rfl

theorem InnerProd_comm (x y : DVec n) : InnerProd x y = InnerProd y x := by
  simp only [InnerProd_eq_sum, mul_comm]

theorem InnerProd_add_left (x y z : DVec n) :
    InnerProd (x + y) z = InnerProd x z + InnerProd y z := by
  simp only [InnerProd_eq_sum, Pi.add_apply, add_mul, Finset.sum_add_distrib]

theorem InnerProd_smul_left (a : ℚ) (x z : DVec n) :
    InnerProd (a • x) z = a * InnerProd x z := by
  simp only [InnerProd_eq_sum, Pi.smul_apply, smul_eq_mul, mul_assoc, Finset.mul_sum]

theorem InnerProd_add_right (x y z : DVec n) :
    InnerProd x (y + z) = InnerProd x y + InnerProd x z := by
  rw [InnerProd_comm, InnerProd_add_left, InnerProd_comm y, InnerProd_comm z]

theorem InnerProd_smul_right (a : ℚ) (x z : DVec n) :
    InnerProd x (a • z) = a * InnerProd x z := by
  rw [InnerProd_comm, InnerProd_smul_left, InnerProd_comm]

theorem InnerProd_zero_left (z : DVec n) : InnerProd 0 z = 0 := by
  simp [InnerProd_eq_sum]

theorem InnerProd_zero_right (z : DVec n) : InnerProd z 0 = 0 := by
  simp [InnerProd_eq_sum]

theorem InnerProd_self_nonneg (x : DVec n) : 0 ≤ InnerProd x x := by
  rw [InnerProd_eq_sum]
  exact Finset.sum_nonneg fun k _ => Finset.sum_nonneg fun j _ => mul_self_nonneg _

theorem InnerProd_self_eq_zero {x : DVec n} : InnerProd x x = 0 ↔ x = 0 := by
  constructor
  · intro h
    rw [InnerProd_eq_sum] at h
    funext k j
    have h1 := (Finset.sum_eq_zero_iff_of_nonneg
      (fun k _ => Finset.sum_nonneg fun j _ => mul_self_nonneg (x k j))).1 h k (Finset.mem_univ _)
    have h2 := (Finset.sum_eq_zero_iff_of_nonneg
      (fun j _ => mul_self_nonneg (x k j))).1 h1 j (Finset.mem_univ _)
    simpa using h2
  · rintro rfl
    exact InnerProd_zero_left 0

theorem InnerProd_self_pos {x : DVec n} (h : x ≠ 0) : 0 < InnerProd x x :=
  lt_of_le_of_ne (InnerProd_self_nonneg x) fun h0 => h (InnerProd_self_eq_zero.1 h0.symm)

/-! ## The loop and the sequence of passes -/

theorem PCG_iter_i (mat : DVec n → DVec n) (ps : Option (DVec n → DVec n)) (st : PCGState n) :
    (PCG_iter mat ps st).i = st.i + 1 := rfl

theorem PCG_dir_i (st : PCGState n) : (PCG_dir st).i = st.i := rfl

theorem PCG_top_zero (mat : DVec n → DVec n) (ps : Option (DVec n → DVec n)) (st : PCGState n) :
    PCG_top mat ps st 0 = st := rfl

theorem PCG_top_succ (mat : DVec n → DVec n) (ps : Option (DVec n → DVec n)) (st : PCGState n)
    (j : Nat) : PCG_top mat ps st (j + 1) = PCG_dir (PCG_at mat ps st j) := by
  unfold PCG_at PCG_top
  exact Function.iterate_succ_apply' _ _ _

theorem PCG_top_shift (mat : DVec n → DVec n) (ps : Option (DVec n → DVec n)) (st : PCGState n)
    (j : Nat) : PCG_top mat ps st (j + 1) = PCG_top mat ps (PCG_dir (PCG_iter mat ps st)) j := by
  unfold PCG_top
  exact Function.iterate_succ_apply _ _ _

theorem PCG_at_shift (mat : DVec n → DVec n) (ps : Option (DVec n → DVec n)) (st : PCGState n)
    (j : Nat) : PCG_at mat ps st (j + 1) = PCG_at mat ps (PCG_dir (PCG_iter mat ps st)) j := by
  unfold PCG_at
  rw [PCG_top_shift]

theorem PCG_top_i (mat : DVec n → DVec n) (ps : Option (DVec n → DVec n)) (st : PCGState n)
    (j : Nat) : (PCG_top mat ps st j).i = st.i + j := by
  induction j with
  | zero => simp [PCG_top_zero]
  | succ j ih =>
    rw [PCG_top_succ, PCG_dir_i, PCG_at, PCG_iter_i, ih]
    push_cast; ring

theorem PCG_at_i (mat : DVec n → DVec n) (ps : Option (DVec n → DVec n)) (st : PCGState n)
    (j : Nat) : (PCG_at mat ps st j).i = st.i + j + 1 := by
  rw [PCG_at, PCG_iter_i, PCG_top_i]

/-- How the loop is left: it runs through the passes of `PCG_at` and stops at
the first one whose stopping test holds, or when the loop condition fails. -/
theorem PCG_loop_spec (mat : DVec n → DVec n) (ps : Option (DVec n → DVec n))
    (max_iter : Int) (bi_prod eps : ℚ) (fuel : Nat) (st : PCGState n) :
    ∃ m : Nat, m ≤ fuel ∧
      (∀ j < m, st.i + j + 1 ≤ max_iter ∧ ¬ conv_test eps (PCG_at mat ps st j) ∧
        ¬ stall_test bi_prod (PCG_at mat ps st j)) ∧
      ((PCG_loop mat ps max_iter bi_prod eps fuel st = (Exit.converged, PCG_at mat ps st m) ∧
          st.i + m + 1 ≤ max_iter ∧ conv_test eps (PCG_at mat ps st m)) ∨
       (PCG_loop mat ps max_iter bi_prod eps fuel st = (Exit.aborted, PCG_at mat ps st m) ∧
          st.i + m + 1 ≤ max_iter ∧ ¬ conv_test eps (PCG_at mat ps st m) ∧
          stall_test bi_prod (PCG_at mat ps st m)) ∨
       (PCG_loop mat ps max_iter bi_prod eps fuel st = (Exit.max_iter, PCG_top mat ps st m) ∧
          ¬ st.i + m + 1 ≤ max_iter) ∨
       (PCG_loop mat ps max_iter bi_prod eps fuel st = (Exit.out_of_fuel, PCG_top mat ps st m) ∧
          m = fuel)) := by
  induction fuel generalizing st with
  | zero =>
    exact ⟨0, le_refl _, fun j hj => absurd hj (Nat.not_lt_zero j),
      Or.inr (Or.inr (Or.inr ⟨rfl, rfl⟩))⟩
  | succ fuel ih =>
    by_cases hc : st.i + 1 ≤ max_iter
    · by_cases hconv : conv_test eps (PCG_iter mat ps st)
      · refine ⟨0, Nat.zero_le _, fun j hj => absurd hj (Nat.not_lt_zero j), Or.inl ⟨?_, ?_, ?_⟩⟩
        · simp [PCG_loop, hc, hconv, PCG_at, PCG_top_zero]
        · simpa using hc
        · simpa [PCG_at, PCG_top_zero] using hconv
      · by_cases hstall : stall_test bi_prod (PCG_iter mat ps st)
        · refine ⟨0, Nat.zero_le _, fun j hj => absurd hj (Nat.not_lt_zero j),
            Or.inr (Or.inl ⟨?_, ?_, ?_, ?_⟩)⟩
          · simp [PCG_loop, hc, hconv, hstall, PCG_at, PCG_top_zero]
          · simpa using hc
          · simpa [PCG_at, PCG_top_zero] using hconv
          · simpa [PCG_at, PCG_top_zero] using hstall
        · obtain ⟨m, hm, hbefore, hexit⟩ := ih (PCG_dir (PCG_iter mat ps st))
          have hi : (PCG_dir (PCG_iter mat ps st)).i = st.i + 1 := rfl
          have hloop : PCG_loop mat ps max_iter bi_prod eps (fuel + 1) st =
              PCG_loop mat ps max_iter bi_prod eps fuel (PCG_dir (PCG_iter mat ps st)) := by
            simp [PCG_loop, hc, hconv, hstall]
          refine ⟨m + 1, Nat.succ_le_succ hm, ?_, ?_⟩
          · intro j hj
            cases j with
            | zero =>
              exact ⟨by simpa using hc, by simpa [PCG_at, PCG_top_zero] using hconv,
                by simpa [PCG_at, PCG_top_zero] using hstall⟩
            | succ j =>
              have := hbefore j (Nat.lt_of_succ_lt_succ hj)
              rw [hi] at this
              rw [PCG_at_shift]
              refine ⟨?_, this.2.1, this.2.2⟩
              have h1 := this.1
              push_cast
              linarith
          · rw [hloop, PCG_at_shift, PCG_top_shift]
            rw [hi] at hexit
            have e : st.i + 1 + (m : Int) + 1 = st.i + ((m + 1 : Nat) : Int) + 1 := by
              push_cast; ring
            rw [e] at hexit
            rcases hexit with h | h | h | h
            · exact Or.inl h
            · exact Or.inr (Or.inl h)
            · exact Or.inr (Or.inr (Or.inl h))
            · exact Or.inr (Or.inr (Or.inr ⟨h.1, by rw [h.2]⟩))
    · refine ⟨0, Nat.zero_le _, fun j hj => absurd hj (Nat.not_lt_zero j),
        Or.inr (Or.inr (Or.inl ⟨?_, ?_⟩))⟩
      · simp [PCG_loop, hc, PCG_top_zero]
      · simpa using hc

/-! ## The two branches of line 101 -/

theorem PCG_ParaSails_zero (mat : DVec n → DVec n) (ps : Option (DVec n → DVec n))
    (b x : DVec n) (tol : ℚ) (max_iter : Int) (h : InnerProd b b = 0) :
    PCG_ParaSails mat ps b x tol max_iter =
      (Exit.zero_rhs,
        { x := CopyVector b x, p := 0, s := 0, r := 0,
          alpha := 0, beta := 0, gamma := 0, gamma_old := 0, i_prod := 0, i := 0,
          trace := [Op.InnerProd Buf.b Buf.b, Op.CopyVector Buf.b Buf.x] }) := by
  simp [PCG_ParaSails, h]

theorem PCG_ParaSails_nonzero (mat : DVec n → DVec n) (ps : Option (DVec n → DVec n))
    (b x : DVec n) (tol : ℚ) (max_iter : Int) (h : InnerProd b b ≠ 0) :
    PCG_ParaSails mat ps b x tol max_iter =
      ((PCG_run mat ps b x tol max_iter).1,
        PCG_final mat b (PCG_run mat ps b x tol max_iter).2) := by
  simp [PCG_ParaSails, h]

/-! ## The loop as it is entered by `PCG_ParaSails` -/

/-- The recursion bound `max_iter.toNat + 1` is never reached: the loop of
`PCG_run` is left by one of its three exits, at the first pass that meets a
stopping test or when the counter has reached `max_iter`. -/
theorem PCG_run_spec (mat : DVec n → DVec n) (ps : Option (DVec n → DVec n))
    (b x : DVec n) (tol : ℚ) (max_iter : Int) :
    ∃ m : Nat,
      (∀ j < m, (j : Int) + 1 ≤ max_iter ∧
        ¬ conv_test (tol * tol * InnerProd b b) (PCG_at mat ps (PCG_init mat ps b x) j) ∧
        ¬ stall_test (InnerProd b b) (PCG_at mat ps (PCG_init mat ps b x) j)) ∧
      ((PCG_run mat ps b x tol max_iter =
            (Exit.converged, PCG_at mat ps (PCG_init mat ps b x) m) ∧
          (m : Int) + 1 ≤ max_iter ∧
          conv_test (tol * tol * InnerProd b b) (PCG_at mat ps (PCG_init mat ps b x) m)) ∨
       (PCG_run mat ps b x tol max_iter =
            (Exit.aborted, PCG_at mat ps (PCG_init mat ps b x) m) ∧
          (m : Int) + 1 ≤ max_iter ∧
          ¬ conv_test (tol * tol * InnerProd b b) (PCG_at mat ps (PCG_init mat ps b x) m) ∧
          stall_test (InnerProd b b) (PCG_at mat ps (PCG_init mat ps b x) m)) ∨
       (PCG_run mat ps b x tol max_iter =
            (Exit.max_iter, PCG_top mat ps (PCG_init mat ps b x) m) ∧
          ¬ (m : Int) + 1 ≤ max_iter)) := by
  obtain ⟨m, hm, hbefore, hexit⟩ := PCG_loop_spec mat ps max_iter (InnerProd b b)
    (tol * tol * InnerProd b b) (max_iter.toNat + 1) (PCG_init mat ps b x)
  have hi : (PCG_init mat ps b x).i = 0 := rfl
  simp only [hi, zero_add] at hbefore hexit
  refine ⟨m, hbefore, ?_⟩
  rcases hexit with h | h | h | h
  · exact Or.inl h
  · exact Or.inr (Or.inl h)
  · exact Or.inr (Or.inr h)
  · exfalso
    have := (hbefore max_iter.toNat (by omega)).1
    omega

/-- The pass at which the loop stops is the first one that meets a stopping test. -/
theorem PCG_run_converged_at (mat : DVec n → DVec n) (ps : Option (DVec n → DVec n))
    (b x : DVec n) (tol : ℚ) (max_iter : Int) (k : Nat)
    (hbefore : ∀ j < k,
        ¬ conv_test (tol * tol * InnerProd b b) (PCG_at mat ps (PCG_init mat ps b x) j) ∧
        ¬ stall_test (InnerProd b b) (PCG_at mat ps (PCG_init mat ps b x) j))
    (hk : (k : Int) + 1 ≤ max_iter)
    (hconv : conv_test (tol * tol * InnerProd b b) (PCG_at mat ps (PCG_init mat ps b x) k)) :
    PCG_run mat ps b x tol max_iter = (Exit.converged, PCG_at mat ps (PCG_init mat ps b x) k) := by
  obtain ⟨m, hm, hexit⟩ := PCG_run_spec mat ps b x tol max_iter
  have hmk : m = k := by
    rcases Nat.lt_trichotomy m k with hlt | heq | hgt
    · exfalso
      rcases hexit with h | h | h
      · exact (hbefore m hlt).1 h.2.2
      · exact (hbefore m hlt).2 h.2.2.2
      · exact h.2 (by omega)
    · exact heq
    · exact absurd hconv (hm k hgt).2.1
  subst hmk
  rcases hexit with h | h | h
  · exact h.1
  · exact absurd hconv h.2.2.1
  · exact absurd hk h.2

theorem PCG_run_aborted_at (mat : DVec n → DVec n) (ps : Option (DVec n → DVec n))
    (b x : DVec n) (tol : ℚ) (max_iter : Int) (k : Nat)
    (hbefore : ∀ j < k,
        ¬ conv_test (tol * tol * InnerProd b b) (PCG_at mat ps (PCG_init mat ps b x) j) ∧
        ¬ stall_test (InnerProd b b) (PCG_at mat ps (PCG_init mat ps b x) j))
    (hk : (k : Int) + 1 ≤ max_iter)
    (hconv : ¬ conv_test (tol * tol * InnerProd b b) (PCG_at mat ps (PCG_init mat ps b x) k))
    (hstall : stall_test (InnerProd b b) (PCG_at mat ps (PCG_init mat ps b x) k)) :
    PCG_run mat ps b x tol max_iter = (Exit.aborted, PCG_at mat ps (PCG_init mat ps b x) k) := by
  obtain ⟨m, hm, hexit⟩ := PCG_run_spec mat ps b x tol max_iter
  have hmk : m = k := by
    rcases Nat.lt_trichotomy m k with hlt | heq | hgt
    · exfalso
      rcases hexit with h | h | h
      · exact (hbefore m hlt).1 h.2.2
      · exact (hbefore m hlt).2 h.2.2.2
      · exact h.2 (by omega)
    · exact heq
    · exact absurd hstall (hm k hgt).2.2
  subst hmk
  rcases hexit with h | h | h
  · exact absurd h.2.2 hconv
  · exact h.1
  · exact absurd hk h.2

theorem PCG_run_max_iter (mat : DVec n → DVec n) (ps : Option (DVec n → DVec n))
    (b x : DVec n) (tol : ℚ) (max_iter : Int)
    (hbefore : ∀ j : Nat, (j : Int) + 1 ≤ max_iter →
        ¬ conv_test (tol * tol * InnerProd b b) (PCG_at mat ps (PCG_init mat ps b x) j) ∧
        ¬ stall_test (InnerProd b b) (PCG_at mat ps (PCG_init mat ps b x) j)) :
    PCG_run mat ps b x tol max_iter =
      (Exit.max_iter, PCG_top mat ps (PCG_init mat ps b x) max_iter.toNat) := by
  obtain ⟨m, hm, hexit⟩ := PCG_run_spec mat ps b x tol max_iter
  rcases hexit with h | h | h
  · exact absurd h.2.2 (hbefore m h.2.1).1
  · exact absurd h.2.2.2 (hbefore m h.2.1).2
  · have hmk : m = max_iter.toNat := by
      rcases Nat.eq_zero_or_pos m with h0 | hpos
      · subst h0; have := h.2; omega
      · have h1 := (hm (m - 1) (by omega)).1
        have h2 := h.2
        omega
    rw [← hmk]
    exact h.1

/-- The counter after the loop is the number of passes made. -/
theorem PCG_run_i_nonneg (mat : DVec n → DVec n) (ps : Option (DVec n → DVec n))
    (b x : DVec n) (tol : ℚ) (max_iter : Int) :
    0 ≤ (PCG_run mat ps b x tol max_iter).2.i := by
  obtain ⟨m, -, hexit⟩ := PCG_run_spec mat ps b x tol max_iter
  have hi : (PCG_init mat ps b x).i = 0 := rfl
  rcases hexit with h | h | h <;> rw [h.1] <;> simp only [PCG_at_i, PCG_top_i, hi] <;> omega

theorem PCG_final_i (mat : DVec n → DVec n) (b : DVec n) (st : PCGState n) :
    (PCG_final mat b st).i = st.i := rfl

theorem PCG_final_x (mat : DVec n → DVec n) (b : DVec n) (st : PCGState n) :
    (PCG_final mat b st).x = st.x := rfl

theorem PCG_init_i (mat : DVec n → DVec n) (ps : Option (DVec n → DVec n)) (b x : DVec n) :
    (PCG_init mat ps b x).i = 0 := rfl

theorem PCG_iter_vals_id (mat : DVec n → DVec n) (C : DVec n → DVec n) (hC : ∀ v, C v = v)
    (st1 st2 : PCGState n) (h : st1.vals = st2.vals) :
    (PCG_iter mat (some C) st1).vals = (PCG_iter mat none st2).vals := by
  simp only [PCGState.vals, Prod.mk.injEq] at h
  obtain ⟨hx, hp, -, hr, -, hb, hg, -, -, hi⟩ := h
  simp only [PCGState.vals, PCG_iter, hx, hp, hr, hb, hg, hi, hC, CopyVector_eq]

theorem PCG_dir_vals (st1 st2 : PCGState n) (h : st1.vals = st2.vals) :
    (PCG_dir st1).vals = (PCG_dir st2).vals := by
  simp only [PCGState.vals, Prod.mk.injEq] at h
  obtain ⟨hx, hp, hs, hr, ha, -, hg, hgo, hip, hi⟩ := h
  simp only [PCGState.vals, PCG_dir, hx, hp, hs, hr, ha, hg, hgo, hip, hi]

theorem PCG_init_vals_id (mat : DVec n → DVec n) (C : DVec n → DVec n) (hC : ∀ v, C v = v)
    (b x : DVec n) : (PCG_init mat (some C) b x).vals = (PCG_init mat none b x).vals := by
  simp only [PCGState.vals, PCG_init, hC, CopyVector_eq]

theorem PCG_top_vals_id (mat : DVec n → DVec n) (C : DVec n → DVec n) (hC : ∀ v, C v = v)
    (b x : DVec n) (j : Nat) :
    (PCG_top mat (some C) (PCG_init mat (some C) b x) j).vals =
      (PCG_top mat none (PCG_init mat none b x) j).vals := by
  induction j with
  | zero => exact PCG_init_vals_id mat C hC b x
  | succ j ih =>
    rw [PCG_top_succ, PCG_top_succ]
    exact PCG_dir_vals _ _ (PCG_iter_vals_id mat C hC _ _ ih)

theorem PCG_at_vals_id (mat : DVec n → DVec n) (C : DVec n → DVec n) (hC : ∀ v, C v = v)
    (b x : DVec n) (j : Nat) :
    (PCG_at mat (some C) (PCG_init mat (some C) b x) j).vals =
      (PCG_at mat none (PCG_init mat none b x) j).vals :=
  PCG_iter_vals_id mat C hC _ _ (PCG_top_vals_id mat C hC b x j)

theorem conv_test_vals (eps : ℚ) (st1 st2 : PCGState n) (h : st1.vals = st2.vals) :
    conv_test eps st1 ↔ conv_test eps st2 := by
  simp only [PCGState.vals, Prod.mk.injEq] at h
  simp only [conv_test, h.2.2.2.2.2.2.2.2.1]

theorem stall_test_vals (bi_prod : ℚ) (st1 st2 : PCGState n) (h : st1.vals = st2.vals) :
    stall_test bi_prod st1 ↔ stall_test bi_prod st2 := by
  simp only [PCGState.vals, Prod.mk.injEq] at h
  simp only [stall_test, h.2.2.2.2.2.2.2.2.1, h.2.2.2.2.2.2.2.2.2]

theorem PCG_final_vals (mat : DVec n → DVec n) (b : DVec n) (st1 st2 : PCGState n)
    (h : st1.vals = st2.vals) : (PCG_final mat b st1).vals = (PCG_final mat b st2).vals := by
  simp only [PCGState.vals, Prod.mk.injEq] at h
  obtain ⟨hx, hp, hs, -, ha, hb, hg, hgo, -, hi⟩ := h
  simp only [PCGState.vals, PCG_final, hx, hp, hs, ha, hb, hg, hgo, hi]

/-! ## The iterated residual -/

theorem PCG_init_r (mat : DVec n → DVec n) (ps : Option (DVec n → DVec n)) (b x : DVec n) :
    (PCG_init mat ps b x).r = b - mat x := by
  simp only [PCG_init, Axpy_eq, ScaleVector_eq]
  funext k j
  simp only [Pi.add_apply, Pi.smul_apply, Pi.sub_apply, smul_eq_mul]
  ring

theorem PCG_init_x (mat : DVec n → DVec n) (ps : Option (DVec n → DVec n)) (b x : DVec n) :
    (PCG_init mat ps b x).x = x := rfl

theorem PCG_dir_x (st : PCGState n) : (PCG_dir st).x = st.x := rfl

theorem PCG_dir_r (st : PCGState n) : (PCG_dir st).r = st.r := rfl

theorem PCG_iter_x (mat : DVec n → DVec n) (ps : Option (DVec n → DVec n)) (st : PCGState n) :
    (PCG_iter mat ps st).x = (st.gamma / InnerProd (mat st.p) st.p) • st.p + st.x := by
  simp only [PCG_iter, Axpy_eq]

theorem PCG_iter_r (mat : DVec n → DVec n) (ps : Option (DVec n → DVec n)) (st : PCGState n) :
    (PCG_iter mat ps st).r = st.r - (st.gamma / InnerProd (mat st.p) st.p) • mat st.p := by
  simp only [PCG_iter, Axpy_eq]
  funext k j
  simp only [Pi.add_apply, Pi.smul_apply, Pi.sub_apply, smul_eq_mul]
  ring

theorem PCG_iter_i_prod (mat : DVec n → DVec n) (ps : Option (DVec n → DVec n))
    (st : PCGState n) :
    (PCG_iter mat ps st).i_prod = InnerProd (PCG_iter mat ps st).r (PCG_iter mat ps st).r :=
  rfl

/-- For a linear `mat`, a pass keeps the iterated residual equal to `b - A x`. -/
theorem PCG_iter_residual (mat : DVec n → DVec n) (ps : Option (DVec n → DVec n)) (b : DVec n)
    (hlin : ∀ (a : ℚ) (u v : DVec n), mat (a • u + v) = a • mat u + mat v)
    (st : PCGState n) (h : st.r = b - mat st.x) :
    (PCG_iter mat ps st).r = b - mat (PCG_iter mat ps st).x := by
  rw [PCG_iter_r, PCG_iter_x, hlin, h]
  funext k j
  simp only [Pi.add_apply, Pi.smul_apply, Pi.sub_apply, smul_eq_mul]
  ring

theorem PCG_top_residual (mat : DVec n → DVec n) (ps : Option (DVec n → DVec n)) (b x : DVec n)
    (hlin : ∀ (a : ℚ) (u v : DVec n), mat (a • u + v) = a • mat u + mat v) (j : Nat) :
    (PCG_top mat ps (PCG_init mat ps b x) j).r =
      b - mat (PCG_top mat ps (PCG_init mat ps b x) j).x := by
  induction j with
  | zero => rw [PCG_top_zero, PCG_init_r, PCG_init_x]
  | succ j ih =>
    rw [PCG_top_succ, PCG_dir_r, PCG_dir_x]
    exact PCG_iter_residual mat ps b hlin _ ih

theorem PCG_at_residual (mat : DVec n → DVec n) (ps : Option (DVec n → DVec n)) (b x : DVec n)
    (hlin : ∀ (a : ℚ) (u v : DVec n), mat (a • u + v) = a • mat u + mat v) (j : Nat) :
    (PCG_at mat ps (PCG_init mat ps b x) j).r =
      b - mat (PCG_at mat ps (PCG_init mat ps b x) j).x :=
  PCG_iter_residual mat ps b hlin _ (PCG_top_residual mat ps b x hlin j)

/-! ## The step length -/

theorem PCG_iter_alpha (mat : DVec n → DVec n) (ps : Option (DVec n → DVec n))
    (st : PCGState n) :
    (PCG_iter mat ps st).alpha = st.gamma / InnerProd (mat st.p) st.p := rfl

/-! ## Conjugate gradients on a symmetric positive-definite operator -/

theorem InnerProd_sub_left (x y z : DVec n) :
    InnerProd (x - y) z = InnerProd x z - InnerProd y z := by
  simp only [InnerProd_eq_sum, Pi.sub_apply, sub_mul, Finset.sum_sub_distrib]

theorem InnerProd_sub_right (x y z : DVec n) :
    InnerProd x (y - z) = InnerProd x y - InnerProd x z := by
  rw [InnerProd_comm, InnerProd_sub_left, InnerProd_comm y, InnerProd_comm z]

/-- The residuals and search directions of unpreconditioned conjugate gradients,
as long as no residual vanishes: each residual is orthogonal to the earlier
directions and residuals, and the directions are conjugate. -/
theorem cg_orthogonality (A : DVec n → DVec n) (R D : Nat → DVec n)
    (hsym : ∀ u v, InnerProd (A u) v = InnerProd u (A v))
    (hpd : ∀ u, u ≠ 0 → 0 < InnerProd (A u) u)
    (h0 : D 0 = R 0)
    (hR : ∀ j, R (j + 1) =
      R j - (InnerProd (R j) (R j) / InnerProd (A (D j)) (D j)) • A (D j))
    (hD : ∀ j, D (j + 1) =
      R (j + 1) + (InnerProd (R (j + 1)) (R (j + 1)) / InnerProd (R j) (R j)) • D j)
    (m : Nat) (hne : ∀ j < m, R j ≠ 0) :
    ∀ i j, i < j → j ≤ m →
      InnerProd (R j) (D i) = 0 ∧ InnerProd (R j) (R i) = 0 ∧
      InnerProd (D j) (A (D i)) = 0 := by
  induction m with
  | zero =>
    intro i j hij hj
    omega
  | succ m ih =>
    have IH := ih fun j hj => hne j (Nat.lt_succ_of_lt hj)
    have hG : ∀ i ≤ m, 0 < InnerProd (R i) (R i) := fun i hi =>
      InnerProd_self_pos (hne i (Nat.lt_succ_of_le hi))
    have hRD : ∀ i ≤ m, InnerProd (R i) (D i) = InnerProd (R i) (R i) := by
      intro i hi
      cases i with
      | zero => rw [h0]
      | succ i =>
        rw [hD i, InnerProd_add_right, InnerProd_smul_right,
          (IH i (i + 1) (Nat.lt_succ_self i) hi).1, mul_zero, add_zero]
    have hDne : ∀ i ≤ m, D i ≠ 0 := by
      intro i hi h
      have h1 := hRD i hi
      rw [h, InnerProd_zero_right] at h1
      exact absurd h1.symm (ne_of_gt (hG i hi))
    have hden : ∀ i ≤ m, 0 < InnerProd (A (D i)) (D i) := fun i hi => hpd _ (hDne i hi)
    have h3 : ∀ i ≤ m, InnerProd (R (m + 1)) (D i) = 0 := by
      intro i hi
      rw [hR m, InnerProd_sub_left, InnerProd_smul_left]
      rcases Nat.lt_or_eq_of_le hi with hlt | heq
      · rw [(IH i m hlt (le_refl m)).1, hsym (D m) (D i), (IH i m hlt (le_refl m)).2.2, mul_zero,
          sub_zero]
      · subst heq
        rw [hRD i (le_refl i)]
        have := ne_of_gt (hden i (le_refl i))
        field_simp
    have h1 : ∀ i ≤ m, InnerProd (R (m + 1)) (R i) = 0 := by
      intro i hi
      cases i with
      | zero => rw [← h0]; exact h3 0 hi
      | succ i =>
        have e : R (i + 1) =
            D (i + 1) - (InnerProd (R (i + 1)) (R (i + 1)) / InnerProd (R i) (R i)) • D i := by
          rw [hD i, add_sub_cancel_right]
        rw [e, InnerProd_sub_right, InnerProd_smul_right, h3 (i + 1) hi,
          h3 i (Nat.le_of_succ_le hi), mul_zero, sub_zero]
    have hstep : ∀ i ≤ m,
        InnerProd (R i) (R i) / InnerProd (A (D i)) (D i) * InnerProd (R (m + 1)) (A (D i)) =
          InnerProd (R (m + 1)) (R i) - InnerProd (R (m + 1)) (R (i + 1)) := by
      intro i _
      rw [hR i, InnerProd_sub_right, InnerProd_smul_right]
      ring
    have h2 : ∀ i ≤ m, InnerProd (D (m + 1)) (A (D i)) = 0 := by
      intro i hi
      rw [hD m, InnerProd_add_left, InnerProd_smul_left]
      have hs := hstep i hi
      have hg := ne_of_gt (hG i hi)
      have hd := ne_of_gt (hden i hi)
      rcases Nat.lt_or_eq_of_le hi with hlt | heq
      · rw [h1 i hi, h1 (i + 1) hlt, sub_zero] at hs
        have hX : InnerProd (R (m + 1)) (A (D i)) = 0 := by
          rcases mul_eq_zero.1 hs with h | h
          · exact absurd h (div_ne_zero hg hd)
          · exact h
        rw [hX, (IH i m hlt (le_refl m)).2.2, mul_zero, add_zero]
      · subst heq
        rw [h1 i hi, zero_sub] at hs
        have hcomm : InnerProd (D i) (A (D i)) = InnerProd (A (D i)) (D i) := InnerProd_comm _ _
        rw [hcomm]
        have hX : InnerProd (R (i + 1)) (A (D i)) =
            - InnerProd (R (i + 1)) (R (i + 1)) * InnerProd (A (D i)) (D i) /
              InnerProd (R i) (R i) := by
          field_simp
          field_simp at hs
          linarith
        rw [hX]
        field_simp
    intro i j hij hj
    rcases Nat.lt_or_eq_of_le hj with hlt | heq
    · exact IH i j hij (Nat.le_of_lt_succ hlt)
    · subst heq
      have hi : i ≤ m := Nat.le_of_lt_succ hij
      exact ⟨h3 i hi, h1 i hi, h2 i hi⟩

theorem cg_denominator_pos (A : DVec n → DVec n) (R D : Nat → DVec n)
    (hsym : ∀ u v, InnerProd (A u) v = InnerProd u (A v))
    (hpd : ∀ u, u ≠ 0 → 0 < InnerProd (A u) u)
    (h0 : D 0 = R 0)
    (hR : ∀ j, R (j + 1) =
      R j - (InnerProd (R j) (R j) / InnerProd (A (D j)) (D j)) • A (D j))
    (hD : ∀ j, D (j + 1) =
      R (j + 1) + (InnerProd (R (j + 1)) (R (j + 1)) / InnerProd (R j) (R j)) • D j)
    (m : Nat) (hne : ∀ j ≤ m, R j ≠ 0) :
    0 < InnerProd (A (D m)) (D m) := by
  have horth := cg_orthogonality A R D hsym hpd h0 hR hD m fun j hj => hne j (le_of_lt hj)
  have hRD : InnerProd (R m) (D m) = InnerProd (R m) (R m) := by
    cases m with
    | zero => rw [h0]
    | succ m =>
      rw [hD m, InnerProd_add_right, InnerProd_smul_right,
        (horth m (m + 1) (Nat.lt_succ_self m) (le_refl _)).1, mul_zero, add_zero]
  apply hpd
  intro h
  rw [h, InnerProd_zero_right] at hRD
  exact absurd hRD.symm (ne_of_gt (InnerProd_self_pos (hne m (le_refl m))))

theorem InnerProd_sum_left {ι : Type} (s : Finset ι) (f : ι → DVec n) (w : DVec n) :
    InnerProd (∑ i ∈ s, f i) w = ∑ i ∈ s, InnerProd (f i) w := by
  classical
  induction s using Finset.induction_on with
  | empty => simp [InnerProd_zero_left]
  | insert hi ih => rw [Finset.sum_insert hi, Finset.sum_insert hi, InnerProd_add_left, ih]

theorem finrank_DVec : Module.finrank ℚ (DVec n) = ∑ k, n k := by
  rw [Module.finrank_pi_fintype]
  simp

/-- Nonzero, mutually orthogonal vectors are no more than the global number of rows. -/
theorem orthogonal_count_le (R : Nat → DVec n) (m : Nat) (hne : ∀ j ≤ m, R j ≠ 0)
    (horth : ∀ i j, i < j → j ≤ m → InnerProd (R j) (R i) = 0) :
    m + 1 ≤ ∑ k, n k := by
  have horth2 : ∀ i j : Fin (m + 1), i ≠ j → InnerProd (R i) (R j) = 0 := by
    intro i j hij
    rcases Nat.lt_or_gt_of_ne (fun h => hij (Fin.ext h)) with h | h
    · rw [InnerProd_comm]
      exact horth i j h (Nat.le_of_lt_succ j.2)
    · exact horth j i h (Nat.le_of_lt_succ i.2)
  have hli : LinearIndependent ℚ (fun i : Fin (m + 1) => R i) := by
    rw [linearIndependent_iff']
    intro s g hsum j hj
    have h1 : InnerProd (∑ i ∈ s, g i • R i) (R j) = 0 := by
      rw [hsum, InnerProd_zero_left]
    rw [InnerProd_sum_left] at h1
    have h2 : ∑ i ∈ s, InnerProd (g i • R i) (R j) = g j * InnerProd (R j) (R j) := by
      rw [Finset.sum_eq_single_of_mem j hj]
      · rw [InnerProd_smul_left]
      · intro i _ hij
        rw [InnerProd_smul_left, horth2 i j hij, mul_zero]
    rw [h2] at h1
    rcases mul_eq_zero.1 h1 with h | h
    · exact h
    · exact absurd (InnerProd_self_eq_zero.1 h) (hne j (Nat.le_of_lt_succ j.2))
  have hcard := hli.fintype_card_le_finrank
  rw [Fintype.card_fin, finrank_DVec] at hcard
  exact hcard

/-! ## The passes of the unpreconditioned solve -/

theorem PCG_init_p_none (mat : DVec n → DVec n) (b x : DVec n) :
    (PCG_init mat none b x).p = (PCG_init mat none b x).r := rfl

theorem PCG_iter_gamma_none (mat : DVec n → DVec n) (st : PCGState n) :
    (PCG_iter mat none st).gamma =
      InnerProd (PCG_iter mat none st).r (PCG_iter mat none st).r := rfl

theorem PCG_top_gamma_none (mat : DVec n → DVec n) (b x : DVec n) (j : Nat) :
    (PCG_top mat none (PCG_init mat none b x) j).gamma =
      InnerProd (PCG_top mat none (PCG_init mat none b x) j).r
        (PCG_top mat none (PCG_init mat none b x) j).r := by
  cases j with
  | zero => rfl
  | succ j =>
    rw [PCG_top_succ]
    exact PCG_iter_gamma_none mat _

theorem PCG_top_r_succ (mat : DVec n → DVec n) (ps : Option (DVec n → DVec n))
    (st : PCGState n) (j : Nat) :
    (PCG_top mat ps st (j + 1)).r = (PCG_at mat ps st j).r := by
  rw [PCG_top_succ, PCG_dir_r]

theorem PCG_top_r_none (mat : DVec n → DVec n) (b x : DVec n) (j : Nat) :
    (PCG_top mat none (PCG_init mat none b x) (j + 1)).r =
      (PCG_top mat none (PCG_init mat none b x) j).r -
        (InnerProd (PCG_top mat none (PCG_init mat none b x) j).r
            (PCG_top mat none (PCG_init mat none b x) j).r /
          InnerProd (mat (PCG_top mat none (PCG_init mat none b x) j).p)
            (PCG_top mat none (PCG_init mat none b x) j).p) •
          mat (PCG_top mat none (PCG_init mat none b x) j).p := by
  rw [PCG_top_r_succ, PCG_at, PCG_iter_r, PCG_top_gamma_none]

theorem PCG_dir_p (st : PCGState n) :
    (PCG_dir st).p = st.s + (st.gamma / st.gamma_old) • st.p := by
  simp only [PCG_dir, Axpy_eq, ScaleVector_eq, one_smul]

theorem PCG_top_p_none (mat : DVec n → DVec n) (b x : DVec n) (j : Nat) :
    (PCG_top mat none (PCG_init mat none b x) (j + 1)).p =
      (PCG_top mat none (PCG_init mat none b x) (j + 1)).r +
        (InnerProd (PCG_top mat none (PCG_init mat none b x) (j + 1)).r
            (PCG_top mat none (PCG_init mat none b x) (j + 1)).r /
          InnerProd (PCG_top mat none (PCG_init mat none b x) j).r
            (PCG_top mat none (PCG_init mat none b x) j).r) •
          (PCG_top mat none (PCG_init mat none b x) j).p := by
  rw [← PCG_top_gamma_none, ← PCG_top_gamma_none, PCG_top_succ, PCG_dir_p]
  rfl

/-! ## The divisions recorded in the trace -/

theorem div_mem_init (mat : DVec n → DVec n) (ps : Option (DVec n → DVec n)) (b x : DVec n)
    (d : ℚ) : Op.div d ∉ (PCG_init mat ps b x).trace := by
  cases ps <;> simp [PCG_init]

theorem div_mem_iter (mat : DVec n → DVec n) (ps : Option (DVec n → DVec n))
    (st : PCGState n) (d : ℚ) (h : Op.div d ∈ (PCG_iter mat ps st).trace) :
    Op.div d ∈ st.trace ∨ d = InnerProd (mat st.p) st.p := by
  cases ps <;> simpa [PCG_iter] using h

theorem div_mem_dir (st : PCGState n) (d : ℚ) (h : Op.div d ∈ (PCG_dir st).trace) :
    Op.div d ∈ st.trace ∨ d = st.gamma_old := by
  simpa [PCG_dir] using h

theorem div_mem_final (mat : DVec n → DVec n) (b : DVec n) (st : PCGState n) (d : ℚ)
    (h : Op.div d ∈ (PCG_final mat b st).trace) : Op.div d ∈ st.trace := by
  simpa [PCG_final] using h

theorem PCG_iter_gamma_old (mat : DVec n → DVec n) (ps : Option (DVec n → DVec n))
    (st : PCGState n) : (PCG_iter mat ps st).gamma_old = st.gamma := rfl

/-- When the denominators met in the first `j` passes are positive, so is every
denominator recorded at the head of pass `j + 1`. -/
theorem div_pos_top (mat : DVec n → DVec n) (ps : Option (DVec n → DVec n)) (b x : DVec n)
    (j : Nat)
    (hpos : ∀ i < j,
      0 < InnerProd (mat (PCG_top mat ps (PCG_init mat ps b x) i).p)
        (PCG_top mat ps (PCG_init mat ps b x) i).p ∧
      0 < (PCG_top mat ps (PCG_init mat ps b x) i).gamma) :
    ∀ d, Op.div d ∈ (PCG_top mat ps (PCG_init mat ps b x) j).trace → 0 < d := by
  induction j with
  | zero =>
    intro d hd
    exact absurd hd (div_mem_init mat ps b x d)
  | succ j ih =>
    intro d hd
    rw [PCG_top_succ] at hd
    rcases div_mem_dir _ d hd with h | h
    · rcases div_mem_iter mat ps _ d h with h' | h'
      · exact ih (fun i hi => hpos i (Nat.lt_succ_of_lt hi)) d h'
      · rw [h']; exact (hpos j (Nat.lt_succ_self j)).1
    · rw [h, PCG_at, PCG_iter_gamma_old]; exact (hpos j (Nat.lt_succ_self j)).2

theorem div_pos_at (mat : DVec n → DVec n) (ps : Option (DVec n → DVec n)) (b x : DVec n)
    (j : Nat)
    (hpos : ∀ i < j,
      0 < InnerProd (mat (PCG_top mat ps (PCG_init mat ps b x) i).p)
        (PCG_top mat ps (PCG_init mat ps b x) i).p ∧
      0 < (PCG_top mat ps (PCG_init mat ps b x) i).gamma)
    (hj : 0 < InnerProd (mat (PCG_top mat ps (PCG_init mat ps b x) j).p)
        (PCG_top mat ps (PCG_init mat ps b x) j).p) :
    ∀ d, Op.div d ∈ (PCG_at mat ps (PCG_init mat ps b x) j).trace → 0 < d := by
  intro d hd
  rcases div_mem_iter mat ps _ d hd with h | h
  · exact div_pos_top mat ps b x j hpos d h
  · rw [h]; exact hj

/-! ## The diagonal example on two ranks -/

theorem diag21_linear (d0 d1 d2 : ℚ) (a : ℚ) (u v : DVec n21) :
    diag21 d0 d1 d2 (a • u + v) = a • diag21 d0 d1 d2 u + diag21 d0 d1 d2 v := by
  funext k j
  fin_cases k
  · fin_cases j <;> simp [diag21, vec21] <;> ring
  · fin_cases j; simp [diag21, vec21]; ring

theorem InnerProd_vec21 (u v : DVec n21) :
    InnerProd u v =
      u 0 (0 : Fin 2) * v 0 (0 : Fin 2) + u 0 (1 : Fin 2) * v 0 (1 : Fin 2) +
        u 1 (0 : Fin 1) * v 1 (0 : Fin 1) := by
  simp [InnerProd, MPI_Allreduce_SUM, ddot_, Fin.sum_univ_succ]

theorem diag21_symm (d0 d1 d2 : ℚ) (u v : DVec n21) :
    InnerProd (diag21 d0 d1 d2 u) v = InnerProd u (diag21 d0 d1 d2 v) := by
  rw [InnerProd_vec21, InnerProd_vec21]
  simp [diag21, vec21]
  ring

theorem diag21_pos (u : DVec n21) (hu : u ≠ 0) : 0 < InnerProd (diag21 1 2 3 u) u := by
  rw [InnerProd_vec21]
  simp only [diag21, vec21, Matrix.cons_val_zero, Matrix.cons_val_one, Matrix.head_cons]
  have hsome : u 0 (0 : Fin 2) ≠ 0 ∨ u 0 (1 : Fin 2) ≠ 0 ∨ u 1 (0 : Fin 1) ≠ 0 := by
    by_contra hall
    push_neg at hall
    apply hu
    funext k j
    fin_cases k
    · fin_cases j
      · exact hall.1
      · exact hall.2.1
    · fin_cases j
      exact hall.2.2
  have h0 := mul_self_nonneg (u 0 (0 : Fin 2))
  have h1 := mul_self_nonneg (u 0 (1 : Fin 2))
  have h2 := mul_self_nonneg (u 1 (0 : Fin 1))
  rcases hsome with h | h | h
  · have := mul_self_pos.2 h
    nlinarith
  · have := mul_self_pos.2 h
    nlinarith
  · have := mul_self_pos.2 h
    nlinarith

/-! ## The scalar `gamma` and the error energy -/

theorem PCG_init_gamma (mat : DVec n → DVec n) (ps : Option (DVec n → DVec n)) (b x : DVec n) :
    (PCG_init mat ps b x).gamma =
      InnerProd (PCG_init mat ps b x).r (PCG_init mat ps b x).p := rfl

theorem PCG_iter_gamma (mat : DVec n → DVec n) (ps : Option (DVec n → DVec n))
    (st : PCGState n) :
    (PCG_iter mat ps st).gamma = InnerProd (PCG_iter mat ps st).r (PCG_iter mat ps st).s := rfl

theorem PCG_iter_p (mat : DVec n → DVec n) (ps : Option (DVec n → DVec n)) (st : PCGState n) :
    (PCG_iter mat ps st).p = st.p := rfl

theorem PCG_dir_gamma (st : PCGState n) : (PCG_dir st).gamma = st.gamma := rfl

/-- After the step of a pass with `gamma = <r,p>` and `<s,p>` nonzero, the new
residual is orthogonal to the direction just used. -/
theorem PCG_iter_r_orth_p (mat : DVec n → DVec n) (ps : Option (DVec n → DVec n))
    (st : PCGState n) (hg : st.gamma = InnerProd st.r st.p)
    (hD : InnerProd (mat st.p) st.p ≠ 0) :
    InnerProd (PCG_iter mat ps st).r st.p = 0 := by
  rw [PCG_iter_r, InnerProd_sub_left, InnerProd_smul_left, hg]
  field_simp

/-- As long as every `<s,p>` met so far was nonzero, `gamma = <r,p>` at the head
of the loop. -/
theorem PCG_top_gamma_rp (mat : DVec n → DVec n) (ps : Option (DVec n → DVec n)) (b x : DVec n)
    (j : Nat)
    (hden : ∀ i < j,
      InnerProd (mat (PCG_top mat ps (PCG_init mat ps b x) i).p)
        (PCG_top mat ps (PCG_init mat ps b x) i).p ≠ 0) :
    (PCG_top mat ps (PCG_init mat ps b x) j).gamma =
      InnerProd (PCG_top mat ps (PCG_init mat ps b x) j).r
        (PCG_top mat ps (PCG_init mat ps b x) j).p := by
  induction j with
  | zero => rw [PCG_top_zero, PCG_init_gamma]
  | succ j ih =>
    have hg := ih fun i hi => hden i (Nat.lt_succ_of_lt hi)
    have horth := PCG_iter_r_orth_p mat ps _ hg (hden j (Nat.lt_succ_self j))
    rw [PCG_top_succ, PCG_dir_gamma, PCG_dir_r, PCG_dir_p, PCG_at, PCG_iter_gamma,
      InnerProd_add_right, InnerProd_smul_right, PCG_iter_p, horth, mul_zero, add_zero]

theorem linear_sub (mat : DVec n → DVec n)
    (hlin : ∀ (a : ℚ) (u v : DVec n), mat (a • u + v) = a • mat u + mat v) (u v : DVec n) :
    mat (u - v) = mat u - mat v := by
  have h := hlin (-1) v u
  have e1 : u - v = (-1 : ℚ) • v + u := by
    funext k j
    simp only [Pi.add_apply, Pi.smul_apply, Pi.sub_apply, smul_eq_mul]
    ring
  rw [e1, h]
  funext k j
  simp only [Pi.add_apply, Pi.smul_apply, Pi.sub_apply, smul_eq_mul]
  ring

/-- One pass lowers the error energy `<x* - x, A (x* - x)>` by `gamma^2 / <s,p>`. -/
theorem energy_step (mat : DVec n → DVec n) (ps : Option (DVec n → DVec n)) (b xs : DVec n)
    (hlin : ∀ (a : ℚ) (u v : DVec n), mat (a • u + v) = a • mat u + mat v)
    (hsym : ∀ u v : DVec n, InnerProd (mat u) v = InnerProd u (mat v))
    (hxs : mat xs = b) (st : PCGState n) (hr : st.r = b - mat st.x)
    (hg : st.gamma = InnerProd st.r st.p) (hD : InnerProd (mat st.p) st.p ≠ 0) :
    InnerProd (xs - (PCG_iter mat ps st).x) (mat (xs - (PCG_iter mat ps st).x)) =
      InnerProd (xs - st.x) (mat (xs - st.x)) -
        st.gamma ^ 2 / InnerProd (mat st.p) st.p := by
  have he : mat (xs - st.x) = st.r := by rw [linear_sub mat hlin, hxs, hr]
  have hx : xs - (PCG_iter mat ps st).x =
      (-(st.gamma / InnerProd (mat st.p) st.p)) • st.p + (xs - st.x) := by
    rw [PCG_iter_x]
    funext k j
    simp only [Pi.add_apply, Pi.smul_apply, Pi.sub_apply, smul_eq_mul]
    ring
  have h1 : InnerProd (xs - st.x) (mat st.p) = InnerProd st.r st.p := by
    rw [InnerProd_comm, hsym, he, InnerProd_comm]
  have h2 : InnerProd st.p (mat st.p) = InnerProd (mat st.p) st.p := InnerProd_comm _ _
  have h3 : InnerProd st.p st.r = InnerProd st.r st.p := InnerProd_comm _ _
  rw [hx, hlin, he, InnerProd_add_left, InnerProd_add_right, InnerProd_add_right,
    InnerProd_smul_left, InnerProd_smul_left, InnerProd_smul_right, InnerProd_smul_right,
    h1, h2, h3, ← hg]
  field_simp
  ring

theorem diag21_pos_of_pos (d0 d1 d2 : ℚ) (h0 : 0 < d0) (h1 : 0 < d1) (h2 : 0 < d2)
    (u : DVec n21) (hu : u ≠ 0) : 0 < InnerProd (diag21 d0 d1 d2 u) u := by
  rw [InnerProd_vec21]
  simp only [diag21, vec21, Matrix.cons_val_zero, Matrix.cons_val_one, Matrix.head_cons]
  have hsome : u 0 (0 : Fin 2) ≠ 0 ∨ u 0 (1 : Fin 2) ≠ 0 ∨ u 1 (0 : Fin 1) ≠ 0 := by
    by_contra hall
    push_neg at hall
    apply hu
    funext k j
    fin_cases k
    · fin_cases j
      · exact hall.1
      · exact hall.2.1
    · fin_cases j
      exact hall.2.2
  have e0 : d0 * u 0 (0 : Fin 2) * u 0 (0 : Fin 2) = d0 * (u 0 (0 : Fin 2) * u 0 (0 : Fin 2)) :=
    by ring
  have e1 : d1 * u 0 (1 : Fin 2) * u 0 (1 : Fin 2) = d1 * (u 0 (1 : Fin 2) * u 0 (1 : Fin 2)) :=
    by ring
  have e2 : d2 * u 1 (0 : Fin 1) * u 1 (0 : Fin 1) = d2 * (u 1 (0 : Fin 1) * u 1 (0 : Fin 1)) :=
    by ring
  rw [e0, e1, e2]
  have s0 := mul_nonneg (le_of_lt h0) (mul_self_nonneg (u 0 (0 : Fin 2)))
  have s1 := mul_nonneg (le_of_lt h1) (mul_self_nonneg (u 0 (1 : Fin 2)))
  have s2 := mul_nonneg (le_of_lt h2) (mul_self_nonneg (u 1 (0 : Fin 1)))
  rcases hsome with h | h | h
  · have := mul_pos h0 (mul_self_pos.2 h)
    linarith
  · have := mul_pos h1 (mul_self_pos.2 h)
    linarith
  · have := mul_pos h2 (mul_self_pos.2 h)
    linarith

/-! ## Partition independence -/

theorem concat_succ {Q : Nat} {m : Fin (Q + 1) → Nat} (x : DVec m) :
    concat x = List.ofFn (x 0) ++ concat fun k => x k.succ := rfl

theorem zipWith_ofFn_ofFn {l : Nat} (f : ℚ → ℚ → ℚ) (a c : Fin l → ℚ) :
    List.zipWith f (List.ofFn a) (List.ofFn c) = List.ofFn fun i => f (a i) (c i) := by
  apply List.ext_getElem
  · simp
  · intro i h1 h2
    simp

theorem concat_zipWith (f : ℚ → ℚ → ℚ) :
    ∀ {Q : Nat} {m : Fin Q → Nat} (x y : DVec m),
      concat (fun k j => f (x k j) (y k j)) = List.zipWith f (concat x) (concat y)
  | 0, _, _, _ => rfl
  | Q + 1, m, x, y => by
    rw [concat_succ, concat_succ x, concat_succ y, List.zipWith_append, zipWith_ofFn_ofFn,
      concat_zipWith f (fun k => x k.succ) (fun k => y k.succ)]
    simp

theorem concat_map (f : ℚ → ℚ) :
    ∀ {Q : Nat} {m : Fin Q → Nat} (x : DVec m),
      concat (fun k j => f (x k j)) = List.map f (concat x)
  | 0, _, _ => rfl
  | Q + 1, m, x => by
    rw [concat_succ, concat_succ x, List.map_append, List.map_ofFn,
      concat_map f (fun k => x k.succ)]
    rfl

theorem sum_concat :
    ∀ {Q : Nat} {m : Fin Q → Nat} (z : DVec m), (concat z).sum = ∑ k, ∑ j, z k j
  | 0, _, _ => by simp [concat]
  | Q + 1, m, z => by
    rw [concat_succ, List.sum_append, List.sum_ofFn, sum_concat (fun k => z k.succ),
      Fin.sum_univ_succ]

/-- The reduction of the ranks' local dot products is the dot product of the
global vectors. -/
theorem InnerProd_eq_dot (x y : DVec n) : InnerProd x y = dot (concat x) (concat y) := by
  rw [dot, ← concat_zipWith, sum_concat, InnerProd_eq_sum]

theorem concat_Axpy (a : ℚ) (x y : DVec n) :
    concat (Axpy a x y) = List.zipWith (fun u v => a * u + v) (concat x) (concat y) :=
  concat_zipWith (fun u v => a * u + v) x y

theorem concat_ScaleVector (a : ℚ) (x : DVec n) :
    concat (ScaleVector a x) = List.map (fun u => a * u) (concat x) :=
  concat_map (fun u => a * u) x

theorem concat_zero (x : DVec n) : concat (0 : DVec n) = List.map (fun _ => 0) (concat x) :=
  concat_map (fun _ => 0) x

section TwoDistributions

variable {P₁ P₂ : Nat} {n₁ : Fin P₁ → Nat} {n₂ : Fin P₂ → Nat}

theorem InnerProd_congr_concat (x₁ y₁ : DVec n₁) (x₂ y₂ : DVec n₂)
    (hx : concat x₁ = concat x₂) (hy : concat y₁ = concat y₂) :
    InnerProd x₁ y₁ = InnerProd x₂ y₂ := by
  rw [InnerProd_eq_dot, InnerProd_eq_dot, hx, hy]

theorem Axpy_congr_concat (a₁ a₂ : ℚ) (x₁ y₁ : DVec n₁) (x₂ y₂ : DVec n₂) (ha : a₁ = a₂)
    (hx : concat x₁ = concat x₂) (hy : concat y₁ = concat y₂) :
    concat (Axpy a₁ x₁ y₁) = concat (Axpy a₂ x₂ y₂) := by
  rw [concat_Axpy, concat_Axpy, ha, hx, hy]

theorem ScaleVector_congr_concat (a₁ a₂ : ℚ) (x₁ : DVec n₁) (x₂ : DVec n₂) (ha : a₁ = a₂)
    (hx : concat x₁ = concat x₂) :
    concat (ScaleVector a₁ x₁) = concat (ScaleVector a₂ x₂) := by
  rw [concat_ScaleVector, concat_ScaleVector, ha, hx]

theorem zero_congr_concat (x₁ : DVec n₁) (x₂ : DVec n₂) (hx : concat x₁ = concat x₂) :
    concat (0 : DVec n₁) = concat (0 : DVec n₂) := by
  rw [concat_zero x₁, concat_zero x₂, hx]

theorem PCG_iter_gvals (mat₁ : DVec n₁ → DVec n₁) (mat₂ : DVec n₂ → DVec n₂)
    (ps₁ : Option (DVec n₁ → DVec n₁)) (ps₂ : Option (DVec n₂ → DVec n₂))
    (hmat : same_global_op mat₁ mat₂) (hps : same_global_ps ps₁ ps₂)
    (st₁ : PCGState n₁) (st₂ : PCGState n₂) (h : st₁.gvals = st₂.gvals) :
    (PCG_iter mat₁ ps₁ st₁).gvals = (PCG_iter mat₂ ps₂ st₂).gvals := by
  simp only [PCGState.gvals, Prod.mk.injEq] at h
  obtain ⟨hx, hp, -, hr, -, hb, hg, -, -, hi⟩ := h
  have hs1 : concat (mat₁ st₁.p) = concat (mat₂ st₂.p) := hmat _ _ hp
  have hsp : InnerProd (mat₁ st₁.p) st₁.p = InnerProd (mat₂ st₂.p) st₂.p :=
    InnerProd_congr_concat _ _ _ _ hs1 hp
  have ha : st₁.gamma / InnerProd (mat₁ st₁.p) st₁.p =
      st₂.gamma / InnerProd (mat₂ st₂.p) st₂.p := by rw [hsp, hg]
  have hxn := Axpy_congr_concat _ _ st₁.p st₁.x st₂.p st₂.x ha hp hx
  have hrn := Axpy_congr_concat _ _ (mat₁ st₁.p) st₁.r (mat₂ st₂.p) st₂.r
    (congrArg Neg.neg ha) hs1 hr
  cases ps₁ with
  | none =>
    cases ps₂ with
    | none =>
      simp only [PCGState.gvals, PCG_iter, CopyVector_eq, Prod.mk.injEq]
      exact ⟨hxn, hp, hrn, hrn, ha, hb, InnerProd_congr_concat _ _ _ _ hrn hrn, hg,
        InnerProd_congr_concat _ _ _ _ hrn hrn, by rw [hi]⟩
    | some C₂ => exact absurd hps id
  | some C₁ =>
    cases ps₂ with
    | none => exact absurd hps id
    | some C₂ =>
      have hs2 := hps _ _ hrn
      simp only [PCGState.gvals, PCG_iter, Prod.mk.injEq]
      exact ⟨hxn, hp, hs2, hrn, ha, hb, InnerProd_congr_concat _ _ _ _ hrn hs2, hg,
        InnerProd_congr_concat _ _ _ _ hrn hrn, by rw [hi]⟩

theorem PCG_dir_gvals (st₁ : PCGState n₁) (st₂ : PCGState n₂) (h : st₁.gvals = st₂.gvals) :
    (PCG_dir st₁).gvals = (PCG_dir st₂).gvals := by
  simp only [PCGState.gvals, Prod.mk.injEq] at h
  obtain ⟨hx, hp, hs, hr, ha, -, hg, hgo, hip, hi⟩ := h
  have hbeta : st₁.gamma / st₁.gamma_old = st₂.gamma / st₂.gamma_old := by rw [hg, hgo]
  have hpn := Axpy_congr_concat 1 1 st₁.s _ st₂.s _ rfl hs
    (ScaleVector_congr_concat _ _ st₁.p st₂.p hbeta hp)
  simp only [PCGState.gvals, PCG_dir, Prod.mk.injEq]
  exact ⟨hx, hpn, hs, hr, ha, hbeta, hg, hgo, hip, hi⟩

theorem PCG_init_gvals (mat₁ : DVec n₁ → DVec n₁) (mat₂ : DVec n₂ → DVec n₂)
    (ps₁ : Option (DVec n₁ → DVec n₁)) (ps₂ : Option (DVec n₂ → DVec n₂))
    (hmat : same_global_op mat₁ mat₂) (hps : same_global_ps ps₁ ps₂)
    (b₁ x₁ : DVec n₁) (b₂ x₂ : DVec n₂) (hb : concat b₁ = concat b₂)
    (hx : concat x₁ = concat x₂) :
    (PCG_init mat₁ ps₁ b₁ x₁).gvals = (PCG_init mat₂ ps₂ b₂ x₂).gvals := by
  have hr := Axpy_congr_concat 1 1 b₁ _ b₂ _ rfl hb
    (ScaleVector_congr_concat (-1) (-1) _ _ rfl (hmat _ _ hx))
  have h0 := zero_congr_concat b₁ b₂ hb
  cases ps₁ with
  | none =>
    cases ps₂ with
    | none =>
      simp only [PCGState.gvals, PCG_init, CopyVector_eq, Prod.mk.injEq]
      exact ⟨hx, hr, h0, hr, trivial, trivial, InnerProd_congr_concat _ _ _ _ hr hr, trivial⟩
    | some C₂ => exact absurd hps id
  | some C₁ =>
    cases ps₂ with
    | none => exact absurd hps id
    | some C₂ =>
      have hp := hps _ _ hr
      simp only [PCGState.gvals, PCG_init, Prod.mk.injEq]
      exact ⟨hx, hp, h0, hr, trivial, trivial, InnerProd_congr_concat _ _ _ _ hr hp, trivial⟩

theorem PCG_final_gvals (mat₁ : DVec n₁ → DVec n₁) (mat₂ : DVec n₂ → DVec n₂)
    (hmat : same_global_op mat₁ mat₂) (b₁ : DVec n₁) (b₂ : DVec n₂)
    (hb : concat b₁ = concat b₂) (st₁ : PCGState n₁) (st₂ : PCGState n₂)
    (h : st₁.gvals = st₂.gvals) :
    (PCG_final mat₁ b₁ st₁).gvals = (PCG_final mat₂ b₂ st₂).gvals := by
  simp only [PCGState.gvals, Prod.mk.injEq] at h
  obtain ⟨hx, hp, hs, -, ha, hbe, hg, hgo, -, hi⟩ := h
  have hr := Axpy_congr_concat 1 1 b₁ _ b₂ _ rfl hb
    (ScaleVector_congr_concat (-1) (-1) _ _ rfl (hmat _ _ hx))
  simp only [PCGState.gvals, PCG_final, Prod.mk.injEq]
  exact ⟨hx, hp, hs, hr, ha, hbe, hg, hgo, InnerProd_congr_concat _ _ _ _ hr hr, hi⟩

theorem PCG_top_gvals (mat₁ : DVec n₁ → DVec n₁) (mat₂ : DVec n₂ → DVec n₂)
    (ps₁ : Option (DVec n₁ → DVec n₁)) (ps₂ : Option (DVec n₂ → DVec n₂))
    (hmat : same_global_op mat₁ mat₂) (hps : same_global_ps ps₁ ps₂)
    (b₁ x₁ : DVec n₁) (b₂ x₂ : DVec n₂) (hb : concat b₁ = concat b₂)
    (hx : concat x₁ = concat x₂) (j : Nat) :
    (PCG_top mat₁ ps₁ (PCG_init mat₁ ps₁ b₁ x₁) j).gvals =
      (PCG_top mat₂ ps₂ (PCG_init mat₂ ps₂ b₂ x₂) j).gvals := by
  induction j with
  | zero => exact PCG_init_gvals mat₁ mat₂ ps₁ ps₂ hmat hps b₁ x₁ b₂ x₂ hb hx
  | succ j ih =>
    rw [PCG_top_succ, PCG_top_succ]
    exact PCG_dir_gvals _ _ (PCG_iter_gvals mat₁ mat₂ ps₁ ps₂ hmat hps _ _ ih)

theorem PCG_at_gvals (mat₁ : DVec n₁ → DVec n₁) (mat₂ : DVec n₂ → DVec n₂)
    (ps₁ : Option (DVec n₁ → DVec n₁)) (ps₂ : Option (DVec n₂ → DVec n₂))
    (hmat : same_global_op mat₁ mat₂) (hps : same_global_ps ps₁ ps₂)
    (b₁ x₁ : DVec n₁) (b₂ x₂ : DVec n₂) (hb : concat b₁ = concat b₂)
    (hx : concat x₁ = concat x₂) (j : Nat) :
    (PCG_at mat₁ ps₁ (PCG_init mat₁ ps₁ b₁ x₁) j).gvals =
      (PCG_at mat₂ ps₂ (PCG_init mat₂ ps₂ b₂ x₂) j).gvals :=
  PCG_iter_gvals mat₁ mat₂ ps₁ ps₂ hmat hps _ _
    (PCG_top_gvals mat₁ mat₂ ps₁ ps₂ hmat hps b₁ x₁ b₂ x₂ hb hx j)

theorem conv_test_gvals (eps : ℚ) (st₁ : PCGState n₁) (st₂ : PCGState n₂)
    (h : st₁.gvals = st₂.gvals) : conv_test eps st₁ ↔ conv_test eps st₂ := by
  simp only [PCGState.gvals, Prod.mk.injEq] at h
  simp only [conv_test, h.2.2.2.2.2.2.2.2.1]

theorem stall_test_gvals (bi_prod : ℚ) (st₁ : PCGState n₁) (st₂ : PCGState n₂)
    (h : st₁.gvals = st₂.gvals) : stall_test bi_prod st₁ ↔ stall_test bi_prod st₂ := by
  simp only [PCGState.gvals, Prod.mk.injEq] at h
  simp only [stall_test, h.2.2.2.2.2.2.2.2.1, h.2.2.2.2.2.2.2.2.2]

end TwoDistributions

/-- Two runs on the same global problem, distributed differently, leave the
function the same way with the same global values. -/
theorem PCG_ParaSails_gvals {P₁ P₂ : Nat} {n₁ : Fin P₁ → Nat} {n₂ : Fin P₂ → Nat}
    (mat₁ : DVec n₁ → DVec n₁) (mat₂ : DVec n₂ → DVec n₂)
    (ps₁ : Option (DVec n₁ → DVec n₁)) (ps₂ : Option (DVec n₂ → DVec n₂))
    (b₁ x₁ : DVec n₁) (b₂ x₂ : DVec n₂) (tol : ℚ) (max_iter : Int)
    (hmat : same_global_op mat₁ mat₂) (hps : same_global_ps ps₁ ps₂)
    (hb : concat b₁ = concat b₂) (hx : concat x₁ = concat x₂) :
    (PCG_ParaSails mat₁ ps₁ b₁ x₁ tol max_iter).1 =
      (PCG_ParaSails mat₂ ps₂ b₂ x₂ tol max_iter).1 ∧
    (PCG_ParaSails mat₁ ps₁ b₁ x₁ tol max_iter).2.gvals =
      (PCG_ParaSails mat₂ ps₂ b₂ x₂ tol max_iter).2.gvals := by
  have hbb : InnerProd b₁ b₁ = InnerProd b₂ b₂ := InnerProd_congr_concat _ _ _ _ hb hb
  have hat := PCG_at_gvals mat₁ mat₂ ps₁ ps₂ hmat hps b₁ x₁ b₂ x₂ hb hx
  have htop := PCG_top_gvals mat₁ mat₂ ps₁ ps₂ hmat hps b₁ x₁ b₂ x₂ hb hx
  by_cases hz : InnerProd b₂ b₂ = 0
  · rw [PCG_ParaSails_zero mat₁ ps₁ b₁ x₁ tol max_iter (hbb.trans hz),
      PCG_ParaSails_zero mat₂ ps₂ b₂ x₂ tol max_iter hz]
    refine ⟨rfl, ?_⟩
    have h0 := zero_congr_concat b₁ b₂ hb
    simp only [PCGState.gvals, CopyVector_eq, Prod.mk.injEq]
    exact ⟨hb, h0, h0, h0, trivial⟩
  · have hz1 : InnerProd b₁ b₁ ≠ 0 := fun h => hz (hbb.symm.trans h)
    rw [PCG_ParaSails_nonzero mat₁ ps₁ b₁ x₁ tol max_iter hz1,
      PCG_ParaSails_nonzero mat₂ ps₂ b₂ x₂ tol max_iter hz]
    obtain ⟨m, hm, hexit⟩ := PCG_run_spec mat₂ ps₂ b₂ x₂ tol max_iter
    have hconv : ∀ j,
        conv_test (tol * tol * InnerProd b₁ b₁)
            (PCG_at mat₁ ps₁ (PCG_init mat₁ ps₁ b₁ x₁) j) ↔
          conv_test (tol * tol * InnerProd b₂ b₂)
            (PCG_at mat₂ ps₂ (PCG_init mat₂ ps₂ b₂ x₂) j) := by
      intro j
      rw [hbb]
      exact conv_test_gvals _ _ _ (hat j)
    have hstall : ∀ j,
        stall_test (InnerProd b₁ b₁) (PCG_at mat₁ ps₁ (PCG_init mat₁ ps₁ b₁ x₁) j) ↔
          stall_test (InnerProd b₂ b₂) (PCG_at mat₂ ps₂ (PCG_init mat₂ ps₂ b₂ x₂) j) := by
      intro j
      rw [hbb]
      exact stall_test_gvals _ _ _ (hat j)
    have hbefore : ∀ j < m,
        ¬ conv_test (tol * tol * InnerProd b₁ b₁)
            (PCG_at mat₁ ps₁ (PCG_init mat₁ ps₁ b₁ x₁) j) ∧
        ¬ stall_test (InnerProd b₁ b₁) (PCG_at mat₁ ps₁ (PCG_init mat₁ ps₁ b₁ x₁) j) :=
      fun j hj => ⟨fun h => (hm j hj).2.1 ((hconv j).1 h),
        fun h => (hm j hj).2.2 ((hstall j).1 h)⟩
    rcases hexit with h | h | h
    · rw [h.1, PCG_run_converged_at mat₁ ps₁ b₁ x₁ tol max_iter m hbefore h.2.1
        ((hconv m).2 h.2.2)]
      exact ⟨rfl, PCG_final_gvals mat₁ mat₂ hmat b₁ b₂ hb _ _ (hat m)⟩
    · rw [h.1, PCG_run_aborted_at mat₁ ps₁ b₁ x₁ tol max_iter m hbefore h.2.1
        (fun hc => h.2.2.1 ((hconv m).1 hc)) ((hstall m).2 h.2.2.2)]
      exact ⟨rfl, PCG_final_gvals mat₁ mat₂ hmat b₁ b₂ hb _ _ (hat m)⟩
    · have hall : ∀ j : Nat, (j : Int) + 1 ≤ max_iter → j < m := by
        intro j hj
        by_contra hge
        exact h.2 (by omega)
      have hmm : m = max_iter.toNat := by
        rcases Nat.eq_zero_or_pos m with h0 | hpos
        · subst h0; have := h.2; omega
        · have h1 := (hm (m - 1) (by omega)).1
          have h2 := h.2
          omega
      rw [h.1, PCG_run_max_iter mat₁ ps₁ b₁ x₁ tol max_iter
        (fun j hj => hbefore j (hall j hj)), ← hmm]
      exact ⟨rfl, PCG_final_gvals mat₁ mat₂ hmat b₁ b₂ hb _ _ (htop m)⟩

theorem concat_n3 (u : DVec n3) :
    concat u = [u 0 (0 : Fin 3), u 0 (1 : Fin 3), u 0 (2 : Fin 3)] := by
  simp [concat, List.ofFn_succ]

theorem concat_n21 (u : DVec n21) :
    concat u = [u 0 (0 : Fin 2), u 0 (1 : Fin 2), u 1 (0 : Fin 1)] := by
  simp [concat, List.ofFn_succ]

theorem concat_vec3 (a0 a1 a2 : ℚ) : concat (vec3 a0 a1 a2) = [a0, a1, a2] := by
  rw [concat_n3]
  simp [vec3]

theorem concat_vec21 (a0 a1 a2 : ℚ) : concat (vec21 a0 a1 a2) = [a0, a1, a2] := by
  rw [concat_n21]
  simp [vec21]

theorem diag3_diag21 (d0 d1 d2 : ℚ) : same_global_op (diag3 d0 d1 d2) (diag21 d0 d1 d2) := by
  intro u₁ u₂ h
  rw [concat_n3, concat_n21] at h
  simp only [List.cons.injEq, and_true] at h
  obtain ⟨h0, h1, h2⟩ := h
  rw [diag3, diag21, concat_vec3, concat_vec21, h0, h1, h2]

/-! ## The buffers written by a run -/

theorem writes_init (mat : DVec n → DVec n) (ps : Option (DVec n → DVec n)) (b x : DVec n) :
    ∀ op ∈ (PCG_init mat ps b x).trace, op.writes ≠ some Buf.b := by
  cases ps <;> simp [PCG_init, Op.writes]

theorem writes_iter (mat : DVec n → DVec n) (ps : Option (DVec n → DVec n)) (st : PCGState n)
    (h : ∀ op ∈ st.trace, op.writes ≠ some Buf.b) :
    ∀ op ∈ (PCG_iter mat ps st).trace, op.writes ≠ some Buf.b := by
  intro op hop
  have hmem : op ∈ st.trace ∨
      op ∈ [Op.MatrixMatvec Buf.p Buf.s, Op.InnerProd Buf.s Buf.p,
        Op.div (InnerProd (mat st.p) st.p), Op.Axpy Buf.p Buf.x, Op.Axpy Buf.s Buf.r,
        Op.ParaSailsApply Buf.r Buf.s, Op.CopyVector Buf.r Buf.s,
        Op.InnerProd Buf.r Buf.s, Op.InnerProd Buf.r Buf.r] := by
    cases ps <;> simp [PCG_iter] at hop <;> simp <;> tauto
  rcases hmem with h1 | h1
  · exact h op h1
  · simp at h1
    rcases h1 with rfl | rfl | rfl | rfl | rfl | rfl | rfl | rfl | rfl <;> simp [Op.writes]

theorem writes_dir (st : PCGState n) (h : ∀ op ∈ st.trace, op.writes ≠ some Buf.b) :
    ∀ op ∈ (PCG_dir st).trace, op.writes ≠ some Buf.b := by
  intro op hop
  have hmem : op ∈ st.trace ∨
      op ∈ [Op.div st.gamma_old, Op.ScaleVector Buf.p, Op.Axpy Buf.s Buf.p] := by
    simp [PCG_dir] at hop
    simp
    tauto
  rcases hmem with h1 | h1
  · exact h op h1
  · simp at h1
    rcases h1 with rfl | rfl | rfl <;> simp [Op.writes]

theorem writes_final (mat : DVec n → DVec n) (b : DVec n) (st : PCGState n)
    (h : ∀ op ∈ st.trace, op.writes ≠ some Buf.b) :
    ∀ op ∈ (PCG_final mat b st).trace, op.writes ≠ some Buf.b := by
  intro op hop
  have hmem : op ∈ st.trace ∨
      op ∈ [Op.free Buf.p, Op.free Buf.s, Op.free Buf.r,
        Op.MatrixMatvec Buf.x Buf.r, Op.ScaleVector Buf.r, Op.Axpy Buf.b Buf.r,
        Op.InnerProd Buf.r Buf.r] := by
    simp [PCG_final] at hop
    simp
    tauto
  rcases hmem with h1 | h1
  · exact h op h1
  · simp at h1
    rcases h1 with rfl | rfl | rfl | rfl | rfl | rfl | rfl <;> simp [Op.writes]

theorem writes_top (mat : DVec n → DVec n) (ps : Option (DVec n → DVec n)) (b x : DVec n)
    (j : Nat) :
    ∀ op ∈ (PCG_top mat ps (PCG_init mat ps b x) j).trace, op.writes ≠ some Buf.b := by
  induction j with
  | zero => exact writes_init mat ps b x
  | succ j ih =>
    rw [PCG_top_succ]
    exact writes_dir _ (writes_iter mat ps _ ih)

/-- The values of the caller's `x` and of the locals after the loop, whatever
the way it was left, are those of a pass of the sequence. -/
theorem PCG_run_state (mat : DVec n → DVec n) (ps : Option (DVec n → DVec n))
    (b x : DVec n) (tol : ℚ) (max_iter : Int) :
    ∃ m : Nat,
      (PCG_run mat ps b x tol max_iter).2 = PCG_at mat ps (PCG_init mat ps b x) m ∨
      (PCG_run mat ps b x tol max_iter).2 = PCG_top mat ps (PCG_init mat ps b x) m := by
  obtain ⟨m, -, hexit⟩ := PCG_run_spec mat ps b x tol max_iter
  rcases hexit with h | h | h
  · exact ⟨m, Or.inl (by rw [h.1])⟩
  · exact ⟨m, Or.inl (by rw [h.1])⟩
  · exact ⟨m, Or.inr (by rw [h.1])⟩

/-! ## The residual recomputed after the loop -/

theorem PCG_final_r (mat : DVec n → DVec n) (b : DVec n) (st : PCGState n) :
    (PCG_final mat b st).r = b - mat st.x := by
  simp only [PCG_final, Axpy_eq, ScaleVector_eq]
  funext k j
  simp only [Pi.add_apply, Pi.smul_apply, Pi.sub_apply, smul_eq_mul]
  ring

theorem PCG_final_i_prod (mat : DVec n → DVec n) (b : DVec n) (st : PCGState n) :
    (PCG_final mat b st).i_prod = InnerProd (PCG_final mat b st).r (PCG_final mat b st).r :=
  rfl

/-- For a linear `mat`, the residual held when the loop is left is `b - A x`. -/
theorem PCG_run_residual (mat : DVec n → DVec n) (ps : Option (DVec n → DVec n))
    (b x : DVec n) (tol : ℚ) (max_iter : Int)
    (hlin : ∀ (a : ℚ) (u v : DVec n), mat (a • u + v) = a • mat u + mat v) :
    (PCG_run mat ps b x tol max_iter).2.r = b - mat (PCG_run mat ps b x tol max_iter).2.x := by
  obtain ⟨m, h | h⟩ := PCG_run_state mat ps b x tol max_iter
  · rw [h]; exact PCG_at_residual mat ps b x hlin m
  · rw [h]; exact PCG_top_residual mat ps b x hlin m

/-! ## Positive denominators under positive definiteness -/

/-- At the head of every pass `gamma` is `<r, C r>`, or `<r, r>` without a
preconditioner. -/
theorem PCG_top_gamma_eq (mat : DVec n → DVec n) (ps : Option (DVec n → DVec n)) (b x : DVec n)
    (j : Nat) :
    (PCG_top mat ps (PCG_init mat ps b x) j).gamma =
      InnerProd (PCG_top mat ps (PCG_init mat ps b x) j).r
        (match ps with
          | some C => C (PCG_top mat ps (PCG_init mat ps b x) j).r
          | none => (PCG_top mat ps (PCG_init mat ps b x) j).r) := by
  cases j with
  | zero => cases ps <;> rfl
  | succ j => rw [PCG_top_succ]; cases ps <;> rfl

theorem PCG_top_gamma_pos (mat : DVec n → DVec n) (ps : Option (DVec n → DVec n)) (b x : DVec n)
    (hps : ∀ C, ps = some C → ∀ u : DVec n, u ≠ 0 → 0 < InnerProd u (C u)) (j : Nat)
    (hr : (PCG_top mat ps (PCG_init mat ps b x) j).r ≠ 0) :
    0 < (PCG_top mat ps (PCG_init mat ps b x) j).gamma := by
  rw [PCG_top_gamma_eq]
  cases ps with
  | none => exact InnerProd_self_pos hr
  | some C => exact hps C rfl _ hr

/-- For a positive-definite `mat` and a positive-definite or absent
preconditioner, the denominator `<A p, p>` is positive in every pass up to which
the residuals at the head of the loop are nonzero. -/
theorem pd_denominator_pos (mat : DVec n → DVec n) (ps : Option (DVec n → DVec n)) (b x : DVec n)
    (hpd : ∀ u : DVec n, u ≠ 0 → 0 < InnerProd (mat u) u)
    (hps : ∀ C, ps = some C → ∀ u : DVec n, u ≠ 0 → 0 < InnerProd u (C u)) (j : Nat)
    (hr : ∀ i ≤ j, (PCG_top mat ps (PCG_init mat ps b x) i).r ≠ 0) :
    0 < InnerProd (mat (PCG_top mat ps (PCG_init mat ps b x) j).p)
      (PCG_top mat ps (PCG_init mat ps b x) j).p := by
  induction j using Nat.strong_induction_on with
  | _ j ih =>
    have hden : ∀ i < j,
        InnerProd (mat (PCG_top mat ps (PCG_init mat ps b x) i).p)
          (PCG_top mat ps (PCG_init mat ps b x) i).p ≠ 0 :=
      fun i hi => ne_of_gt (ih i hi fun l hl => hr l (le_trans hl (le_of_lt hi)))
    have hg := PCG_top_gamma_rp mat ps b x j hden
    have hgpos := PCG_top_gamma_pos mat ps b x hps j (hr j (le_refl j))
    apply hpd
    intro hp0
    rw [hg, hp0, InnerProd_zero_right] at hgpos
    exact lt_irrefl _ hgpos

/-- A pass that does not meet the convergence test for a positive threshold
leaves a nonzero residual. -/
theorem r_ne_zero_of_not_conv (mat : DVec n → DVec n) (ps : Option (DVec n → DVec n))
    (st : PCGState n) (eps : ℚ) (heps : 0 < eps)
    (h : ¬ conv_test eps (PCG_iter mat ps st)) : (PCG_iter mat ps st).r ≠ 0 := by
  intro h0
  apply h
  unfold conv_test
  rw [PCG_iter_i_prod, h0, InnerProd_zero_left]
  exact heps

/-! ## The trace grows by appending -/

theorem PCG_iter_trace (mat : DVec n → DVec n) (ps : Option (DVec n → DVec n))
    (st : PCGState n) :
    (PCG_iter mat ps st).trace = st.trace ++
      [Op.MatrixMatvec Buf.p Buf.s, Op.InnerProd Buf.s Buf.p,
       Op.div (InnerProd (mat st.p) st.p),
       Op.Axpy Buf.p Buf.x, Op.Axpy Buf.s Buf.r,
       match ps with
       | some _ => Op.ParaSailsApply Buf.r Buf.s
       | none => Op.CopyVector Buf.r Buf.s,
       Op.InnerProd Buf.r Buf.s, Op.InnerProd Buf.r Buf.r] := rfl

theorem PCG_dir_trace (st : PCGState n) :
    (PCG_dir st).trace =
      st.trace ++ [Op.div st.gamma_old, Op.ScaleVector Buf.p, Op.Axpy Buf.s Buf.p] := rfl

theorem PCG_final_trace (mat : DVec n → DVec n) (b : DVec n) (st : PCGState n) :
    (PCG_final mat b st).trace = st.trace ++
      [Op.free Buf.p, Op.free Buf.s, Op.free Buf.r,
       Op.MatrixMatvec Buf.x Buf.r, Op.ScaleVector Buf.r, Op.Axpy Buf.b Buf.r,
       Op.InnerProd Buf.r Buf.r] := rfl

theorem trace_prefix_iter (mat : DVec n → DVec n) (ps : Option (DVec n → DVec n))
    (st : PCGState n) : st.trace <+: (PCG_iter mat ps st).trace :=
  List.prefix_append _ _

theorem trace_prefix_dir (st : PCGState n) : st.trace <+: (PCG_dir st).trace :=
  List.prefix_append _ _

theorem trace_prefix_final (mat : DVec n → DVec n) (b : DVec n) (st : PCGState n) :
    st.trace <+: (PCG_final mat b st).trace :=
  List.prefix_append _ _

theorem trace_prefix_top (mat : DVec n → DVec n) (ps : Option (DVec n → DVec n))
    (st : PCGState n) (j : Nat) :
    (PCG_iter mat ps st).trace <+: (PCG_top mat ps st (j + 1)).trace := by
  induction j with
  | zero =>
    rw [PCG_top_succ, PCG_at, PCG_top_zero]
    exact trace_prefix_dir _
  | succ j ih =>
    rw [PCG_top_succ, PCG_at]
    exact ih.trans ((trace_prefix_iter mat ps _).trans (trace_prefix_dir _))

theorem trace_prefix_at (mat : DVec n → DVec n) (ps : Option (DVec n → DVec n))
    (st : PCGState n) (j : Nat) :
    (PCG_iter mat ps st).trace <+: (PCG_at mat ps st j).trace := by
  cases j with
  | zero => rw [PCG_at, PCG_top_zero]
  | succ j =>
    rw [PCG_at]
    exact (trace_prefix_top mat ps st j).trans (trace_prefix_iter mat ps _)

/-! ## Operation counts along the sequence of passes -/

theorem count_init (mat : DVec n → DVec n) (ps : Option (DVec n → DVec n)) (b x : DVec n) :
    count_MatrixMatvec (PCG_init mat ps b x).trace = 1 ∧
    count_InnerProd (PCG_init mat ps b x).trace = 2 ∧
    count_ParaSailsApply (PCG_init mat ps b x).trace =
      (match ps with
        | some _ => 1
        | none => 0) := by
  cases ps <;> exact ⟨rfl, rfl, rfl⟩

theorem count_iter (mat : DVec n → DVec n) (ps : Option (DVec n → DVec n)) (st : PCGState n) :
    count_MatrixMatvec (PCG_iter mat ps st).trace = count_MatrixMatvec st.trace + 1 ∧
    count_InnerProd (PCG_iter mat ps st).trace = count_InnerProd st.trace + 3 ∧
    count_ParaSailsApply (PCG_iter mat ps st).trace =
      count_ParaSailsApply st.trace +
        (match ps with
          | some _ => 1
          | none => 0) := by
  rw [PCG_iter_trace]
  cases ps <;>
    simp [count_MatrixMatvec, count_InnerProd, count_ParaSailsApply, List.countP_append,
      List.countP_cons]

theorem count_dir (st : PCGState n) :
    count_MatrixMatvec (PCG_dir st).trace = count_MatrixMatvec st.trace ∧
    count_InnerProd (PCG_dir st).trace = count_InnerProd st.trace ∧
    count_ParaSailsApply (PCG_dir st).trace = count_ParaSailsApply st.trace := by
  rw [PCG_dir_trace]
  simp [count_MatrixMatvec, count_InnerProd, count_ParaSailsApply, List.countP_append,
    List.countP_cons]

theorem count_final (mat : DVec n → DVec n) (b : DVec n) (st : PCGState n) :
    count_MatrixMatvec (PCG_final mat b st).trace = count_MatrixMatvec st.trace + 1 ∧
    count_InnerProd (PCG_final mat b st).trace = count_InnerProd st.trace + 1 ∧
    count_ParaSailsApply (PCG_final mat b st).trace = count_ParaSailsApply st.trace := by
  rw [PCG_final_trace]
  simp [count_MatrixMatvec, count_InnerProd, count_ParaSailsApply, List.countP_append,
    List.countP_cons]

theorem count_top (mat : DVec n → DVec n) (ps : Option (DVec n → DVec n)) (b x : DVec n)
    (j : Nat) :
    count_MatrixMatvec (PCG_top mat ps (PCG_init mat ps b x) j).trace = j + 1 ∧
    count_InnerProd (PCG_top mat ps (PCG_init mat ps b x) j).trace = 3 * j + 2 ∧
    count_ParaSailsApply (PCG_top mat ps (PCG_init mat ps b x) j).trace =
      (match ps with
        | some _ => j + 1
        | none => 0) := by
  induction j with
  | zero =>
    rw [PCG_top_zero]
    have h := count_init mat ps b x
    cases ps <;> exact ⟨h.1, h.2.1, h.2.2⟩
  | succ j ih =>
    rw [PCG_top_succ, PCG_at]
    have hd := count_dir (PCG_iter mat ps (PCG_top mat ps (PCG_init mat ps b x) j))
    have hi := count_iter mat ps (PCG_top mat ps (PCG_init mat ps b x) j)
    rw [hd.1, hd.2.1, hd.2.2, hi.1, hi.2.1, hi.2.2, ih.1, ih.2.1, ih.2.2]
    cases ps <;> exact ⟨rfl, by ring, rfl⟩

theorem count_at (mat : DVec n → DVec n) (ps : Option (DVec n → DVec n)) (b x : DVec n)
    (j : Nat) :
    count_MatrixMatvec (PCG_at mat ps (PCG_init mat ps b x) j).trace = j + 2 ∧
    count_InnerProd (PCG_at mat ps (PCG_init mat ps b x) j).trace = 3 * j + 5 ∧
    count_ParaSailsApply (PCG_at mat ps (PCG_init mat ps b x) j).trace =
      (match ps with
        | some _ => j + 2
        | none => 0) := by
  rw [PCG_at]
  have hi := count_iter mat ps (PCG_top mat ps (PCG_init mat ps b x) j)
  have ht := count_top mat ps b x j
  rw [hi.1, hi.2.1, hi.2.2, ht.1, ht.2.1, ht.2.2]
  cases ps <;> exact ⟨rfl, rfl, rfl⟩

/-! ## The allocation state along a run -/

theorem lifecycle_append (l : Live) (t1 t2 : List Op) :
    lifecycle l (t1 ++ t2) = (lifecycle l t1).bind fun l1 => lifecycle l1 t2 := by
  induction t1 generalizing l with
  | nil => rfl
  | cons op t ih =>
    simp only [List.cons_append, lifecycle]
    cases lifecycle_step l op with
    | none => rfl
    | some l1 => exact ih l1

theorem lifecycle_init (mat : DVec n → DVec n) (ps : Option (DVec n → DVec n)) (b x : DVec n) :
    lifecycle ⟨false, false, false⟩ (PCG_init mat ps b x).trace = some ⟨true, true, true⟩ := by
  cases ps <;> rfl

theorem lifecycle_iter (mat : DVec n → DVec n) (ps : Option (DVec n → DVec n))
    (st : PCGState n) (l : Live) (h : lifecycle l st.trace = some ⟨true, true, true⟩) :
    lifecycle l (PCG_iter mat ps st).trace = some ⟨true, true, true⟩ := by
  rw [PCG_iter_trace, lifecycle_append, h]
  cases ps <;> rfl

theorem lifecycle_dir (st : PCGState n) (l : Live)
    (h : lifecycle l st.trace = some ⟨true, true, true⟩) :
    lifecycle l (PCG_dir st).trace = some ⟨true, true, true⟩ := by
  rw [PCG_dir_trace, lifecycle_append, h]
  rfl

theorem lifecycle_top (mat : DVec n → DVec n) (ps : Option (DVec n → DVec n)) (b x : DVec n)
    (j : Nat) :
    lifecycle ⟨false, false, false⟩ (PCG_top mat ps (PCG_init mat ps b x) j).trace =
      some ⟨true, true, true⟩ := by
  induction j with
  | zero => exact lifecycle_init mat ps b x
  | succ j ih =>
    rw [PCG_top_succ, PCG_at]
    exact lifecycle_dir _ _ (lifecycle_iter mat ps _ _ ih)

theorem lifecycle_run (mat : DVec n → DVec n) (ps : Option (DVec n → DVec n))
    (b x : DVec n) (tol : ℚ) (max_iter : Int) :
    lifecycle ⟨false, false, false⟩ (PCG_run mat ps b x tol max_iter).2.trace =
      some ⟨true, true, true⟩ := by
  obtain ⟨m, h | h⟩ := PCG_run_state mat ps b x tol max_iter
  · rw [h, PCG_at]; exact lifecycle_iter mat ps _ _ (lifecycle_top mat ps b x m)
  · rw [h]; exact lifecycle_top mat ps b x m

/-! ## Control flow of one rank -/

section TwoRanks

variable {m₁ m₂ : Nat}

theorem rank_iter_control (env₁ : RankEnv m₁) (env₂ : RankEnv m₂) (ps₁ ps₂ : Bool)
    (mype₁ mype₂ : Int) (hred : ∀ c, env₁.Allreduce c = env₂.Allreduce c)
    (st₁ : RankState m₁) (st₂ : RankState m₂) (h : st₁.control = st₂.control) :
    (rank_iter env₁ ps₁ mype₁ st₁).control = (rank_iter env₂ ps₂ mype₂ st₂).control := by
  simp only [RankState.control, Prod.mk.injEq] at h
  obtain ⟨hg, -, -, hi, hs, hc⟩ := h
  simp only [RankState.control, rank_iter, rank_InnerProd, Prod.mk.injEq, List.length_append,
    List.filter_append, hred, hg, hi, hs, hc, true_and]
  cases ps₁ <;> cases ps₂ <;> simp [List.filter, Op.collective]

theorem rank_dir_control (st₁ : RankState m₁) (st₂ : RankState m₂)
    (h : st₁.control = st₂.control) : (rank_dir st₁).control = (rank_dir st₂).control := by
  simp only [RankState.control, Prod.mk.injEq] at h
  obtain ⟨hg, hgo, hip, hi, hs, hc⟩ := h
  simp only [RankState.control, rank_dir, Prod.mk.injEq, List.filter_append, hg, hgo, hip, hi,
    hs, hc, true_and]

theorem rank_loop_control (env₁ : RankEnv m₁) (env₂ : RankEnv m₂) (ps₁ ps₂ : Bool)
    (mype₁ mype₂ : Int) (hred : ∀ c, env₁.Allreduce c = env₂.Allreduce c)
    (max_iter : Int) (bi_prod eps : ℚ) (fuel : Nat)
    (st₁ : RankState m₁) (st₂ : RankState m₂) (h : st₁.control = st₂.control) :
    (rank_loop env₁ ps₁ mype₁ max_iter bi_prod eps fuel st₁).1 =
      (rank_loop env₂ ps₂ mype₂ max_iter bi_prod eps fuel st₂).1 ∧
    (rank_loop env₁ ps₁ mype₁ max_iter bi_prod eps fuel st₁).2.control =
      (rank_loop env₂ ps₂ mype₂ max_iter bi_prod eps fuel st₂).2.control := by
  induction fuel generalizing st₁ st₂ with
  | zero => exact ⟨rfl, h⟩
  | succ fuel ih =>
    have hit := rank_iter_control env₁ env₂ ps₁ ps₂ mype₁ mype₂ hred st₁ st₂ h
    have hi : st₁.i = st₂.i := by
      simp only [RankState.control, Prod.mk.injEq] at h
      exact h.2.2.2.1
    have hit' := hit
    simp only [RankState.control, Prod.mk.injEq] at hit'
    obtain ⟨-, -, hip1, hi1, -, -⟩ := hit'
    rw [rank_loop, rank_loop]
    by_cases hmax : st₂.i + 1 ≤ max_iter
    · rw [if_pos hmax, if_pos (by rw [hi]; exact hmax)]
      by_cases hconv : (rank_iter env₂ ps₂ mype₂ st₂).i_prod < eps
      · rw [if_pos hconv, if_pos (by rw [hip1]; exact hconv)]
        exact ⟨rfl, hit⟩
      · rw [if_neg hconv, if_neg (by rw [hip1]; exact hconv)]
        by_cases hstall : (rank_iter env₂ ps₂ mype₂ st₂).i ≥ 500 ∧
            (rank_iter env₂ ps₂ mype₂ st₂).i_prod / bi_prod > 1 / 100
        · rw [if_pos hstall, if_pos (by rw [hip1, hi1]; exact hstall)]
          exact ⟨rfl, hit⟩
        · rw [if_neg hstall, if_neg (by rw [hip1, hi1]; exact hstall)]
          exact ih _ _ (rank_dir_control _ _ hit)
    · rw [if_neg hmax, if_neg (by rw [hi]; exact hmax)]
      exact ⟨rfl, h⟩

theorem rank_init_control (env₁ : RankEnv m₁) (env₂ : RankEnv m₂) (ps₁ ps₂ : Bool)
    (hred : ∀ c, env₁.Allreduce c = env₂.Allreduce c)
    (b₁ x₁ : LVec m₁) (b₂ x₂ : LVec m₂) (sent₁ sent₂ : List ℚ)
    (hs : sent₁.length = sent₂.length) :
    (rank_init env₁ ps₁ b₁ x₁ sent₁).control = (rank_init env₂ ps₂ b₂ x₂ sent₂).control := by
  simp only [RankState.control, rank_init, rank_InnerProd, Prod.mk.injEq, List.length_append,
    hred, hs, true_and]
  cases ps₁ <;> cases ps₂ <;> simp [List.filter, Op.collective]

theorem rank_final_control (env₁ : RankEnv m₁) (env₂ : RankEnv m₂) (mype₁ mype₂ : Int)
    (hred : ∀ c, env₁.Allreduce c = env₂.Allreduce c)
    (b₁ : LVec m₁) (b₂ : LVec m₂) (st₁ : RankState m₁) (st₂ : RankState m₂)
    (h : st₁.control = st₂.control) :
    (rank_final env₁ mype₁ b₁ st₁).control = (rank_final env₂ mype₂ b₂ st₂).control := by
  simp only [RankState.control, Prod.mk.injEq] at h
  obtain ⟨hg, hgo, -, hi, hs, hc⟩ := h
  simp only [RankState.control, rank_final, rank_InnerProd, Prod.mk.injEq, List.length_append,
    List.filter_append, hred, hg, hgo, hi, hs, hc, true_and]
  simp [List.filter, Op.collective]

/-- Two processes that receive the same reduction results leave the solve the
same way, with the same counter, reductions made and collective calls. -/
theorem rank_PCG_ParaSails_control (env₁ : RankEnv m₁) (env₂ : RankEnv m₂) (ps₁ ps₂ : Bool)
    (mype₁ mype₂ : Int) (hred : ∀ c, env₁.Allreduce c = env₂.Allreduce c)
    (b₁ x₁ : LVec m₁) (b₂ x₂ : LVec m₂) (tol : ℚ) (max_iter : Int) :
    (rank_PCG_ParaSails env₁ ps₁ mype₁ b₁ x₁ tol max_iter).1 =
      (rank_PCG_ParaSails env₂ ps₂ mype₂ b₂ x₂ tol max_iter).1 ∧
    (rank_PCG_ParaSails env₁ ps₁ mype₁ b₁ x₁ tol max_iter).2.control =
      (rank_PCG_ParaSails env₂ ps₂ mype₂ b₂ x₂ tol max_iter).2.control := by
  simp only [rank_PCG_ParaSails, rank_InnerProd, hred, List.length_nil]
  by_cases hz : env₂.Allreduce 0 = 0
  · simp only [hz, if_true]
    exact ⟨trivial, by simp [RankState.control, List.filter, Op.collective]⟩
  · simp only [hz, if_false]
    have hl := rank_loop_control env₁ env₂ ps₁ ps₂ mype₁ mype₂ hred max_iter
      (env₂.Allreduce 0) (tol * tol * env₂.Allreduce 0) (max_iter.toNat + 1)
      (rank_init env₁ ps₁ b₁ x₁ ([] ++ [ddot_ b₁ b₁]))
      (rank_init env₂ ps₂ b₂ x₂ ([] ++ [ddot_ b₂ b₂]))
      (rank_init_control env₁ env₂ ps₁ ps₂ hred b₁ x₁ b₂ x₂ _ _ rfl)
    exact ⟨hl.1, rank_final_control env₁ env₂ mype₁ mype₂ hred b₁ b₂ _ _ hl.2⟩

end TwoRanks

theorem rank_iter_i {m : Nat} (env : RankEnv m) (ps : Bool) (mype : Int) (st : RankState m) :
    (rank_iter env ps mype st).i = st.i + 1 := rfl

theorem rank_dir_i {m : Nat} (st : RankState m) : (rank_dir st).i = st.i := rfl

/-- The recursion bound of `rank_loop` is not reached when it exceeds the number
of passes that `max_iter` still allows. -/
theorem rank_loop_fuel {m : Nat} (env : RankEnv m) (ps : Bool) (mype : Int)
    (max_iter : Int) (bi_prod eps : ℚ) (fuel : Nat) (st : RankState m)
    (h : (max_iter - st.i).toNat < fuel) :
    (rank_loop env ps mype max_iter bi_prod eps fuel st).1 ≠ Exit.out_of_fuel := by
  induction fuel generalizing st with
  | zero => omega
  | succ fuel ih =>
    simp only [rank_loop]
    by_cases hmax : st.i + 1 ≤ max_iter
    · simp only [hmax, if_true]
      by_cases hconv : (rank_iter env ps mype st).i_prod < eps
      · simp only [hconv, if_true]
        exact fun hc => Exit.noConfusion hc
      · simp only [hconv, if_false]
        by_cases hstall : (rank_iter env ps mype st).i ≥ 500 ∧
            (rank_iter env ps mype st).i_prod / bi_prod > 1 / 100
        · simp only [hstall, and_self, if_true]
          exact fun hc => Exit.noConfusion hc
        · simp only [hstall, if_false]
          apply ih
          rw [rank_dir_i, rank_iter_i]
          omega
    · simp only [hmax, if_false]
      exact fun hc => Exit.noConfusion hc

theorem rank_PCG_ParaSails_returns {m : Nat} (env : RankEnv m) (ps : Bool) (mype : Int)
    (b x : LVec m) (tol : ℚ) (max_iter : Int) :
    (rank_PCG_ParaSails env ps mype b x tol max_iter).1 ≠ Exit.out_of_fuel := by
  simp only [rank_PCG_ParaSails]
  split
  · exact fun hc => Exit.noConfusion hc
  · apply rank_loop_fuel
    show (max_iter - 0).toNat < max_iter.toNat + 1
    rw [sub_zero]
    exact Nat.lt_succ_self _

/-! ## The rank of a process and its printing -/

theorem rank_printf_of_ne (mype : Int) (h : mype ≠ 0) (printed : Nat) :
    rank_printf mype printed = printed := by
  simp [rank_printf, h]

theorem rank_loop_printed {m : Nat} (env : RankEnv m) (ps : Bool) (mype : Int) (h : mype ≠ 0)
    (max_iter : Int) (bi_prod eps : ℚ) (fuel : Nat) (st : RankState m) :
    (rank_loop env ps mype max_iter bi_prod eps fuel st).2.printed = st.printed := by
  induction fuel generalizing st with
  | zero => rfl
  | succ fuel ih =>
    have hit : (rank_iter env ps mype st).printed = st.printed := rank_printf_of_ne mype h _
    rw [rank_loop]
    by_cases hmax : st.i + 1 ≤ max_iter
    · rw [if_pos hmax]
      by_cases hconv : (rank_iter env ps mype st).i_prod < eps
      · rw [if_pos hconv]
        exact hit
      · rw [if_neg hconv]
        by_cases hstall : (rank_iter env ps mype st).i ≥ 500 ∧
            (rank_iter env ps mype st).i_prod / bi_prod > 1 / 100
        · rw [if_pos hstall]
          exact (rank_printf_of_ne mype h _).trans hit
        · rw [if_neg hstall, ih]
          exact hit
    · rw [if_neg hmax]

theorem rank_PCG_ParaSails_printed {m : Nat} (env : RankEnv m) (ps : Bool) (mype : Int)
    (h : mype ≠ 0) (b x : LVec m) (tol : ℚ) (max_iter : Int) :
    (rank_PCG_ParaSails env ps mype b x tol max_iter).2.printed = 0 := by
  simp only [rank_PCG_ParaSails]
  split
  · rfl
  · show rank_printf mype _ = 0
    rw [rank_printf_of_ne mype h, rank_loop_printed env ps mype h]
    rfl

theorem rank_iter_unprinted {m : Nat} (env : RankEnv m) (ps : Bool) (mype₁ mype₂ : Int)
    (st₁ st₂ : RankState m) (h : st₁.unprinted = st₂.unprinted) :
    (rank_iter env ps mype₁ st₁).unprinted = (rank_iter env ps mype₂ st₂).unprinted := by
  cases st₁
  cases st₂
  simp only [RankState.unprinted, RankState.mk.injEq, and_true] at h
  obtain ⟨hx, hp, hs, hr, ha, hb, hg, hgo, hip, hi, hc, hse⟩ := h
  subst hx hp hs hr ha hb hg hgo hip hi hc hse
  rfl

theorem rank_dir_unprinted {m : Nat} (st₁ st₂ : RankState m)
    (h : st₁.unprinted = st₂.unprinted) : (rank_dir st₁).unprinted = (rank_dir st₂).unprinted := by
  cases st₁
  cases st₂
  simp only [RankState.unprinted, RankState.mk.injEq, and_true] at h
  obtain ⟨hx, hp, hs, hr, ha, hb, hg, hgo, hip, hi, hc, hse⟩ := h
  subst hx hp hs hr ha hb hg hgo hip hi hc hse
  rfl

theorem rank_final_unprinted {m : Nat} (env : RankEnv m) (mype₁ mype₂ : Int) (b : LVec m)
    (st₁ st₂ : RankState m) (h : st₁.unprinted = st₂.unprinted) :
    (rank_final env mype₁ b st₁).unprinted = (rank_final env mype₂ b st₂).unprinted := by
  cases st₁
  cases st₂
  simp only [RankState.unprinted, RankState.mk.injEq, and_true] at h
  obtain ⟨hx, hp, hs, hr, ha, hb, hg, hgo, hip, hi, hc, hse⟩ := h
  subst hx hp hs hr ha hb hg hgo hip hi hc hse
  rfl

theorem unprinted_i_prod {m : Nat} (st₁ st₂ : RankState m) (h : st₁.unprinted = st₂.unprinted) :
    st₁.i_prod = st₂.i_prod ∧ st₁.i = st₂.i :=
  ⟨show st₁.unprinted.i_prod = st₂.unprinted.i_prod by rw [h],
   show st₁.unprinted.i = st₂.unprinted.i by rw [h]⟩

theorem rank_loop_unprinted {m : Nat} (env : RankEnv m) (ps : Bool) (mype₁ mype₂ : Int)
    (max_iter : Int) (bi_prod eps : ℚ) (fuel : Nat) (st₁ st₂ : RankState m)
    (h : st₁.unprinted = st₂.unprinted) :
    (rank_loop env ps mype₁ max_iter bi_prod eps fuel st₁).1 =
      (rank_loop env ps mype₂ max_iter bi_prod eps fuel st₂).1 ∧
    (rank_loop env ps mype₁ max_iter bi_prod eps fuel st₁).2.unprinted =
      (rank_loop env ps mype₂ max_iter bi_prod eps fuel st₂).2.unprinted := by
  induction fuel generalizing st₁ st₂ with
  | zero => exact ⟨rfl, h⟩
  | succ fuel ih =>
    have hit := rank_iter_unprinted env ps mype₁ mype₂ st₁ st₂ h
    have hi := (unprinted_i_prod st₁ st₂ h).2
    obtain ⟨hip1, hi1⟩ := unprinted_i_prod _ _ hit
    rw [rank_loop, rank_loop]
    by_cases hmax : st₂.i + 1 ≤ max_iter
    · rw [if_pos hmax, if_pos (by rw [hi]; exact hmax)]
      by_cases hconv : (rank_iter env ps mype₂ st₂).i_prod < eps
      · rw [if_pos hconv, if_pos (by rw [hip1]; exact hconv)]
        exact ⟨rfl, hit⟩
      · rw [if_neg hconv, if_neg (by rw [hip1]; exact hconv)]
        by_cases hstall : (rank_iter env ps mype₂ st₂).i ≥ 500 ∧
            (rank_iter env ps mype₂ st₂).i_prod / bi_prod > 1 / 100
        · rw [if_pos hstall, if_pos (by rw [hip1, hi1]; exact hstall)]
          exact ⟨rfl, hit⟩
        · rw [if_neg hstall, if_neg (by rw [hip1, hi1]; exact hstall)]
          exact ih _ _ (rank_dir_unprinted _ _ hit)
    · rw [if_neg hmax, if_neg (by rw [hi]; exact hmax)]
      exact ⟨rfl, h⟩

/-- The rank of a process changes nothing in its run but the number of lines it
prints. -/
theorem rank_PCG_ParaSails_unprinted {m : Nat} (env : RankEnv m) (ps : Bool)
    (mype₁ mype₂ : Int) (b x : LVec m) (tol : ℚ) (max_iter : Int) :
    (rank_PCG_ParaSails env ps mype₁ b x tol max_iter).1 =
      (rank_PCG_ParaSails env ps mype₂ b x tol max_iter).1 ∧
    (rank_PCG_ParaSails env ps mype₁ b x tol max_iter).2.unprinted =
      (rank_PCG_ParaSails env ps mype₂ b x tol max_iter).2.unprinted := by
  simp only [rank_PCG_ParaSails]
  split
  · exact ⟨rfl, rfl⟩
  · have hl := rank_loop_unprinted env ps mype₁ mype₂ max_iter
      (rank_InnerProd env [] b b).1 (tol * tol * (rank_InnerProd env [] b b).1)
      (max_iter.toNat + 1) (rank_init env ps b x (rank_InnerProd env [] b b).2)
      (rank_init env ps b x (rank_InnerProd env [] b b).2) rfl
    exact ⟨hl.1, rank_final_unprinted env mype₁ mype₂ b _ _ hl.2⟩

/-! ## The counter as an `int` -/

theorem int_wrap_eq (z : Int) (h0 : -2147483648 ≤ z) (h1 : z ≤ 2147483647) : int_wrap z = z := by
  unfold int_wrap
  omega

theorem int_wrap_le (z : Int) : int_wrap z ≤ 2147483647 := by
  unfold int_wrap
  omega

/-- For `max_iter < INT_MAX` the loop on `int` is the loop on exact integers. -/
theorem PCG_loop_int_eq (mat : DVec n → DVec n) (ps : Option (DVec n → DVec n))
    (max_iter : Int) (bi_prod eps : ℚ) (hmax : max_iter < 2147483647) (fuel : Nat)
    (st : PCGState n) (h0 : 0 ≤ st.i) (h1 : st.i < 2147483647) :
    PCG_loop_int mat ps max_iter bi_prod eps fuel st =
      PCG_loop mat ps max_iter bi_prod eps fuel st := by
  induction fuel generalizing st with
  | zero => rfl
  | succ fuel ih =>
    have hw : int_wrap (st.i + 1) = st.i + 1 := int_wrap_eq _ (by omega) (by omega)
    have hst : ({ PCG_iter mat ps st with i := st.i + 1 } : PCGState n) = PCG_iter mat ps st :=
      rfl
    rw [PCG_loop_int, PCG_loop, hw, hst]
    by_cases hc : st.i + 1 ≤ max_iter
    · rw [if_pos hc, if_pos hc]
      have hi : (PCG_dir (PCG_iter mat ps st)).i = st.i + 1 := rfl
      dsimp only
      rw [ih (PCG_dir (PCG_iter mat ps st)) (by rw [hi]; omega) (by rw [hi]; omega)]
    · rw [if_neg hc, if_neg hc]

theorem PCG_ParaSails_int_eq (mat : DVec n → DVec n) (ps : Option (DVec n → DVec n))
    (b x : DVec n) (tol : ℚ) (max_iter : Int) (hmax : max_iter < 2147483647) :
    PCG_ParaSails_int (max_iter.toNat + 1) mat ps b x tol max_iter =
      PCG_ParaSails mat ps b x tol max_iter := by
  unfold PCG_ParaSails_int PCG_ParaSails PCG_run
  dsimp only
  rw [PCG_loop_int_eq mat ps max_iter _ _ hmax _ _ (by rw [PCG_init_i])
    (by rw [PCG_init_i]; decide)]

theorem PCG_iter_s_none (mat : DVec n → DVec n) (st : PCGState n) :
    (PCG_iter mat none st).s = (PCG_iter mat none st).r := rfl

/-- With `r = 0` and `p = 0` at the head of a pass of the unpreconditioned loop,
the pass leaves `r`, `s`, `p`, `gamma` and the tested `<r,r>` at zero. -/
theorem PCG_iter_zero (mat : DVec n → DVec n) (hmat : mat 0 = 0) (st : PCGState n)
    (hr : st.r = 0) (hp : st.p = 0) :
    (PCG_iter mat none st).r = 0 ∧ (PCG_iter mat none st).s = 0 ∧
    (PCG_iter mat none st).p = 0 ∧ (PCG_iter mat none st).gamma = 0 ∧
    (PCG_iter mat none st).i_prod = 0 := by
  have hr1 : (PCG_iter mat none st).r = 0 := by
    rw [PCG_iter_r, hr, hp, hmat, smul_zero, sub_zero]
  refine ⟨hr1, by rw [PCG_iter_s_none, hr1], by rw [PCG_iter_p, hp], ?_, ?_⟩
  · rw [PCG_iter_gamma, hr1, InnerProd_zero_left]
  · rw [PCG_iter_i_prod, hr1, InnerProd_zero_left]

/-- With `max_iter = INT_MAX` the loop condition on `int` holds for every value
of the counter: an unpreconditioned run with `tol = 0` whose residual and
direction are zero is never left, however many evaluations of the loop
condition are allowed. -/
theorem PCG_loop_int_never_left (mat : DVec n → DVec n) (hmat : mat 0 = 0) (bi_prod : ℚ)
    (fuel : Nat) (st : PCGState n) (hr : st.r = 0) (hp : st.p = 0) :
    (PCG_loop_int mat none 2147483647 bi_prod 0 fuel st).1 = Exit.out_of_fuel := by
  induction fuel generalizing st with
  | zero => rfl
  | succ fuel ih =>
    obtain ⟨hr1, hs1, hp1, -, hip1⟩ := PCG_iter_zero mat hmat st hr hp
    have hconv : ¬ conv_test 0
        ({ PCG_iter mat none st with i := int_wrap (st.i + 1) } : PCGState n) := by
      show ¬ (PCG_iter mat none st).i_prod < 0
      rw [hip1]
      exact lt_irrefl _
    have hstall : ¬ stall_test bi_prod
        ({ PCG_iter mat none st with i := int_wrap (st.i + 1) } : PCGState n) := by
      intro h
      have h2 : (PCG_iter mat none st).i_prod / bi_prod > 1 / 100 := h.2
      rw [hip1, zero_div] at h2
      norm_num at h2
    rw [PCG_loop_int, if_pos (int_wrap_le _), if_neg hconv, if_neg hstall]
    apply ih
    · exact hr1
    · show (PCG_dir _).p = 0
      rw [PCG_dir_p]
      show (PCG_iter mat none st).s + _ • (PCG_iter mat none st).p = 0
      rw [hs1, hp1, smul_zero, add_zero]

theorem diag21_zero (d0 d1 d2 : ℚ) : diag21 d0 d1 d2 0 = 0 := by
  funext k j
  fin_cases k
  · fin_cases j <;> simp [diag21, vec21]
  · fin_cases j; simp [diag21, vec21]

/-! ## The claims -/

/-- C1. Zero right-hand side: when the global inner product `<b,b>` is zero, the
solve returns at line 105 without entering the loop; the only operations
performed are the inner product `<b,b>` and the copy of `b` into `x` (no matrix
product, no preconditioner application), the iteration counter is 0, and the
returned `x` is `b`, which is the zero vector, whatever `x` held before. -/
theorem zero_rhs_returns_b (mat : DVec n → DVec n) (ps : Option (DVec n → DVec n))
    (b x : DVec n) (tol : ℚ) (max_iter : Int) (h : InnerProd b b = 0) :
    (PCG_ParaSails mat ps b x tol max_iter).1 = Exit.zero_rhs ∧
    (PCG_ParaSails mat ps b x tol max_iter).2.trace =
      [Op.InnerProd Buf.b Buf.b, Op.CopyVector Buf.b Buf.x] ∧
    (PCG_ParaSails mat ps b x tol max_iter).2.i = 0 ∧
    (PCG_ParaSails mat ps b x tol max_iter).2.x = b ∧
    b = 0 := by
  rw [PCG_ParaSails_zero mat ps b x tol max_iter h]
  exact ⟨rfl, rfl, rfl, CopyVector_eq b x, InnerProd_self_eq_zero.1 h⟩

/-- C1 at a concrete input: two ranks, a preconditioner present, `x` nonzero on entry. -/
theorem zero_rhs_returns_b_witness :
    InnerProd (vec21 0 0 0) (vec21 0 0 0) = 0 ∧
    (PCG_ParaSails (diag21 1 2 3) (some (diag21 1 1 1)) (vec21 0 0 0) (vec21 5 7 9)
      (1 / 10) 20).2.x = vec21 0 0 0 :=
  ⟨by decide!,
   (zero_rhs_returns_b (diag21 1 2 3) (some (diag21 1 1 1)) (vec21 0 0 0) (vec21 5 7 9)
      (1 / 10) 20 (by decide!)).2.2.2.1⟩

/-- C2. Convergence postcondition: for a linear `mat`, when the loop is left
through the convergence test, the iteration count is some `k ≥ 1`, the `x`
left in the caller's buffer is the iterate of pass `k`, and its true residual
satisfies `<b - A x, b - A x> < tol^2 <b,b>`. -/
theorem converged_residual_bound (mat : DVec n → DVec n) (ps : Option (DVec n → DVec n))
    (b x : DVec n) (tol : ℚ) (max_iter : Int)
    (hlin : ∀ (a : ℚ) (u v : DVec n), mat (a • u + v) = a • mat u + mat v)
    (hexit : (PCG_ParaSails mat ps b x tol max_iter).1 = Exit.converged) :
    ∃ k : Nat, 1 ≤ k ∧
      (PCG_ParaSails mat ps b x tol max_iter).2.i = k ∧
      (PCG_ParaSails mat ps b x tol max_iter).2.x =
        (PCG_at mat ps (PCG_init mat ps b x) (k - 1)).x ∧
      (PCG_ParaSails mat ps b x tol max_iter).2.x =
        (PCG_top mat ps (PCG_init mat ps b x) k).x ∧
      InnerProd (b - mat (PCG_ParaSails mat ps b x tol max_iter).2.x)
          (b - mat (PCG_ParaSails mat ps b x tol max_iter).2.x) <
        tol ^ 2 * InnerProd b b := by
  by_cases hb : InnerProd b b = 0
  · rw [PCG_ParaSails_zero mat ps b x tol max_iter hb] at hexit
    exact Exit.noConfusion hexit
  · rw [PCG_ParaSails_nonzero mat ps b x tol max_iter hb] at hexit ⊢
    obtain ⟨m, -, hrun⟩ := PCG_run_spec mat ps b x tol max_iter
    rcases hrun with h | h | h
    · rw [h.1]
      refine ⟨m + 1, Nat.le_add_left 1 m, ?_, ?_, ?_, ?_⟩
      · simp only [PCG_final_i, PCG_at_i, PCG_init_i]
        push_cast; ring
      · rw [PCG_final_x, Nat.add_sub_cancel]
      · rw [PCG_final_x, PCG_top_succ, PCG_dir_x]
      · have hc := h.2.2
        unfold conv_test at hc
        rw [PCG_at, PCG_iter_i_prod, ← PCG_at, PCG_at_residual mat ps b x hlin m] at hc
        rw [PCG_final_x, pow_two]
        exact hc
    · rw [h.1] at hexit; exact Exit.noConfusion hexit
    · rw [h.1] at hexit; exact Exit.noConfusion hexit

/-- C2 at a concrete input: `diag(1,2,3) x = (1,2,3)` from `x = 0`, `tol = 1/100`. -/
theorem converged_residual_bound_witness :
    (PCG_ParaSails (diag21 1 2 3) none (vec21 1 2 3) (vec21 0 0 0) (1 / 100) 10).1
        = Exit.converged ∧
    ∃ k : Nat, 1 ≤ k ∧
      (PCG_ParaSails (diag21 1 2 3) none (vec21 1 2 3) (vec21 0 0 0) (1 / 100) 10).2.i = k ∧
      (PCG_ParaSails (diag21 1 2 3) none (vec21 1 2 3) (vec21 0 0 0) (1 / 100) 10).2.x =
        (PCG_at (diag21 1 2 3) none (PCG_init (diag21 1 2 3) none (vec21 1 2 3) (vec21 0 0 0))
          (k - 1)).x ∧
      (PCG_ParaSails (diag21 1 2 3) none (vec21 1 2 3) (vec21 0 0 0) (1 / 100) 10).2.x =
        (PCG_top (diag21 1 2 3) none (PCG_init (diag21 1 2 3) none (vec21 1 2 3) (vec21 0 0 0))
          k).x ∧
      InnerProd
          (vec21 1 2 3 - diag21 1 2 3
            (PCG_ParaSails (diag21 1 2 3) none (vec21 1 2 3) (vec21 0 0 0) (1 / 100) 10).2.x)
          (vec21 1 2 3 - diag21 1 2 3
            (PCG_ParaSails (diag21 1 2 3) none (vec21 1 2 3) (vec21 0 0 0) (1 / 100) 10).2.x) <
        (1 / 100) ^ 2 * InnerProd (vec21 1 2 3) (vec21 1 2 3) :=
  ⟨by decide!,
   converged_residual_bound (diag21 1 2 3) none (vec21 1 2 3) (vec21 0 0 0) (1 / 100) 10
     (diag21_linear 1 2 3) (by decide!)⟩

/-- C3 as stated fails on a zero right-hand side: with `max_iter = 0`, `b = 0`
and `x_initial = (5, 7 | 9)` the solve returns `x = b`, not `x_initial`. -/
theorem max_iter_zero_counterexample :
    (PCG_ParaSails (diag21 1 2 3) none (vec21 0 0 0) (vec21 5 7 9) (1 / 10) 0).2.x
        = vec21 0 0 0 ∧
    (PCG_ParaSails (diag21 1 2 3) none (vec21 0 0 0) (vec21 5 7 9) (1 / 10) 0).2.x
        ≠ vec21 5 7 9 := by
  decide!

/-- C3, amended. For every matrix, preconditioner, `x_initial`, `tol` and every
`b` with `<b,b>` nonzero, a solve with `max_iter = 0` never executes the loop
body (the operations performed are those of the initialisation followed by
those of the final residual report), returns `x` equal to `x_initial` and has
iteration count 0; the loop is left because its condition fails. -/
theorem max_iter_zero_keeps_x (mat : DVec n → DVec n) (ps : Option (DVec n → DVec n))
    (b x : DVec n) (tol : ℚ) (hb : InnerProd b b ≠ 0) :
    (PCG_ParaSails mat ps b x tol 0).1 = Exit.max_iter ∧
    (PCG_ParaSails mat ps b x tol 0).2.trace =
      (PCG_init mat ps b x).trace ++
        [Op.free Buf.p, Op.free Buf.s, Op.free Buf.r,
         Op.MatrixMatvec Buf.x Buf.r, Op.ScaleVector Buf.r, Op.Axpy Buf.b Buf.r,
         Op.InnerProd Buf.r Buf.r] ∧
    (PCG_ParaSails mat ps b x tol 0).2.x = x ∧
    (PCG_ParaSails mat ps b x tol 0).2.i = 0 := by
  have hrun : PCG_run mat ps b x tol 0 = (Exit.max_iter, PCG_init mat ps b x) := by
    simp [PCG_run, PCG_loop, PCG_init_i]
  rw [PCG_ParaSails_nonzero mat ps b x tol 0 hb, hrun]
  exact ⟨rfl, rfl, rfl, rfl⟩

/-- C3 (amended) at a concrete input with a nonzero right-hand side. -/
theorem max_iter_zero_keeps_x_witness :
    InnerProd (vec21 1 2 3) (vec21 1 2 3) ≠ 0 ∧
    (PCG_ParaSails (diag21 1 2 3) none (vec21 1 2 3) (vec21 5 7 9) (1 / 10) 0).2.x
        = vec21 5 7 9 :=
  ⟨by decide!,
   (max_iter_zero_keeps_x (diag21 1 2 3) none (vec21 1 2 3) (vec21 5 7 9) (1 / 10)
      (by decide!)).2.2.1⟩

/-- C4 as stated fails: for `A = diag(-1,-1,-1)`, `b = (1, 2 | 3)`, `x_initial = 0`
the first pass has `<s,p> = -14 < 0`; the solve computes `alpha = 14 / (-14) = -1`,
updates `x` with it and leaves the loop through the convergence test after one
pass, with `x = (-1, -2 | -3)`.  No failure is detected or reported. -/
theorem degenerate_operator_counterexample :
    InnerProd
        (diag21 (-1) (-1) (-1)
          (PCG_init (diag21 (-1) (-1) (-1)) none (vec21 1 2 3) (vec21 0 0 0)).p)
        (PCG_init (diag21 (-1) (-1) (-1)) none (vec21 1 2 3) (vec21 0 0 0)).p = -14 ∧
    (PCG_ParaSails (diag21 (-1) (-1) (-1)) none (vec21 1 2 3) (vec21 0 0 0) (1 / 100) 10).1
        = Exit.converged ∧
    (PCG_ParaSails (diag21 (-1) (-1) (-1)) none (vec21 1 2 3) (vec21 0 0 0) (1 / 100) 10).2.i
        = 1 ∧
    (PCG_ParaSails (diag21 (-1) (-1) (-1)) none (vec21 1 2 3) (vec21 0 0 0) (1 / 100) 10).2.alpha
        = -1 ∧
    (PCG_ParaSails (diag21 (-1) (-1) (-1)) none (vec21 1 2 3) (vec21 0 0 0) (1 / 100) 10).2.x
        = vec21 (-1) (-2) (-3) := by
  decide!

/-- C4, amended. `PCG_ParaSails` makes no test on `<s,p>`.  For every input with
`<b,b>` nonzero the loop is left only through the convergence test, the
non-convergence abort or its loop condition, the returned `x` is the iterate
after all the passes made, and in every pass whose `<s,p>` is nonzero
(negative included) the step length is `alpha = gamma / <s,p>` and the pass
sets `x = x + alpha p` and `r = r - alpha s` with it. -/
theorem no_degenerate_check (mat : DVec n → DVec n) (ps : Option (DVec n → DVec n))
    (b x : DVec n) (tol : ℚ) (max_iter : Int) (hb : InnerProd b b ≠ 0) :
    ((PCG_ParaSails mat ps b x tol max_iter).1 = Exit.converged ∨
      (PCG_ParaSails mat ps b x tol max_iter).1 = Exit.aborted ∨
      (PCG_ParaSails mat ps b x tol max_iter).1 = Exit.max_iter) ∧
    (∃ k : Nat, (PCG_ParaSails mat ps b x tol max_iter).2.i = k ∧
      (PCG_ParaSails mat ps b x tol max_iter).2.x =
        (PCG_top mat ps (PCG_init mat ps b x) k).x) ∧
    (∀ j : Nat,
      InnerProd (mat (PCG_top mat ps (PCG_init mat ps b x) j).p)
        (PCG_top mat ps (PCG_init mat ps b x) j).p ≠ 0 →
      (PCG_at mat ps (PCG_init mat ps b x) j).alpha =
        (PCG_top mat ps (PCG_init mat ps b x) j).gamma /
          InnerProd (mat (PCG_top mat ps (PCG_init mat ps b x) j).p)
            (PCG_top mat ps (PCG_init mat ps b x) j).p ∧
      (PCG_at mat ps (PCG_init mat ps b x) j).x =
        (PCG_top mat ps (PCG_init mat ps b x) j).x +
          (PCG_at mat ps (PCG_init mat ps b x) j).alpha •
            (PCG_top mat ps (PCG_init mat ps b x) j).p ∧
      (PCG_at mat ps (PCG_init mat ps b x) j).r =
        (PCG_top mat ps (PCG_init mat ps b x) j).r -
          (PCG_at mat ps (PCG_init mat ps b x) j).alpha •
            mat (PCG_top mat ps (PCG_init mat ps b x) j).p) := by
  rw [PCG_ParaSails_nonzero mat ps b x tol max_iter hb]
  refine ⟨?_, ?_, ?_⟩
  · obtain ⟨m, -, hrun⟩ := PCG_run_spec mat ps b x tol max_iter
    rcases hrun with h | h | h <;> rw [h.1] <;> simp
  · obtain ⟨m, -, hrun⟩ := PCG_run_spec mat ps b x tol max_iter
    rcases hrun with h | h | h
    · refine ⟨m + 1, ?_, ?_⟩
      · rw [h.1]; simp only [PCG_final_i, PCG_at_i, PCG_init_i]; push_cast; ring
      · rw [h.1, PCG_final_x, PCG_top_succ, PCG_dir_x]
    · refine ⟨m + 1, ?_, ?_⟩
      · rw [h.1]; simp only [PCG_final_i, PCG_at_i, PCG_init_i]; push_cast; ring
      · rw [h.1, PCG_final_x, PCG_top_succ, PCG_dir_x]
    · refine ⟨m, ?_, ?_⟩
      · rw [h.1]; simp only [PCG_final_i, PCG_top_i, PCG_init_i]; ring
      · rw [h.1, PCG_final_x]
  · intro j _
    refine ⟨rfl, ?_, ?_⟩
    · rw [PCG_at, PCG_iter_x, PCG_iter_alpha, add_comm]
    · rw [PCG_at, PCG_iter_r, PCG_iter_alpha]

/-- C4 (amended) at a concrete input: the first pass of the solve with
`A = diag(-1,-1,-1)`, where `<s,p> = -14` and the step length is `14 / (-14)`. -/
theorem no_degenerate_check_witness :
    InnerProd (vec21 1 2 3) (vec21 1 2 3) ≠ 0 ∧
    (PCG_at (diag21 (-1) (-1) (-1)) none
      (PCG_init (diag21 (-1) (-1) (-1)) none (vec21 1 2 3) (vec21 0 0 0)) 0).alpha = -1 :=
  ⟨by decide!,
   ((no_degenerate_check (diag21 (-1) (-1) (-1)) none (vec21 1 2 3) (vec21 0 0 0) (1 / 100) 10
      (by decide!)).2.2 0 (by decide!)).1.trans (by decide!)⟩

/-- C6 as stated fails at `max_iter = INT_MAX = 2147483647`, a value with
`max_iter ≥ 0`: the loop condition `(i+1) <= max_iter` evaluated on `int` holds
for every value of the counter (at `i = INT_MAX` the sum overflows, to
`-2147483648` in two's complement).  For `A = diag(1,2,3)`, `b = (1, 2 | 3)`,
`x_initial = (1, 1 | 1)` and `tol = 0` the residual and the direction are zero
from the start, no pass meets the convergence test (`<r,r> < 0` is false) or
the non-convergence test, and the loop is not left, however many evaluations
of the loop condition are allowed. -/
theorem int_max_counterexample :
    InnerProd (vec21 1 2 3) (vec21 1 2 3) ≠ 0 ∧
    (0 : Int) ≤ 2147483647 ∧
    int_wrap (2147483647 + 1) = -2147483648 ∧
    (∀ i : Int, int_wrap (i + 1) ≤ 2147483647) ∧
    (∀ fuel : Nat,
      (PCG_ParaSails_int fuel (diag21 1 2 3) none (vec21 1 2 3) (vec21 1 1 1) 0
        2147483647).1 = Exit.out_of_fuel) := by
  have hb : InnerProd (vec21 1 2 3) (vec21 1 2 3) ≠ 0 := by decide!
  refine ⟨hb, by decide, by decide, fun i => int_wrap_le _, fun fuel => ?_⟩
  unfold PCG_ParaSails_int
  simp only [hb, if_false, zero_mul]
  exact PCG_loop_int_never_left (diag21 1 2 3) (diag21_zero 1 2 3) _ fuel _
    (by decide!) (by decide!)

/-- C6, amended. For every input with `0 ≤ max_iter < INT_MAX` the solve with
its counter held in an `int` returns: its loop is left within `max_iter + 1`
evaluations of the loop condition, no `int` operation overflows (the run is
the run on exact integers), and the iteration count `i` on exit satisfies
`0 ≤ i ≤ max_iter`.  When the loop is entered (`<b,b>` nonzero) and no pass
numbered below `max_iter` meets the convergence test or the non-convergence
test, `i = max_iter` on exit. -/
theorem iteration_count_bound (mat : DVec n → DVec n) (ps : Option (DVec n → DVec n))
    (b x : DVec n) (tol : ℚ) (max_iter : Int) (hmax : 0 ≤ max_iter)
    (hint : max_iter < 2147483647) :
    PCG_ParaSails_int (max_iter.toNat + 1) mat ps b x tol max_iter =
      PCG_ParaSails mat ps b x tol max_iter ∧
    (PCG_ParaSails_int (max_iter.toNat + 1) mat ps b x tol max_iter).1 ≠ Exit.out_of_fuel ∧
    0 ≤ (PCG_ParaSails_int (max_iter.toNat + 1) mat ps b x tol max_iter).2.i ∧
    (PCG_ParaSails_int (max_iter.toNat + 1) mat ps b x tol max_iter).2.i ≤ max_iter ∧
    (InnerProd b b ≠ 0 →
      (∀ j : Nat, (j : Int) + 1 < max_iter →
        ¬ conv_test (tol * tol * InnerProd b b) (PCG_at mat ps (PCG_init mat ps b x) j) ∧
        ¬ stall_test (InnerProd b b) (PCG_at mat ps (PCG_init mat ps b x) j)) →
      (PCG_ParaSails_int (max_iter.toNat + 1) mat ps b x tol max_iter).2.i = max_iter) := by
  rw [PCG_ParaSails_int_eq mat ps b x tol max_iter hint]
  refine ⟨rfl, ?_⟩
  by_cases hb : InnerProd b b = 0
  · rw [PCG_ParaSails_zero mat ps b x tol max_iter hb]
    exact ⟨fun h => Exit.noConfusion h, le_refl _, hmax, fun h => absurd hb h⟩
  · rw [PCG_ParaSails_nonzero mat ps b x tol max_iter hb]
    obtain ⟨m, hm, hexit⟩ := PCG_run_spec mat ps b x tol max_iter
    have hm1 : ∀ j < m, (j : Int) + 1 ≤ max_iter := fun j hj => (hm j hj).1
    have hlast : (∀ j : Nat, (j : Int) + 1 < max_iter →
        ¬ conv_test (tol * tol * InnerProd b b) (PCG_at mat ps (PCG_init mat ps b x) j) ∧
        ¬ stall_test (InnerProd b b) (PCG_at mat ps (PCG_init mat ps b x) j)) →
        (m : Int) + 1 < max_iter → False := by
      intro hno hlt
      rcases hexit with h | h | h
      · exact (hno m hlt).1 h.2.2
      · exact (hno m hlt).2 h.2.2.2
      · exact h.2 (le_of_lt hlt)
    rcases hexit with h | h | h
    · rw [h.1]
      simp only [PCG_final_i, PCG_at_i, PCG_init_i]
      refine ⟨fun h => Exit.noConfusion h, by omega, by omega, fun _ hno => ?_⟩
      have h3 : ¬ (m : Int) + 1 < max_iter := hlast hno
      have h4 := h.2.1
      omega
    · rw [h.1]
      simp only [PCG_final_i, PCG_at_i, PCG_init_i]
      refine ⟨fun h => Exit.noConfusion h, by omega, by omega, fun _ hno => ?_⟩
      have h3 : ¬ (m : Int) + 1 < max_iter := hlast hno
      have h4 := h.2.1
      omega
    · rw [h.1]
      simp only [PCG_final_i, PCG_top_i, PCG_init_i]
      have h2 := h.2
      have hle : (m : Int) ≤ max_iter := by
        rcases Nat.eq_zero_or_pos m with h0 | hpos
        · subst h0; simpa using hmax
        · have := hm1 (m - 1) (by omega)
          omega
      exact ⟨fun h => Exit.noConfusion h, by omega, by omega, fun _ _ => by omega⟩

/-- C6 (amended) at a concrete input: the solve of `diag(1,2,3) x = (1,2,3)` with
`max_iter = 2` is left by the loop condition with `i = 2`. -/
theorem iteration_count_bound_witness :
    (PCG_ParaSails_int ((2 : Int).toNat + 1) (diag21 1 2 3) none (vec21 1 2 3) (vec21 0 0 0)
      (1 / 100) 2).1 = Exit.max_iter ∧
    (PCG_ParaSails_int ((2 : Int).toNat + 1) (diag21 1 2 3) none (vec21 1 2 3) (vec21 0 0 0)
      (1 / 100) 2).2.i = 2 ∧
    (PCG_ParaSails_int ((2 : Int).toNat + 1) (diag21 1 2 3) none (vec21 1 2 3) (vec21 0 0 0)
      (1 / 100) 2).2.i ≤ 2 :=
  ⟨by decide!, by decide!,
   (iteration_count_bound (diag21 1 2 3) none (vec21 1 2 3) (vec21 0 0 0) (1 / 100) 2
    (by decide) (by decide)).2.2.2.1⟩

/-- C7. For every run with `<b,b>` nonzero and every pass `k + 1`: the loop is
left through the non-convergence abort with iteration count `k + 1` if and
only if pass `k + 1` is reached (no earlier pass met a stopping test and
`k + 1 ≤ max_iter`), `k + 1 ≥ 500`, the convergence test `<r,r> < eps` fails at
that pass and `<r,r>/<b,b> > 1/100`.  The abort never happens with an
iteration count below 500, and a pass that is reached and meets the
convergence test leaves the loop as converged, also when the guard condition
holds. -/
theorem stall_guard_iff (mat : DVec n → DVec n) (ps : Option (DVec n → DVec n))
    (b x : DVec n) (tol : ℚ) (max_iter : Int) (hb : InnerProd b b ≠ 0) (k : Nat) :
    (((PCG_ParaSails mat ps b x tol max_iter).1 = Exit.aborted ∧
        (PCG_ParaSails mat ps b x tol max_iter).2.i = (k : Int) + 1) ↔
      ((∀ j < k,
          ¬ conv_test (tol * tol * InnerProd b b) (PCG_at mat ps (PCG_init mat ps b x) j) ∧
          ¬ stall_test (InnerProd b b) (PCG_at mat ps (PCG_init mat ps b x) j)) ∧
        (k : Int) + 1 ≤ max_iter ∧
        (500 : Int) ≤ (k : Int) + 1 ∧
        ¬ (PCG_at mat ps (PCG_init mat ps b x) k).i_prod < tol * tol * InnerProd b b ∧
        (PCG_at mat ps (PCG_init mat ps b x) k).i_prod / InnerProd b b > 1 / 100)) ∧
    ((PCG_ParaSails mat ps b x tol max_iter).1 = Exit.aborted →
      500 ≤ (PCG_ParaSails mat ps b x tol max_iter).2.i) ∧
    ((∀ j < k,
          ¬ conv_test (tol * tol * InnerProd b b) (PCG_at mat ps (PCG_init mat ps b x) j) ∧
          ¬ stall_test (InnerProd b b) (PCG_at mat ps (PCG_init mat ps b x) j)) →
      (k : Int) + 1 ≤ max_iter →
      (PCG_at mat ps (PCG_init mat ps b x) k).i_prod < tol * tol * InnerProd b b →
      (PCG_ParaSails mat ps b x tol max_iter).1 = Exit.converged ∧
      (PCG_ParaSails mat ps b x tol max_iter).2.i = (k : Int) + 1) := by
  rw [PCG_ParaSails_nonzero mat ps b x tol max_iter hb]
  refine ⟨⟨?_, ?_⟩, ?_, ?_⟩
  · rintro ⟨hab, hi⟩
    obtain ⟨m, hm, hexit⟩ := PCG_run_spec mat ps b x tol max_iter
    rcases hexit with h | h | h
    · rw [h.1] at hab; exact Exit.noConfusion hab
    · rw [h.1] at hi
      simp only [PCG_final_i, PCG_at_i, PCG_init_i] at hi
      have hmk : m = k := by omega
      subst hmk
      have h5 := h.2.2.2.1
      rw [PCG_at_i, PCG_init_i] at h5
      exact ⟨fun j hj => (hm j hj).2, h.2.1, by omega, h.2.2.1, h.2.2.2.2⟩
    · rw [h.1] at hab; exact Exit.noConfusion hab
  · rintro ⟨hbefore, hk, h500, hnconv, hratio⟩
    have hstall : stall_test (InnerProd b b) (PCG_at mat ps (PCG_init mat ps b x) k) := by
      refine ⟨?_, hratio⟩
      rw [PCG_at_i, PCG_init_i]
      omega
    rw [PCG_run_aborted_at mat ps b x tol max_iter k hbefore hk hnconv hstall]
    exact ⟨rfl, by simp only [PCG_final_i, PCG_at_i, PCG_init_i]; omega⟩
  · intro hab
    obtain ⟨m, -, hexit⟩ := PCG_run_spec mat ps b x tol max_iter
    rcases hexit with h | h | h
    · rw [h.1] at hab; exact Exit.noConfusion hab
    · have h1 := h.2.2.2.1
      simpa [PCG_final_i, h.1] using h1
    · rw [h.1] at hab; exact Exit.noConfusion hab
  · intro hbefore hk hconv
    rw [PCG_run_converged_at mat ps b x tol max_iter k hbefore hk hconv]
    exact ⟨rfl, by simp only [PCG_final_i, PCG_at_i, PCG_init_i]; omega⟩

/-- C7 at a concrete input: a run that converges at its third pass is not an abort. -/
theorem stall_guard_iff_witness :
    InnerProd (vec21 1 2 3) (vec21 1 2 3) ≠ 0 ∧
    ((PCG_ParaSails (diag21 1 2 3) none (vec21 1 2 3) (vec21 0 0 0) (1 / 100) 10).1
        = Exit.aborted →
      500 ≤ (PCG_ParaSails (diag21 1 2 3) none (vec21 1 2 3) (vec21 0 0 0) (1 / 100) 10).2.i) :=
  ⟨by decide!,
   (stall_guard_iff (diag21 1 2 3) none (vec21 1 2 3) (vec21 0 0 0) (1 / 100) 10
      (by decide!) 0).2.1⟩

/-- C8. A preconditioner whose application is the identity map gives the same
run as no preconditioner: at every pass the values of `x`, `r`, `p`, `s` and of
the scalars (`gamma` among them) agree, both at the stopping tests and at the
head of the loop, the loop is left the same way, and the values on return
(`x` and the iteration count among them) agree. -/
theorem identity_preconditioner_equiv (mat : DVec n → DVec n) (C : DVec n → DVec n)
    (b x : DVec n) (tol : ℚ) (max_iter : Int) (hC : ∀ v, C v = v) :
    (∀ j : Nat, (PCG_top mat (some C) (PCG_init mat (some C) b x) j).vals =
        (PCG_top mat none (PCG_init mat none b x) j).vals) ∧
    (∀ j : Nat, (PCG_at mat (some C) (PCG_init mat (some C) b x) j).vals =
        (PCG_at mat none (PCG_init mat none b x) j).vals) ∧
    (PCG_ParaSails mat (some C) b x tol max_iter).1 =
      (PCG_ParaSails mat none b x tol max_iter).1 ∧
    (PCG_ParaSails mat (some C) b x tol max_iter).2.vals =
      (PCG_ParaSails mat none b x tol max_iter).2.vals := by
  refine ⟨PCG_top_vals_id mat C hC b x, PCG_at_vals_id mat C hC b x, ?_⟩
  by_cases hb : InnerProd b b = 0
  · rw [PCG_ParaSails_zero mat (some C) b x tol max_iter hb,
      PCG_ParaSails_zero mat none b x tol max_iter hb]
    exact ⟨rfl, rfl⟩
  · rw [PCG_ParaSails_nonzero mat (some C) b x tol max_iter hb,
      PCG_ParaSails_nonzero mat none b x tol max_iter hb]
    obtain ⟨m, hm, hexit⟩ := PCG_run_spec mat none b x tol max_iter
    have hbefore : ∀ j < m,
        ¬ conv_test (tol * tol * InnerProd b b)
            (PCG_at mat (some C) (PCG_init mat (some C) b x) j) ∧
        ¬ stall_test (InnerProd b b) (PCG_at mat (some C) (PCG_init mat (some C) b x) j) :=
      fun j hj =>
        ⟨fun h => (hm j hj).2.1 ((conv_test_vals _ _ _ (PCG_at_vals_id mat C hC b x j)).1 h),
         fun h => (hm j hj).2.2 ((stall_test_vals _ _ _ (PCG_at_vals_id mat C hC b x j)).1 h)⟩
    rcases hexit with h | h | h
    · rw [h.1, PCG_run_converged_at mat (some C) b x tol max_iter m hbefore h.2.1
        ((conv_test_vals _ _ _ (PCG_at_vals_id mat C hC b x m)).2 h.2.2)]
      exact ⟨rfl, PCG_final_vals mat b _ _ (PCG_at_vals_id mat C hC b x m)⟩
    · rw [h.1, PCG_run_aborted_at mat (some C) b x tol max_iter m hbefore h.2.1
        (fun hc => h.2.2.1 ((conv_test_vals _ _ _ (PCG_at_vals_id mat C hC b x m)).1 hc))
        ((stall_test_vals _ _ _ (PCG_at_vals_id mat C hC b x m)).2 h.2.2.2)]
      exact ⟨rfl, PCG_final_vals mat b _ _ (PCG_at_vals_id mat C hC b x m)⟩
    · have hrun2 := h.1
      have hall : ∀ j : Nat, (j : Int) + 1 ≤ max_iter → j < m := by
        intro j hj
        by_contra hge
        exact h.2 (by omega)
      have hmm : m = max_iter.toNat := by
        rcases Nat.eq_zero_or_pos m with h0 | hpos
        · subst h0; have := h.2; omega
        · have h1 := (hm (m - 1) (by omega)).1
          have h2 := h.2
          omega
      rw [hrun2, PCG_run_max_iter mat (some C) b x tol max_iter
        (fun j hj => hbefore j (hall j hj)), ← hmm]
      exact ⟨rfl, PCG_final_vals mat b _ _ (PCG_top_vals_id mat C hC b x m)⟩

/-- C8 at a concrete input: `diag(1,1,1)` as the preconditioner. -/
theorem identity_preconditioner_equiv_witness :
    (∀ v : DVec n21, diag21 1 1 1 v = v) ∧
    (PCG_ParaSails (diag21 1 2 3) (some (diag21 1 1 1)) (vec21 1 2 3) (vec21 0 0 0)
        (1 / 100) 10).2.vals =
      (PCG_ParaSails (diag21 1 2 3) none (vec21 1 2 3) (vec21 0 0 0) (1 / 100) 10).2.vals :=
  have hid : ∀ v : DVec n21, diag21 1 1 1 v = v := by
    intro v
    funext k j
    fin_cases k
    · fin_cases j <;> simp [diag21, vec21]
    · fin_cases j; simp [diag21, vec21]
  ⟨hid,
   (identity_preconditioner_equiv (diag21 1 2 3) (diag21 1 1 1) (vec21 1 2 3) (vec21 0 0 0)
      (1 / 100) 10 hid).2.2.2⟩

/-- C9 as stated fails when `x_initial` already solves the system: for
`A = diag(1,2,3)`, `b = (1, 2 | 3)` and `x_initial = (1, 1 | 1)` the initial
residual, direction and `gamma` are zero, and the first pass divides `gamma = 0`
by `<s,p> = 0` (line 134).  The quotient has no value in exact arithmetic (it is
a NaN in IEEE arithmetic, which then fills `x`). -/
theorem spd_finite_termination_counterexample :
    (PCG_init (diag21 1 2 3) none (vec21 1 2 3) (vec21 1 1 1)).gamma = 0 ∧
    InnerProd
        (diag21 1 2 3 (PCG_init (diag21 1 2 3) none (vec21 1 2 3) (vec21 1 1 1)).p)
        (PCG_init (diag21 1 2 3) none (vec21 1 2 3) (vec21 1 1 1)).p = 0 ∧
    Op.div 0 ∈
      (PCG_ParaSails (diag21 1 2 3) none (vec21 1 2 3) (vec21 1 1 1) (1 / 100) 10).2.trace := by
  decide!

/-- C9, amended. Let `mat` be the product with a symmetric positive-definite
matrix (a linear map that is symmetric and positive definite for the global
inner product) on at most 500 global rows `N`, `b ≠ 0`, `tol > 0`,
`max_iter ≥ N`, and let the initial residual `b - A x_initial` be nonzero.  Then
the unpreconditioned solve leaves its loop through the convergence test after
at least one and at most `N` passes, the returned `x` satisfies
`<b - A x, b - A x> < tol^2 <b,b>`, and every division made for `alpha`
(line 134) and `beta` (line 172) has a positive denominator. -/
theorem spd_finite_termination (mat : DVec n → DVec n) (b x : DVec n) (tol : ℚ)
    (max_iter : Int)
    (hlin : ∀ (a : ℚ) (u v : DVec n), mat (a • u + v) = a • mat u + mat v)
    (hsym : ∀ u v : DVec n, InnerProd (mat u) v = InnerProd u (mat v))
    (hpd : ∀ u : DVec n, u ≠ 0 → 0 < InnerProd (mat u) u)
    (hN : ∑ k, n k ≤ 500) (hb : b ≠ 0) (hr0 : b - mat x ≠ 0) (htol : 0 < tol)
    (hmax : ((∑ k, n k : Nat) : Int) ≤ max_iter) :
    (PCG_ParaSails mat none b x tol max_iter).1 = Exit.converged ∧
    1 ≤ (PCG_ParaSails mat none b x tol max_iter).2.i ∧
    (PCG_ParaSails mat none b x tol max_iter).2.i ≤ ((∑ k, n k : Nat) : Int) ∧
    InnerProd (b - mat (PCG_ParaSails mat none b x tol max_iter).2.x)
        (b - mat (PCG_ParaSails mat none b x tol max_iter).2.x) <
      tol ^ 2 * InnerProd b b ∧
    (∀ d, Op.div d ∈ (PCG_ParaSails mat none b x tol max_iter).2.trace → 0 < d) := by
  classical
  have hbb : 0 < InnerProd b b := InnerProd_self_pos hb
  have heps : 0 < tol * tol * InnerProd b b := mul_pos (mul_pos htol htol) hbb
  have horth := cg_orthogonality mat
    (fun j => (PCG_top mat none (PCG_init mat none b x) j).r)
    (fun j => (PCG_top mat none (PCG_init mat none b x) j).p)
    hsym hpd (PCG_init_p_none mat b x) (PCG_top_r_none mat b x) (PCG_top_p_none mat b x)
  have hden := cg_denominator_pos mat
    (fun j => (PCG_top mat none (PCG_init mat none b x) j).r)
    (fun j => (PCG_top mat none (PCG_init mat none b x) j).p)
    hsym hpd (PCG_init_p_none mat b x) (PCG_top_r_none mat b x) (PCG_top_p_none mat b x)
  -- a residual vanishes
  have hex : ∃ j, (PCG_top mat none (PCG_init mat none b x) j).r = 0 := by
    by_contra hno
    have hno' : ∀ j, (PCG_top mat none (PCG_init mat none b x) j).r ≠ 0 :=
      fun j hj => hno ⟨j, hj⟩
    have := orthogonal_count_le
      (fun j => (PCG_top mat none (PCG_init mat none b x) j).r) (∑ k, n k)
      (fun j _ => hno' j)
      (fun i j hij hj => (horth (∑ k, n k) (fun j _ => hno' j) i j hij hj).2.1)
    omega
  -- the first pass with a vanishing residual is one of the first `N`
  have hj0 := Nat.find_spec hex
  have hmin : ∀ j < Nat.find hex, (PCG_top mat none (PCG_init mat none b x) j).r ≠ 0 :=
    fun j hj => Nat.find_min hex hj
  have hj0N : Nat.find hex ≤ ∑ k, n k := by
    by_contra hgt
    have := orthogonal_count_le
      (fun j => (PCG_top mat none (PCG_init mat none b x) j).r) (∑ k, n k)
      (fun j hj => hmin j (by omega))
      (fun i j hij hj => (horth (∑ k, n k) (fun j hj' => hmin j (by omega)) i j hij hj).2.1)
    omega
  have hj0pos : 0 < Nat.find hex := by
    rcases Nat.eq_zero_or_pos (Nat.find hex) with h | h
    · exfalso
      rw [h, PCG_top_zero, PCG_init_r] at hj0
      exact hr0 hj0
    · exact h
  obtain ⟨q, hq⟩ : ∃ q, Nat.find hex = q + 1 := ⟨Nat.find hex - 1, by omega⟩
  rw [hq] at hj0 hmin hj0N
  have hconvq : conv_test (tol * tol * InnerProd b b)
      (PCG_at mat none (PCG_init mat none b x) q) := by
    unfold conv_test
    rw [PCG_at, PCG_iter_i_prod, ← PCG_at, ← PCG_top_r_succ, hj0, InnerProd_zero_left]
    exact heps
  rw [PCG_ParaSails_nonzero mat none b x tol max_iter (ne_of_gt hbb)]
  obtain ⟨m, hm, hexit⟩ := PCG_run_spec mat none b x tol max_iter
  have hmq : m ≤ q := by
    by_contra h
    exact (hm q (by omega)).2.1 hconvq
  have hRne : ∀ j ≤ m, (PCG_top mat none (PCG_init mat none b x) j).r ≠ 0 :=
    fun j hj => hmin j (by omega)
  have hdpos : ∀ i ≤ m,
      0 < InnerProd (mat (PCG_top mat none (PCG_init mat none b x) i).p)
        (PCG_top mat none (PCG_init mat none b x) i).p :=
    fun i hi => hden i fun j hj => hRne j (le_trans hj hi)
  have hgpos : ∀ i ≤ m, 0 < (PCG_top mat none (PCG_init mat none b x) i).gamma := by
    intro i hi
    rw [PCG_top_gamma_none]
    exact InnerProd_self_pos (hRne i hi)
  rcases hexit with h | h | h
  · rw [h.1]
    refine ⟨rfl, ?_, ?_, ?_, ?_⟩
    · simp only [PCG_final_i, PCG_at_i, PCG_init_i]
      omega
    · simp only [PCG_final_i, PCG_at_i, PCG_init_i]
      omega
    · have hc := h.2.2
      unfold conv_test at hc
      rw [PCG_at, PCG_iter_i_prod, ← PCG_at, PCG_at_residual mat none b x hlin m] at hc
      rw [PCG_final_x, pow_two]
      exact hc
    · intro d hd
      exact div_pos_at mat none b x m
        (fun i hi => ⟨hdpos i (le_of_lt hi), hgpos i (le_of_lt hi)⟩) (hdpos m (le_refl m)) d
        (div_mem_final mat b _ d hd)
  · exfalso
    have hs := h.2.2.2.1
    rw [PCG_at_i, PCG_init_i] at hs
    have hmeq : m = q := by omega
    rw [hmeq] at h
    exact h.2.2.1 hconvq
  · exfalso
    exact h.2 (by omega)

/-- C9 (amended) at the input of the claim: `A = diag(1,2,3)`, `b = (1, 2 | 3)`,
`x_initial = 0`, with `tol = 1/100` and `max_iter = 3`; the solve stops after
three passes with `x = (1, 1 | 1)`. -/
theorem spd_finite_termination_witness :
    (PCG_ParaSails (diag21 1 2 3) none (vec21 1 2 3) (vec21 0 0 0) (1 / 100) 3).2.i = 3 ∧
    (PCG_ParaSails (diag21 1 2 3) none (vec21 1 2 3) (vec21 0 0 0) (1 / 100) 3).2.x
      = vec21 1 1 1 ∧
    (PCG_ParaSails (diag21 1 2 3) none (vec21 1 2 3) (vec21 0 0 0) (1 / 100) 3).1
      = Exit.converged ∧
    1 ≤ (PCG_ParaSails (diag21 1 2 3) none (vec21 1 2 3) (vec21 0 0 0) (1 / 100) 3).2.i ∧
    (PCG_ParaSails (diag21 1 2 3) none (vec21 1 2 3) (vec21 0 0 0) (1 / 100) 3).2.i
      ≤ ((∑ k, n21 k : Nat) : Int) ∧
    InnerProd
        (vec21 1 2 3 - diag21 1 2 3
          (PCG_ParaSails (diag21 1 2 3) none (vec21 1 2 3) (vec21 0 0 0) (1 / 100) 3).2.x)
        (vec21 1 2 3 - diag21 1 2 3
          (PCG_ParaSails (diag21 1 2 3) none (vec21 1 2 3) (vec21 0 0 0) (1 / 100) 3).2.x) <
      (1 / 100) ^ 2 * InnerProd (vec21 1 2 3) (vec21 1 2 3) ∧
    (∀ d, Op.div d ∈
      (PCG_ParaSails (diag21 1 2 3) none (vec21 1 2 3) (vec21 0 0 0) (1 / 100) 3).2.trace →
      0 < d) :=
  ⟨by decide!, by decide!,
   spd_finite_termination (diag21 1 2 3) (vec21 1 2 3) (vec21 0 0 0) (1 / 100) 3
     (diag21_linear 1 2 3) (diag21_symm 1 2 3) diag21_pos (by decide) (by decide!) (by decide!)
     (by norm_num) (by decide)⟩

/-- C10. Tolerance monotonicity: for fixed matrix, preconditioner, `b`,
`x_initial` and `max_iter`, and tolerances `0 ≤ tol1 ≤ tol2`, the iteration
count of the solve with `tol1` is at least that of the solve with `tol2`. -/
theorem tol_monotone (mat : DVec n → DVec n) (ps : Option (DVec n → DVec n))
    (b x : DVec n) (max_iter : Int) (tol1 tol2 : ℚ) (h1 : 0 ≤ tol1) (h12 : tol1 ≤ tol2) :
    (PCG_ParaSails mat ps b x tol2 max_iter).2.i ≤
      (PCG_ParaSails mat ps b x tol1 max_iter).2.i := by
  by_cases hb : InnerProd b b = 0
  · rw [PCG_ParaSails_zero mat ps b x tol1 max_iter hb,
      PCG_ParaSails_zero mat ps b x tol2 max_iter hb]
  · have heps : tol1 * tol1 * InnerProd b b ≤ tol2 * tol2 * InnerProd b b :=
      mul_le_mul_of_nonneg_right (mul_self_le_mul_self h1 h12) (InnerProd_self_nonneg b)
    have hconv : ∀ j : Nat,
        conv_test (tol1 * tol1 * InnerProd b b) (PCG_at mat ps (PCG_init mat ps b x) j) →
        conv_test (tol2 * tol2 * InnerProd b b) (PCG_at mat ps (PCG_init mat ps b x) j) :=
      fun j h => lt_of_lt_of_le h heps
    rw [PCG_ParaSails_nonzero mat ps b x tol1 max_iter hb,
      PCG_ParaSails_nonzero mat ps b x tol2 max_iter hb]
    simp only [PCG_final_i]
    obtain ⟨m1, hm1, hexit1⟩ := PCG_run_spec mat ps b x tol1 max_iter
    obtain ⟨m2, hm2, hexit2⟩ := PCG_run_spec mat ps b x tol2 max_iter
    -- a pass that stops the first run stops the second run no later
    have hstop : (m1 : Int) + 1 ≤ max_iter →
        (conv_test (tol1 * tol1 * InnerProd b b) (PCG_at mat ps (PCG_init mat ps b x) m1) ∨
          stall_test (InnerProd b b) (PCG_at mat ps (PCG_init mat ps b x) m1)) →
        m2 ≤ m1 := by
      intro _ hst
      by_contra hlt
      have h2 := hm2 m1 (by omega)
      rcases hst with hc | hs
      · exact h2.2.1 (hconv m1 hc)
      · exact h2.2.2 hs
    have hi2 : (PCG_run mat ps b x tol2 max_iter).2.i ≤ (m2 : Int) + 1 ∧
        ((PCG_run mat ps b x tol2 max_iter).2.i ≤ max_iter ∨
          (PCG_run mat ps b x tol2 max_iter).2.i = m2) ∧
        ((PCG_run mat ps b x tol2 max_iter).2.i = (m2 : Int) + 1 ∨
          ((PCG_run mat ps b x tol2 max_iter).2.i = m2 ∧ ¬ (m2 : Int) + 1 ≤ max_iter)) := by
      rcases hexit2 with h | h | h <;> rw [h.1] <;>
        simp only [PCG_at_i, PCG_top_i, PCG_init_i]
      · have := h.2.1
        exact ⟨by omega, Or.inl (by omega), Or.inl (by omega)⟩
      · have := h.2.1
        exact ⟨by omega, Or.inl (by omega), Or.inl (by omega)⟩
      · have := h.2
        exact ⟨by omega, Or.inr (by omega), Or.inr ⟨by omega, h.2⟩⟩
    rcases hexit1 with h | h | h
    · have hle := hstop h.2.1 (Or.inl h.2.2)
      rw [h.1]
      simp only [PCG_at_i, PCG_init_i]
      have := hi2.1
      omega
    · have hle := hstop h.2.1 (Or.inr h.2.2.2)
      rw [h.1]
      simp only [PCG_at_i, PCG_init_i]
      have := hi2.1
      omega
    · rw [h.1]
      simp only [PCG_top_i, PCG_init_i]
      have hn := h.2
      rcases hexit2 with g | g | g <;> rw [g.1] <;>
        simp only [PCG_at_i, PCG_top_i, PCG_init_i]
      · have := g.2.1
        omega
      · have := g.2.1
        omega
      · by_contra hlt
        have := (hm2 m1 (by omega)).1
        omega

/-- C10 at a concrete input: tolerances `1/100 ≤ 1`. -/
theorem tol_monotone_witness :
    (PCG_ParaSails (diag21 1 2 3) none (vec21 1 2 3) (vec21 0 0 0) 1 10).2.i ≤
      (PCG_ParaSails (diag21 1 2 3) none (vec21 1 2 3) (vec21 0 0 0) (1 / 100) 10).2.i :=
  tol_monotone (diag21 1 2 3) none (vec21 1 2 3) (vec21 0 0 0) 10 (1 / 100) 1
    (by norm_num) (by norm_num)

/-- C11 as stated fails: for the symmetric positive-definite `A = diag(1,5,10)`,
`b = (2, 5 | 1)` and `x_initial = 0` (no preconditioner, `tol = 1/100`) the solve
makes three passes, and the squared residual norm computed for the convergence
test rises from `76470/19321` at the first pass to `82587600/18054001` at the
second. -/
theorem residual_norm_counterexample :
    (∀ u v : DVec n21, InnerProd (diag21 1 5 10 u) v = InnerProd u (diag21 1 5 10 v)) ∧
    (∀ u : DVec n21, u ≠ 0 → 0 < InnerProd (diag21 1 5 10 u) u) ∧
    (PCG_ParaSails (diag21 1 5 10) none (vec21 2 5 1) (vec21 0 0 0) (1 / 100) 10).2.i = 3 ∧
    (PCG_at (diag21 1 5 10) none
      (PCG_init (diag21 1 5 10) none (vec21 2 5 1) (vec21 0 0 0)) 0).i_prod = 76470 / 19321 ∧
    (PCG_at (diag21 1 5 10) none
      (PCG_init (diag21 1 5 10) none (vec21 2 5 1) (vec21 0 0 0)) 1).i_prod
        = 82587600 / 18054001 ∧
    (PCG_at (diag21 1 5 10) none
      (PCG_init (diag21 1 5 10) none (vec21 2 5 1) (vec21 0 0 0)) 0).i_prod <
    (PCG_at (diag21 1 5 10) none
      (PCG_init (diag21 1 5 10) none (vec21 2 5 1) (vec21 0 0 0)) 1).i_prod :=
  ⟨diag21_symm 1 5 10,
   diag21_pos_of_pos 1 5 10 (by norm_num) (by norm_num) (by norm_num),
   by decide!, by decide!, by decide!, by decide!⟩

/-- C11, amended. What does not increase is the error energy, not the squared
residual norm: for `mat` the product with a symmetric positive-definite matrix,
`x*` with `A x* = b`, any preconditioner, `b` and `x_initial`, in every pass
`j + 1` made while the search directions so far are nonzero the energy
`<x* - x, A (x* - x)>` of the new iterate is at most that of the previous one. -/
theorem energy_nonincreasing (mat : DVec n → DVec n) (ps : Option (DVec n → DVec n))
    (b x xs : DVec n)
    (hlin : ∀ (a : ℚ) (u v : DVec n), mat (a • u + v) = a • mat u + mat v)
    (hsym : ∀ u v : DVec n, InnerProd (mat u) v = InnerProd u (mat v))
    (hpd : ∀ u : DVec n, u ≠ 0 → 0 < InnerProd (mat u) u)
    (hxs : mat xs = b) (j : Nat)
    (hp : ∀ i ≤ j, (PCG_top mat ps (PCG_init mat ps b x) i).p ≠ 0) :
    InnerProd (xs - (PCG_top mat ps (PCG_init mat ps b x) (j + 1)).x)
        (mat (xs - (PCG_top mat ps (PCG_init mat ps b x) (j + 1)).x)) ≤
      InnerProd (xs - (PCG_top mat ps (PCG_init mat ps b x) j).x)
        (mat (xs - (PCG_top mat ps (PCG_init mat ps b x) j).x)) := by
  have hD : ∀ i ≤ j,
      0 < InnerProd (mat (PCG_top mat ps (PCG_init mat ps b x) i).p)
        (PCG_top mat ps (PCG_init mat ps b x) i).p := fun i hi => hpd _ (hp i hi)
  have hg := PCG_top_gamma_rp mat ps b x j fun i hi => ne_of_gt (hD i (le_of_lt hi))
  have hstep := energy_step mat ps b xs hlin hsym hxs
    (PCG_top mat ps (PCG_init mat ps b x) j) (PCG_top_residual mat ps b x hlin j) hg
    (ne_of_gt (hD j (le_refl j)))
  rw [PCG_top_succ, PCG_dir_x, PCG_at, hstep]
  have hq : 0 ≤ (PCG_top mat ps (PCG_init mat ps b x) j).gamma ^ 2 /
      InnerProd (mat (PCG_top mat ps (PCG_init mat ps b x) j).p)
        (PCG_top mat ps (PCG_init mat ps b x) j).p :=
    div_nonneg (sq_nonneg _) (le_of_lt (hD j (le_refl j)))
  linarith

/-- C11 (amended) at the input of the counterexample, second pass: `x* = (2, 1 | 1/10)`. -/
theorem energy_nonincreasing_witness :
    diag21 1 5 10 (vec21 2 1 (1 / 10)) = vec21 2 5 1 ∧
    (∀ i ≤ 1, (PCG_top (diag21 1 5 10) none
      (PCG_init (diag21 1 5 10) none (vec21 2 5 1) (vec21 0 0 0)) i).p ≠ 0) ∧
    InnerProd
        (vec21 2 1 (1 / 10) - (PCG_top (diag21 1 5 10) none
          (PCG_init (diag21 1 5 10) none (vec21 2 5 1) (vec21 0 0 0)) (1 + 1)).x)
        (diag21 1 5 10 (vec21 2 1 (1 / 10) - (PCG_top (diag21 1 5 10) none
          (PCG_init (diag21 1 5 10) none (vec21 2 5 1) (vec21 0 0 0)) (1 + 1)).x)) ≤
      InnerProd
        (vec21 2 1 (1 / 10) - (PCG_top (diag21 1 5 10) none
          (PCG_init (diag21 1 5 10) none (vec21 2 5 1) (vec21 0 0 0)) 1).x)
        (diag21 1 5 10 (vec21 2 1 (1 / 10) - (PCG_top (diag21 1 5 10) none
          (PCG_init (diag21 1 5 10) none (vec21 2 5 1) (vec21 0 0 0)) 1).x)) :=
  ⟨by decide!, by decide!,
   energy_nonincreasing (diag21 1 5 10) none (vec21 2 5 1) (vec21 0 0 0) (vec21 2 1 (1 / 10))
     (diag21_linear 1 5 10) (diag21_symm 1 5 10)
     (diag21_pos_of_pos 1 5 10 (by norm_num) (by norm_num) (by norm_num))
     (by decide!) 1 (by decide!)⟩

/-- C12. Partition independence: `InnerProd`, each rank's local dot product
followed by the sum over the ranks, is the dot product of the concatenated
global vectors, for every split into local blocks; so two distributions of
the same global vectors give the same inner products.  Consequently two
solves of the same global problem (same global `b`, `x_initial`, matrix and
preconditioner, same `tol` and `max_iter`) on any two distributions, such as
1, 2 or 4 ranks, leave the function the same way with the same iteration
count and the same global `x`. -/
theorem partition_independence {P₁ P₂ : Nat} {n₁ : Fin P₁ → Nat} {n₂ : Fin P₂ → Nat}
    (mat₁ : DVec n₁ → DVec n₁) (mat₂ : DVec n₂ → DVec n₂)
    (ps₁ : Option (DVec n₁ → DVec n₁)) (ps₂ : Option (DVec n₂ → DVec n₂))
    (b₁ x₁ : DVec n₁) (b₂ x₂ : DVec n₂) (tol : ℚ) (max_iter : Int)
    (hmat : same_global_op mat₁ mat₂) (hps : same_global_ps ps₁ ps₂)
    (hb : concat b₁ = concat b₂) (hx : concat x₁ = concat x₂) :
    (∀ u v : DVec n₁, InnerProd u v = dot (concat u) (concat v)) ∧
    (∀ (u₁ v₁ : DVec n₁) (u₂ v₂ : DVec n₂), concat u₁ = concat u₂ → concat v₁ = concat v₂ →
      InnerProd u₁ v₁ = InnerProd u₂ v₂) ∧
    (PCG_ParaSails mat₁ ps₁ b₁ x₁ tol max_iter).1 =
      (PCG_ParaSails mat₂ ps₂ b₂ x₂ tol max_iter).1 ∧
    (PCG_ParaSails mat₁ ps₁ b₁ x₁ tol max_iter).2.i =
      (PCG_ParaSails mat₂ ps₂ b₂ x₂ tol max_iter).2.i ∧
    concat (PCG_ParaSails mat₁ ps₁ b₁ x₁ tol max_iter).2.x =
      concat (PCG_ParaSails mat₂ ps₂ b₂ x₂ tol max_iter).2.x := by
  have h := PCG_ParaSails_gvals mat₁ mat₂ ps₁ ps₂ b₁ x₁ b₂ x₂ tol max_iter hmat hps hb hx
  have hg := h.2
  simp only [PCGState.gvals, Prod.mk.injEq] at hg
  exact ⟨InnerProd_eq_dot, fun u₁ v₁ u₂ v₂ hu hv => InnerProd_congr_concat u₁ v₁ u₂ v₂ hu hv,
    h.1, hg.2.2.2.2.2.2.2.2.2, hg.1⟩

/-- C12 at a concrete input: `diag(1,2,3) x = (1,2,3)` on one rank and on two
ranks (2 + 1 rows); both solves return `x = (1,1,1)` after three passes. -/
theorem partition_independence_witness :
    (PCG_ParaSails (diag3 1 2 3) none (vec3 1 2 3) (vec3 0 0 0) (1 / 100) 10).2.i = 3 ∧
    concat (PCG_ParaSails (diag21 1 2 3) none (vec21 1 2 3) (vec21 0 0 0) (1 / 100) 10).2.x
      = [1, 1, 1] ∧
    (PCG_ParaSails (diag3 1 2 3) none (vec3 1 2 3) (vec3 0 0 0) (1 / 100) 10).2.i =
      (PCG_ParaSails (diag21 1 2 3) none (vec21 1 2 3) (vec21 0 0 0) (1 / 100) 10).2.i ∧
    concat (PCG_ParaSails (diag3 1 2 3) none (vec3 1 2 3) (vec3 0 0 0) (1 / 100) 10).2.x =
      concat (PCG_ParaSails (diag21 1 2 3) none (vec21 1 2 3) (vec21 0 0 0) (1 / 100) 10).2.x :=
  ⟨by decide!, by decide!,
   (partition_independence (diag3 1 2 3) (diag21 1 2 3) none none (vec3 1 2 3) (vec3 0 0 0)
      (vec21 1 2 3) (vec21 0 0 0) (1 / 100) 10 (diag3_diag21 1 2 3) trivial
      ((concat_vec3 1 2 3).trans (concat_vec21 1 2 3).symm)
      ((concat_vec3 0 0 0).trans (concat_vec21 0 0 0).symm)).2.2.2⟩

/-- C13. The right-hand side is not written: for every input and every way of
leaving the function (zero right-hand side, convergence, non-convergence
abort, `max_iter`), no operation of the run stores into `b`; the stores go to
the caller's `x` and to the work vectors `p`, `s`, `r` of the solve.  (The
matrix and the preconditioner are values passed to `MatrixMatvec` and
`ParaSailsApply`; the solve has no operation that changes them.) -/
theorem rhs_not_written (mat : DVec n → DVec n) (ps : Option (DVec n → DVec n))
    (b x : DVec n) (tol : ℚ) (max_iter : Int) :
    ∀ op ∈ (PCG_ParaSails mat ps b x tol max_iter).2.trace,
      op.writes ≠ some Buf.b ∧
      (op.writes = none ∨ op.writes = some Buf.x ∨ op.writes = some Buf.p ∨
        op.writes = some Buf.s ∨ op.writes = some Buf.r) := by
  have key : ∀ op ∈ (PCG_ParaSails mat ps b x tol max_iter).2.trace,
      op.writes ≠ some Buf.b := by
    by_cases hb : InnerProd b b = 0
    · rw [PCG_ParaSails_zero mat ps b x tol max_iter hb]
      simp [Op.writes]
    · rw [PCG_ParaSails_nonzero mat ps b x tol max_iter hb]
      apply writes_final
      obtain ⟨m, hm | hm⟩ := PCG_run_state mat ps b x tol max_iter
      · rw [hm]
        exact writes_iter mat ps _ (writes_top mat ps b x m)
      · rw [hm]
        exact writes_top mat ps b x m
  intro op hop
  refine ⟨key op hop, ?_⟩
  have h := key op hop
  cases hw : op.writes with
  | none => exact Or.inl rfl
  | some v =>
    rw [hw] at h
    cases v with
    | b => exact absurd rfl h
    | x => exact Or.inr (Or.inl rfl)
    | p => exact Or.inr (Or.inr (Or.inl rfl))
    | s => exact Or.inr (Or.inr (Or.inr (Or.inl rfl)))
    | r => exact Or.inr (Or.inr (Or.inr (Or.inr rfl)))

/-- C13 at a concrete input: the update of `x` in a preconditioned run on two ranks. -/
theorem rhs_not_written_witness :
    Op.Axpy Buf.p Buf.x ∈
      (PCG_ParaSails (diag21 1 2 3) (some (diag21 1 1 1)) (vec21 1 2 3) (vec21 0 0 0)
        (1 / 100) 10).2.trace ∧
    (Op.Axpy Buf.p Buf.x).writes ≠ some Buf.b :=
  ⟨by decide!,
   (rhs_not_written (diag21 1 2 3) (some (diag21 1 1 1)) (vec21 1 2 3) (vec21 0 0 0)
      (1 / 100) 10 (Op.Axpy Buf.p Buf.x) (by decide!)).1⟩

/-- C14 as stated fails: three solves hand back the same `x = (1, 1 | 1)` to
their callers; one left its loop through the convergence test after 3 passes,
one because the counter reached `max_iter` after 3 passes, one after 0 passes.
Nothing handed back tells them apart. -/
theorem handed_back_counterexample :
    PCG_ParaSails_handed_back (diag21 1 2 3) none (vec21 1 2 3) (vec21 0 0 0) (1 / 100) 3
      = vec21 1 1 1 ∧
    PCG_ParaSails_handed_back (diag21 1 2 3) none (vec21 1 2 3) (vec21 0 0 0) 0 3
      = vec21 1 1 1 ∧
    PCG_ParaSails_handed_back (diag21 1 2 3) none (vec21 1 2 3) (vec21 1 1 1) (1 / 100) 0
      = vec21 1 1 1 ∧
    (PCG_ParaSails (diag21 1 2 3) none (vec21 1 2 3) (vec21 0 0 0) (1 / 100) 3).1
      = Exit.converged ∧
    (PCG_ParaSails (diag21 1 2 3) none (vec21 1 2 3) (vec21 0 0 0) 0 3).1 = Exit.max_iter ∧
    (PCG_ParaSails (diag21 1 2 3) none (vec21 1 2 3) (vec21 0 0 0) (1 / 100) 3).2.i = 3 ∧
    (PCG_ParaSails (diag21 1 2 3) none (vec21 1 2 3) (vec21 1 1 1) (1 / 100) 0).2.i = 0 := by
  decide!

/-- C14, amended. The solve hands back the final `x` only: on a zero right-hand
side it is `b`, otherwise it is the iterate after the `i` passes made.  The
iteration count `i`, the way the loop was left and the final squared residual
norm, which line 187 computes for the handed-back `x` as
`<b - A x, b - A x>`, stay in local variables. -/
theorem handed_back_is_final_x (mat : DVec n → DVec n) (ps : Option (DVec n → DVec n))
    (b x : DVec n) (tol : ℚ) (max_iter : Int) :
    (InnerProd b b = 0 → PCG_ParaSails_handed_back mat ps b x tol max_iter = b) ∧
    (InnerProd b b ≠ 0 →
      ∃ k : Nat, (PCG_ParaSails mat ps b x tol max_iter).2.i = k ∧
        PCG_ParaSails_handed_back mat ps b x tol max_iter =
          (PCG_top mat ps (PCG_init mat ps b x) k).x ∧
        (PCG_ParaSails mat ps b x tol max_iter).2.r =
          b - mat (PCG_ParaSails_handed_back mat ps b x tol max_iter) ∧
        (PCG_ParaSails mat ps b x tol max_iter).2.i_prod =
          InnerProd (b - mat (PCG_ParaSails_handed_back mat ps b x tol max_iter))
            (b - mat (PCG_ParaSails_handed_back mat ps b x tol max_iter))) := by
  unfold PCG_ParaSails_handed_back
  constructor
  · intro hb
    rw [PCG_ParaSails_zero mat ps b x tol max_iter hb]
    exact CopyVector_eq b x
  · intro hb
    rw [PCG_ParaSails_nonzero mat ps b x tol max_iter hb]
    have hr : ∀ st : PCGState n, (PCG_final mat b st).r = b - mat st.x := by
      intro st
      simp only [PCG_final, Axpy_eq, ScaleVector_eq]
      funext k j
      simp only [Pi.add_apply, Pi.smul_apply, Pi.sub_apply, smul_eq_mul]
      ring
    have hip : ∀ st : PCGState n, (PCG_final mat b st).i_prod =
        InnerProd (PCG_final mat b st).r (PCG_final mat b st).r := fun st => rfl
    obtain ⟨m, -, hrun⟩ := PCG_run_spec mat ps b x tol max_iter
    rcases hrun with h | h | h
    · refine ⟨m + 1, ?_, ?_, ?_, ?_⟩
      · rw [h.1]; simp only [PCG_final_i, PCG_at_i, PCG_init_i]; push_cast; ring
      · rw [h.1, PCG_final_x, PCG_top_succ, PCG_dir_x]
      · rw [hr, PCG_final_x]
      · rw [hip, hr, PCG_final_x]
    · refine ⟨m + 1, ?_, ?_, ?_, ?_⟩
      · rw [h.1]; simp only [PCG_final_i, PCG_at_i, PCG_init_i]; push_cast; ring
      · rw [h.1, PCG_final_x, PCG_top_succ, PCG_dir_x]
      · rw [hr, PCG_final_x]
      · rw [hip, hr, PCG_final_x]
    · refine ⟨m, ?_, ?_, ?_, ?_⟩
      · rw [h.1]; simp only [PCG_final_i, PCG_top_i, PCG_init_i]; ring
      · rw [h.1, PCG_final_x]
      · rw [hr, PCG_final_x]
      · rw [hip, hr, PCG_final_x]

/-- C15 as stated fails: with local sizes 2 and 1, the caller's `x` on rank 0
has three entries `[0, 0, 7]`; the solve reports nothing, leaves its loop as
converged, and has written the first two entries only (`[1, 1, 7]`).  A `b`
with an entry too many on rank 0 gives the same result. -/
theorem partition_mismatch_counterexample :
    (arr21 [0, 0, 7] [0] 0).length ≠ n21 0 ∧
    (PCG_ParaSails_arrays n21 (diag21 1 2 3) none (arr21 [1, 2] [3]) (arr21 [0, 0, 7] [0])
      (1 / 100) 10).1 = Exit.converged ∧
    (PCG_ParaSails_arrays n21 (diag21 1 2 3) none (arr21 [1, 2] [3]) (arr21 [0, 0, 7] [0])
      (1 / 100) 10).2 0 = [1, 1, 7] ∧
    (PCG_ParaSails_arrays n21 (diag21 1 2 3) none (arr21 [1, 2] [3]) (arr21 [0, 0, 7] [0])
      (1 / 100) 10).2 1 = [1] ∧
    (arr21 [1, 2, 99] [3] 0).length ≠ n21 0 ∧
    (PCG_ParaSails_arrays n21 (diag21 1 2 3) none (arr21 [1, 2, 99] [3]) (arr21 [0, 0, 7] [0])
      (1 / 100) 10).1 = Exit.converged ∧
    (PCG_ParaSails_arrays n21 (diag21 1 2 3) none (arr21 [1, 2, 99] [3]) (arr21 [0, 0, 7] [0])
      (1 / 100) 10).2 0 = [1, 1, 7] := by
  decide!

/-- C15, amended. The solve makes no check of the lengths of `b` and `x`: the
local size `n` comes from the matrix, and for arrays with at least `n` entries
on every rank the solve reads and writes exactly the first `n` entries.  It
leaves the function in one of its four ordinary ways, the first `n` entries of
`x` hold the final iterate, the entries of `x` past `n` and its length are
unchanged, and the result is the same for any other arrays with the same first
`n` entries. -/
theorem arrays_first_n_only (n : Fin P → Nat) (mat : DVec n → DVec n)
    (ps : Option (DVec n → DVec n)) (b x : Arrays P) (tol : ℚ) (max_iter : Int)
    (_hb : ∀ k, n k ≤ (b k).length) (hx : ∀ k, n k ≤ (x k).length) :
    ((PCG_ParaSails_arrays n mat ps b x tol max_iter).1 = Exit.zero_rhs ∨
      (PCG_ParaSails_arrays n mat ps b x tol max_iter).1 = Exit.converged ∨
      (PCG_ParaSails_arrays n mat ps b x tol max_iter).1 = Exit.aborted ∨
      (PCG_ParaSails_arrays n mat ps b x tol max_iter).1 = Exit.max_iter) ∧
    (∀ k,
      ((PCG_ParaSails_arrays n mat ps b x tol max_iter).2 k).take (n k) =
        List.ofFn ((PCG_ParaSails mat ps (window n b) (window n x) tol max_iter).2.x k) ∧
      ((PCG_ParaSails_arrays n mat ps b x tol max_iter).2 k).drop (n k) = (x k).drop (n k) ∧
      ((PCG_ParaSails_arrays n mat ps b x tol max_iter).2 k).length = (x k).length) ∧
    (∀ b' x' : Arrays P, window n b' = window n b → window n x' = window n x →
      (PCG_ParaSails_arrays n mat ps b' x' tol max_iter).1 =
        (PCG_ParaSails_arrays n mat ps b x tol max_iter).1 ∧
      ∀ k, ((PCG_ParaSails_arrays n mat ps b' x' tol max_iter).2 k).take (n k) =
        ((PCG_ParaSails_arrays n mat ps b x tol max_iter).2 k).take (n k)) := by
  refine ⟨?_, ?_, ?_⟩
  · simp only [PCG_ParaSails_arrays]
    by_cases hz : InnerProd (window n b) (window n b) = 0
    · rw [PCG_ParaSails_zero mat ps _ _ tol max_iter hz]
      exact Or.inl rfl
    · rw [PCG_ParaSails_nonzero mat ps _ _ tol max_iter hz]
      obtain ⟨m, -, hrun⟩ := PCG_run_spec mat ps (window n b) (window n x) tol max_iter
      rcases hrun with h | h | h <;> rw [h.1] <;> simp
  · intro k
    simp only [PCG_ParaSails_arrays, store]
    refine ⟨?_, ?_, ?_⟩
    · exact List.take_left' (List.length_ofFn _)
    · exact List.drop_left' (List.length_ofFn _)
    · rw [List.length_append, List.length_ofFn, List.length_drop]
      have := hx k
      omega
  · intro b' x' hb' hx'
    unfold PCG_ParaSails_arrays
    rw [hb', hx']
    refine ⟨rfl, fun k => ?_⟩
    simp only [store]
    rw [List.take_left' (List.length_ofFn _), List.take_left' (List.length_ofFn _)]

/-- C15 (amended) at the input of the counterexample: the third entry of `x` on
rank 0 is left as it was. -/
theorem arrays_first_n_only_witness :
    ((PCG_ParaSails_arrays n21 (diag21 1 2 3) none (arr21 [1, 2] [3]) (arr21 [0, 0, 7] [0])
      (1 / 100) 10).2 0).drop (n21 0) = [7] :=
  ((arrays_first_n_only n21 (diag21 1 2 3) none (arr21 [1, 2] [3]) (arr21 [0, 0, 7] [0])
      (1 / 100) 10 (by decide) (by decide)).2.1 0).2.1

/-- C17. The convergence criterion: the threshold is `eps = tol^2 <b,b>`, the
same at every pass, and the tested quantity is `<r,r>` for the residual `r`
itself, with or without a preconditioner.  For every run with `<b,b>` nonzero
and every pass `k + 1`, the loop is left through the convergence test with
iteration count `k + 1` if and only if the pass is reached (no earlier pass
met a stopping test and `k + 1 ≤ max_iter`) and `<r,r> < eps` holds strictly
there; a reached pass with `<r,r> = eps` does not leave through the
convergence test. -/
theorem convergence_criterion (mat : DVec n → DVec n) (ps : Option (DVec n → DVec n))
    (b x : DVec n) (tol : ℚ) (max_iter : Int) (hb : InnerProd b b ≠ 0) (k : Nat) :
    (PCG_at mat ps (PCG_init mat ps b x) k).i_prod =
      InnerProd (PCG_at mat ps (PCG_init mat ps b x) k).r
        (PCG_at mat ps (PCG_init mat ps b x) k).r ∧
    (((PCG_ParaSails mat ps b x tol max_iter).1 = Exit.converged ∧
        (PCG_ParaSails mat ps b x tol max_iter).2.i = (k : Int) + 1) ↔
      ((∀ j < k,
          ¬ conv_test (tol * tol * InnerProd b b) (PCG_at mat ps (PCG_init mat ps b x) j) ∧
          ¬ stall_test (InnerProd b b) (PCG_at mat ps (PCG_init mat ps b x) j)) ∧
        (k : Int) + 1 ≤ max_iter ∧
        InnerProd (PCG_at mat ps (PCG_init mat ps b x) k).r
            (PCG_at mat ps (PCG_init mat ps b x) k).r < tol ^ 2 * InnerProd b b)) ∧
    (InnerProd (PCG_at mat ps (PCG_init mat ps b x) k).r
          (PCG_at mat ps (PCG_init mat ps b x) k).r = tol ^ 2 * InnerProd b b →
      ¬ ((PCG_ParaSails mat ps b x tol max_iter).1 = Exit.converged ∧
        (PCG_ParaSails mat ps b x tol max_iter).2.i = (k : Int) + 1)) := by
  have hip : (PCG_at mat ps (PCG_init mat ps b x) k).i_prod =
      InnerProd (PCG_at mat ps (PCG_init mat ps b x) k).r
        (PCG_at mat ps (PCG_init mat ps b x) k).r := rfl
  have hiff : ((PCG_ParaSails mat ps b x tol max_iter).1 = Exit.converged ∧
        (PCG_ParaSails mat ps b x tol max_iter).2.i = (k : Int) + 1) ↔
      ((∀ j < k,
          ¬ conv_test (tol * tol * InnerProd b b) (PCG_at mat ps (PCG_init mat ps b x) j) ∧
          ¬ stall_test (InnerProd b b) (PCG_at mat ps (PCG_init mat ps b x) j)) ∧
        (k : Int) + 1 ≤ max_iter ∧
        InnerProd (PCG_at mat ps (PCG_init mat ps b x) k).r
            (PCG_at mat ps (PCG_init mat ps b x) k).r < tol ^ 2 * InnerProd b b) := by
    rw [PCG_ParaSails_nonzero mat ps b x tol max_iter hb, pow_two, ← hip]
    constructor
    · rintro ⟨hc, hi⟩
      obtain ⟨m, hm, hexit⟩ := PCG_run_spec mat ps b x tol max_iter
      rcases hexit with h | h | h
      · rw [h.1] at hi
        simp only [PCG_final_i, PCG_at_i, PCG_init_i] at hi
        have hmk : m = k := by omega
        subst hmk
        exact ⟨fun j hj => (hm j hj).2, h.2.1, h.2.2⟩
      · rw [h.1] at hc; exact Exit.noConfusion hc
      · rw [h.1] at hc; exact Exit.noConfusion hc
    · rintro ⟨hbefore, hk, hconv⟩
      rw [PCG_run_converged_at mat ps b x tol max_iter k hbefore hk hconv]
      exact ⟨rfl, by simp only [PCG_final_i, PCG_at_i, PCG_init_i]; omega⟩
  refine ⟨hip, hiff, ?_⟩
  intro heq hconv
  have := (hiff.1 hconv).2.2
  rw [heq] at this
  exact lt_irrefl _ this

/-- C17 at a concrete input: the third pass of `diag(1,2,3) x = (1,2,3)` has
residual zero, below the threshold. -/
theorem convergence_criterion_witness :
    InnerProd (vec21 1 2 3) (vec21 1 2 3) ≠ 0 ∧
    ((PCG_ParaSails (diag21 1 2 3) none (vec21 1 2 3) (vec21 0 0 0) (1 / 100) 10).1
        = Exit.converged ∧
      (PCG_ParaSails (diag21 1 2 3) none (vec21 1 2 3) (vec21 0 0 0) (1 / 100) 10).2.i
        = ((2 : Nat) : Int) + 1) ∧
    InnerProd
        (PCG_at (diag21 1 2 3) none (PCG_init (diag21 1 2 3) none (vec21 1 2 3) (vec21 0 0 0))
          2).r
        (PCG_at (diag21 1 2 3) none (PCG_init (diag21 1 2 3) none (vec21 1 2 3) (vec21 0 0 0))
          2).r < (1 / 100) ^ 2 * InnerProd (vec21 1 2 3) (vec21 1 2 3) :=
  ⟨by decide!, by decide!,
   ((convergence_criterion (diag21 1 2 3) none (vec21 1 2 3) (vec21 0 0 0) (1 / 100) 10
      (by decide!) 2).2.1.1 (by decide!)).2.2⟩

/-- C18. Initialisation: for every input with `<b,b>` nonzero, the state in
which the loop condition is first evaluated has `r = b - A x_initial`,
`p = C r` when a preconditioner `C` is supplied and `p = r` otherwise,
`gamma = <r,p>`, `x` still equal to `x_initial` and the counter at 0; the first
pass starts from it, and a solve with `max_iter = 0` leaves the loop in it. -/
theorem initial_state (mat : DVec n → DVec n) (ps : Option (DVec n → DVec n))
    (b x : DVec n) (tol : ℚ) (hb : InnerProd b b ≠ 0) :
    (PCG_top mat ps (PCG_init mat ps b x) 0).r = b - mat x ∧
    (PCG_top mat ps (PCG_init mat ps b x) 0).p =
      (match ps with
        | some C => C (b - mat x)
        | none => b - mat x) ∧
    (PCG_top mat ps (PCG_init mat ps b x) 0).gamma =
      InnerProd (PCG_top mat ps (PCG_init mat ps b x) 0).r
        (PCG_top mat ps (PCG_init mat ps b x) 0).p ∧
    (PCG_top mat ps (PCG_init mat ps b x) 0).x = x ∧
    (PCG_top mat ps (PCG_init mat ps b x) 0).i = 0 ∧
    PCG_at mat ps (PCG_init mat ps b x) 0 =
      PCG_iter mat ps (PCG_top mat ps (PCG_init mat ps b x) 0) ∧
    (PCG_ParaSails mat ps b x tol 0).2.x = (PCG_top mat ps (PCG_init mat ps b x) 0).x ∧
    (PCG_ParaSails mat ps b x tol 0).2.p = (PCG_top mat ps (PCG_init mat ps b x) 0).p ∧
    (PCG_ParaSails mat ps b x tol 0).2.gamma =
      (PCG_top mat ps (PCG_init mat ps b x) 0).gamma := by
  have hrun : PCG_run mat ps b x tol 0 = (Exit.max_iter, PCG_init mat ps b x) := by
    simp [PCG_run, PCG_loop, PCG_init_i]
  have hr := PCG_init_r mat ps b x
  rw [PCG_ParaSails_nonzero mat ps b x tol 0 hb, hrun, PCG_top_zero]
  refine ⟨hr, ?_, rfl, rfl, rfl, rfl, rfl, rfl, rfl⟩
  cases ps with
  | none => rw [PCG_init_p_none, hr]
  | some C =>
    show C (PCG_init mat (some C) b x).r = C (b - mat x)
    rw [hr]

/-- C18 at a concrete input: `b = (1, 2 | 3)`, `x_initial = (1, 0 | 0)`, `A = diag(1,2,3)`. -/
theorem initial_state_witness :
    InnerProd (vec21 1 2 3) (vec21 1 2 3) ≠ 0 ∧
    (PCG_top (diag21 1 2 3) none (PCG_init (diag21 1 2 3) none (vec21 1 2 3) (vec21 1 0 0)) 0).r
      = vec21 0 2 3 :=
  ⟨by decide!,
   (initial_state (diag21 1 2 3) none (vec21 1 2 3) (vec21 1 0 0) (1 / 100)
      (by decide!)).1.trans (by decide!)⟩

/-- C19. Step update: in every pass, with `s = A p` and `alpha = gamma / <s,p>`
taken from the state at the head of the pass, the state at the stopping tests
has `x + alpha p` for `x` and `r - alpha s` for `r`.  For every run with `<b,b>`
nonzero the `x` returned, however the loop was left, is `x_initial` when no pass
was made and otherwise includes the step of the last pass. -/
theorem step_update (mat : DVec n → DVec n) (ps : Option (DVec n → DVec n))
    (b x : DVec n) (tol : ℚ) (max_iter : Int) (hb : InnerProd b b ≠ 0) :
    (∀ k : Nat,
      (PCG_at mat ps (PCG_init mat ps b x) k).alpha =
        (PCG_top mat ps (PCG_init mat ps b x) k).gamma /
          InnerProd (mat (PCG_top mat ps (PCG_init mat ps b x) k).p)
            (PCG_top mat ps (PCG_init mat ps b x) k).p ∧
      (PCG_at mat ps (PCG_init mat ps b x) k).x =
        (PCG_top mat ps (PCG_init mat ps b x) k).x +
          (PCG_at mat ps (PCG_init mat ps b x) k).alpha •
            (PCG_top mat ps (PCG_init mat ps b x) k).p ∧
      (PCG_at mat ps (PCG_init mat ps b x) k).r =
        (PCG_top mat ps (PCG_init mat ps b x) k).r -
          (PCG_at mat ps (PCG_init mat ps b x) k).alpha •
            mat (PCG_top mat ps (PCG_init mat ps b x) k).p) ∧
    (∃ k : Nat, (PCG_ParaSails mat ps b x tol max_iter).2.i = k ∧
      (k = 0 → (PCG_ParaSails mat ps b x tol max_iter).2.x = x) ∧
      (∀ m : Nat, k = m + 1 →
        (PCG_ParaSails mat ps b x tol max_iter).2.x =
          (PCG_top mat ps (PCG_init mat ps b x) m).x +
            ((PCG_top mat ps (PCG_init mat ps b x) m).gamma /
              InnerProd (mat (PCG_top mat ps (PCG_init mat ps b x) m).p)
                (PCG_top mat ps (PCG_init mat ps b x) m).p) •
              (PCG_top mat ps (PCG_init mat ps b x) m).p)) := by
  have hstep : ∀ m : Nat, (PCG_at mat ps (PCG_init mat ps b x) m).x =
      (PCG_top mat ps (PCG_init mat ps b x) m).x +
        ((PCG_top mat ps (PCG_init mat ps b x) m).gamma /
          InnerProd (mat (PCG_top mat ps (PCG_init mat ps b x) m).p)
            (PCG_top mat ps (PCG_init mat ps b x) m).p) •
          (PCG_top mat ps (PCG_init mat ps b x) m).p := by
    intro m
    rw [PCG_at, PCG_iter_x, add_comm]
  refine ⟨fun k => ⟨rfl, ?_, ?_⟩, ?_⟩
  · rw [PCG_at, PCG_iter_x, PCG_iter_alpha, add_comm]
  · rw [PCG_at, PCG_iter_r, PCG_iter_alpha]
  · rw [PCG_ParaSails_nonzero mat ps b x tol max_iter hb]
    obtain ⟨m, -, hrun⟩ := PCG_run_spec mat ps b x tol max_iter
    have hsucc : ∀ st : PCGState n, st.x = (PCG_at mat ps (PCG_init mat ps b x) m).x →
        ∀ m' : Nat, m + 1 = m' + 1 →
          st.x = (PCG_top mat ps (PCG_init mat ps b x) m').x +
            ((PCG_top mat ps (PCG_init mat ps b x) m').gamma /
              InnerProd (mat (PCG_top mat ps (PCG_init mat ps b x) m').p)
                (PCG_top mat ps (PCG_init mat ps b x) m').p) •
              (PCG_top mat ps (PCG_init mat ps b x) m').p := by
      intro st hst m' hm'
      have e : m' = m := by omega
      rw [e, hst]
      exact hstep m
    rcases hrun with h | h | h
    · refine ⟨m + 1, ?_, fun h0 => absurd h0 (Nat.succ_ne_zero m), ?_⟩
      · rw [h.1]; simp only [PCG_final_i, PCG_at_i, PCG_init_i]; push_cast; ring
      · rw [h.1]; exact hsucc _ rfl
    · refine ⟨m + 1, ?_, fun h0 => absurd h0 (Nat.succ_ne_zero m), ?_⟩
      · rw [h.1]; simp only [PCG_final_i, PCG_at_i, PCG_init_i]; push_cast; ring
      · rw [h.1]; exact hsucc _ rfl
    · rw [h.1]
      refine ⟨m, ?_, ?_, ?_⟩
      · simp only [PCG_final_i, PCG_top_i, PCG_init_i]; ring
      · intro h0
        rw [h0, PCG_final_x, PCG_top_zero, PCG_init_x]
      · intro m' hm'
        rw [hm', PCG_final_x, PCG_top_succ, PCG_dir_x]
        exact hstep m'

/-- C19 at a concrete input: the first step of `diag(1,2,3) x = (1,2,3)` from
`x = 0` has `alpha = 14/36`. -/
theorem step_update_witness :
    InnerProd (vec21 1 2 3) (vec21 1 2 3) ≠ 0 ∧
    (PCG_at (diag21 1 2 3) none (PCG_init (diag21 1 2 3) none (vec21 1 2 3) (vec21 0 0 0))
      0).alpha = 7 / 18 :=
  ⟨by decide!,
   ((step_update (diag21 1 2 3) none (vec21 1 2 3) (vec21 0 0 0) (1 / 100) 10
      (by decide!)).1 0).1.trans (by decide!)⟩

/-- C20. Direction update: in every pass `k + 1`, the state at the stopping
tests holds `z = C r_new` (`z = r_new` without a preconditioner) in `s`,
`gamma_new = <r_new, z>` in `gamma`, the `gamma` of the head of the pass in
`gamma_old`, and the search direction `p_old` unchanged; when the pass leaves
through neither test, the next head of the loop has `beta = gamma_new / gamma_old`
and `p_new = z + beta p_old`.  For every run with `<b,b>` nonzero: when the loop
is left through the convergence test or the non-convergence test in pass
`k + 1`, `p` is still the `p_old` of that pass; when it is left by the loop
condition after `k` passes, `p` is the direction computed at the end of pass `k`. -/
theorem direction_update (mat : DVec n → DVec n) (ps : Option (DVec n → DVec n))
    (b x : DVec n) (tol : ℚ) (max_iter : Int) (hb : InnerProd b b ≠ 0) :
    (∀ k : Nat,
      (PCG_at mat ps (PCG_init mat ps b x) k).s =
        (match ps with
          | some C => C (PCG_at mat ps (PCG_init mat ps b x) k).r
          | none => (PCG_at mat ps (PCG_init mat ps b x) k).r) ∧
      (PCG_at mat ps (PCG_init mat ps b x) k).gamma =
        InnerProd (PCG_at mat ps (PCG_init mat ps b x) k).r
          (PCG_at mat ps (PCG_init mat ps b x) k).s ∧
      (PCG_at mat ps (PCG_init mat ps b x) k).gamma_old =
        (PCG_top mat ps (PCG_init mat ps b x) k).gamma ∧
      (PCG_at mat ps (PCG_init mat ps b x) k).p = (PCG_top mat ps (PCG_init mat ps b x) k).p ∧
      PCG_top mat ps (PCG_init mat ps b x) (k + 1) =
        PCG_dir (PCG_at mat ps (PCG_init mat ps b x) k) ∧
      (PCG_top mat ps (PCG_init mat ps b x) (k + 1)).beta =
        (PCG_at mat ps (PCG_init mat ps b x) k).gamma /
          (PCG_top mat ps (PCG_init mat ps b x) k).gamma ∧
      (PCG_top mat ps (PCG_init mat ps b x) (k + 1)).p =
        (PCG_at mat ps (PCG_init mat ps b x) k).s +
          ((PCG_at mat ps (PCG_init mat ps b x) k).gamma /
            (PCG_top mat ps (PCG_init mat ps b x) k).gamma) •
            (PCG_top mat ps (PCG_init mat ps b x) k).p) ∧
    (∀ k : Nat,
      ((PCG_ParaSails mat ps b x tol max_iter).1 = Exit.converged ∨
        (PCG_ParaSails mat ps b x tol max_iter).1 = Exit.aborted) →
      (PCG_ParaSails mat ps b x tol max_iter).2.i = (k : Int) + 1 →
      (PCG_ParaSails mat ps b x tol max_iter).2.p =
        (PCG_top mat ps (PCG_init mat ps b x) k).p) ∧
    (∀ k : Nat,
      (PCG_ParaSails mat ps b x tol max_iter).1 = Exit.max_iter →
      (PCG_ParaSails mat ps b x tol max_iter).2.i = (k : Int) →
      (PCG_ParaSails mat ps b x tol max_iter).2.p =
        (PCG_top mat ps (PCG_init mat ps b x) k).p) := by
  refine ⟨fun k => ⟨?_, rfl, rfl, rfl, PCG_top_succ _ _ _ _, ?_, ?_⟩, ?_, ?_⟩
  · cases ps with
    | none => rfl
    | some C => rfl
  · rw [PCG_top_succ]; rfl
  · rw [PCG_top_succ, PCG_dir_p]; rfl
  · intro k hex hi
    rw [PCG_ParaSails_nonzero mat ps b x tol max_iter hb] at hex hi ⊢
    obtain ⟨m, -, hexit⟩ := PCG_run_spec mat ps b x tol max_iter
    rcases hexit with h | h | h
    · rw [h.1] at hi ⊢
      simp only [PCG_final_i, PCG_at_i, PCG_init_i] at hi
      have hmk : m = k := by omega
      subst hmk
      rfl
    · rw [h.1] at hi ⊢
      simp only [PCG_final_i, PCG_at_i, PCG_init_i] at hi
      have hmk : m = k := by omega
      subst hmk
      rfl
    · rw [h.1] at hex
      rcases hex with hc | hc <;> exact Exit.noConfusion hc
  · intro k hex hi
    rw [PCG_ParaSails_nonzero mat ps b x tol max_iter hb] at hex hi ⊢
    obtain ⟨m, -, hexit⟩ := PCG_run_spec mat ps b x tol max_iter
    rcases hexit with h | h | h
    · rw [h.1] at hex; exact Exit.noConfusion hex
    · rw [h.1] at hex; exact Exit.noConfusion hex
    · rw [h.1] at hi ⊢
      simp only [PCG_final_i, PCG_top_i, PCG_init_i] at hi
      have hmk : m = k := by omega
      subst hmk
      rfl

/-- C20 at a concrete input: `diag(1,2,3) x = (1,2,3)` from `x = 0` leaves
through the convergence test in its third pass and `p` is still the direction
with which that pass started. -/
theorem direction_update_witness :
    InnerProd (vec21 1 2 3) (vec21 1 2 3) ≠ 0 ∧
    (PCG_ParaSails (diag21 1 2 3) none (vec21 1 2 3) (vec21 0 0 0) (1 / 100) 10).1
      = Exit.converged ∧
    (PCG_ParaSails (diag21 1 2 3) none (vec21 1 2 3) (vec21 0 0 0) (1 / 100) 10).2.i
      = ((2 : Nat) : Int) + 1 ∧
    (PCG_ParaSails (diag21 1 2 3) none (vec21 1 2 3) (vec21 0 0 0) (1 / 100) 10).2.p =
      (PCG_top (diag21 1 2 3) none (PCG_init (diag21 1 2 3) none (vec21 1 2 3) (vec21 0 0 0))
        2).p ∧
    (PCG_top (diag21 1 2 3) none (PCG_init (diag21 1 2 3) none (vec21 1 2 3) (vec21 0 0 0))
        2).p ≠
      (PCG_dir (PCG_at (diag21 1 2 3) none
        (PCG_init (diag21 1 2 3) none (vec21 1 2 3) (vec21 0 0 0)) 2)).p :=
  ⟨by decide!, by decide!, by decide!,
   (direction_update (diag21 1 2 3) none (vec21 1 2 3) (vec21 0 0 0) (1 / 100) 10
      (by decide!)).2.1 2 (Or.inl (by decide!)) (by decide!),
   by decide!⟩

/-- C21. Control-flow synchrony: the tests of lines 101, 126, 160 and 164 read
`tol`, `max_iter`, the counter and values delivered by `MPI_Allreduce` only.
So any two processes, whatever their local sizes, local vector data, local
parts of the operators, ranks, and whether or not `ps` is null, that are given
the same `tol` and `max_iter` and receive the same reduction results leave
`PCG_ParaSails` the same way (and do leave it), with the same iteration count,
the same number of reductions and the same sequence of `InnerProd` and
`MatrixMatvec` calls.  A process whose rank is not 0 prints nothing, and the
rank changes nothing else of a process's run. -/
theorem control_flow_synchrony {m₁ m₂ : Nat} (env₁ : RankEnv m₁) (env₂ : RankEnv m₂)
    (ps₁ ps₂ : Bool) (mype₁ mype₂ : Int) (b₁ x₁ : LVec m₁) (b₂ x₂ : LVec m₂)
    (tol : ℚ) (max_iter : Int)
    (hred : ∀ c, env₁.Allreduce c = env₂.Allreduce c) :
    (rank_PCG_ParaSails env₁ ps₁ mype₁ b₁ x₁ tol max_iter).1 =
      (rank_PCG_ParaSails env₂ ps₂ mype₂ b₂ x₂ tol max_iter).1 ∧
    (rank_PCG_ParaSails env₁ ps₁ mype₁ b₁ x₁ tol max_iter).1 ≠ Exit.out_of_fuel ∧
    (rank_PCG_ParaSails env₁ ps₁ mype₁ b₁ x₁ tol max_iter).2.i =
      (rank_PCG_ParaSails env₂ ps₂ mype₂ b₂ x₂ tol max_iter).2.i ∧
    (rank_PCG_ParaSails env₁ ps₁ mype₁ b₁ x₁ tol max_iter).2.calls.filter Op.collective =
      (rank_PCG_ParaSails env₂ ps₂ mype₂ b₂ x₂ tol max_iter).2.calls.filter Op.collective ∧
    (rank_PCG_ParaSails env₁ ps₁ mype₁ b₁ x₁ tol max_iter).2.sent.length =
      (rank_PCG_ParaSails env₂ ps₂ mype₂ b₂ x₂ tol max_iter).2.sent.length ∧
    (mype₁ ≠ 0 → (rank_PCG_ParaSails env₁ ps₁ mype₁ b₁ x₁ tol max_iter).2.printed = 0) ∧
    (∀ mype : Int,
      (rank_PCG_ParaSails env₁ ps₁ mype b₁ x₁ tol max_iter).1 =
        (rank_PCG_ParaSails env₁ ps₁ mype₁ b₁ x₁ tol max_iter).1 ∧
      (rank_PCG_ParaSails env₁ ps₁ mype b₁ x₁ tol max_iter).2.unprinted =
        (rank_PCG_ParaSails env₁ ps₁ mype₁ b₁ x₁ tol max_iter).2.unprinted) := by
  have h := rank_PCG_ParaSails_control env₁ env₂ ps₁ ps₂ mype₁ mype₂ hred b₁ x₁ b₂ x₂ tol
    max_iter
  have hc := h.2
  simp only [RankState.control, Prod.mk.injEq] at hc
  exact ⟨h.1, rank_PCG_ParaSails_returns env₁ ps₁ mype₁ b₁ x₁ tol max_iter, hc.2.2.2.1,
    hc.2.2.2.2.2, hc.2.2.2.2.1,
    fun hm => rank_PCG_ParaSails_printed env₁ ps₁ mype₁ hm b₁ x₁ tol max_iter,
    fun mype => rank_PCG_ParaSails_unprinted env₁ ps₁ mype mype₁ b₁ x₁ tol max_iter⟩

/-- C21 at a concrete input: the two processes of the solve of
`diag(1,2,3) x = (1,2,3)` from `x = 0`, rank 0 with rows 1 and 2 and rank 1 with
row 3.  The reduction results they receive are the sums of their
contributions; both leave through the convergence test after three passes,
with the local parts of the `x` of the solve on both ranks together. -/
theorem control_flow_synchrony_witness :
    List.zipWith (fun a c => a + c)
        (rank_PCG_ParaSails env21_0 false 0 ![1, 2] ![0, 0] (1 / 100) 10).2.sent
        (rank_PCG_ParaSails env21_1 false 1 ![3] ![0] (1 / 100) 10).2.sent = red21 ∧
    (rank_PCG_ParaSails env21_0 false 0 ![1, 2] ![0, 0] (1 / 100) 10).1 = Exit.converged ∧
    (rank_PCG_ParaSails env21_0 false 0 ![1, 2] ![0, 0] (1 / 100) 10).2.i = 3 ∧
    (rank_PCG_ParaSails env21_0 false 0 ![1, 2] ![0, 0] (1 / 100) 10).2.x =
      (PCG_ParaSails (diag21 1 2 3) none (vec21 1 2 3) (vec21 0 0 0) (1 / 100) 10).2.x 0 ∧
    (rank_PCG_ParaSails env21_1 false 1 ![3] ![0] (1 / 100) 10).2.x =
      (PCG_ParaSails (diag21 1 2 3) none (vec21 1 2 3) (vec21 0 0 0) (1 / 100) 10).2.x 1 ∧
    (rank_PCG_ParaSails env21_0 false 0 ![1, 2] ![0, 0] (1 / 100) 10).2.printed = 4 ∧
    (rank_PCG_ParaSails env21_1 false 1 ![3] ![0] (1 / 100) 10).2.printed = 0 ∧
    (rank_PCG_ParaSails env21_0 false 0 ![1, 2] ![0, 0] (1 / 100) 10).2.i =
      (rank_PCG_ParaSails env21_1 false 1 ![3] ![0] (1 / 100) 10).2.i :=
  ⟨by decide!, by decide!, by decide!, by decide!, by decide!, by decide!, by decide!,
   (control_flow_synchrony env21_0 env21_1 false false 0 1 ![1, 2] ![0, 0] ![3] ![0]
      (1 / 100) 10 (fun _ => rfl)).2.2.1⟩

/-- C22 on the code: for every input with `<b,b>` nonzero, on every way out of
the loop, the work vectors are allocated before their first use and all three
are allocated and untouched by `free` when the loop is left.  Then lines
179-181 free `p`, `s` and `r`, and lines 184-187 compute `r = b - A x` and
`<r,r>` in the freed `r`: the trace of the solve ends with the three `free`
calls followed by four operations on `r`, the first of which, the matrix
product into `r`, accesses a vector that is no longer allocated. -/
theorem residual_recomputed_after_free (mat : DVec n → DVec n)
    (ps : Option (DVec n → DVec n)) (b x : DVec n) (tol : ℚ) (max_iter : Int)
    (hb : InnerProd b b ≠ 0) :
    lifecycle ⟨false, false, false⟩ (PCG_run mat ps b x tol max_iter).2.trace =
      some ⟨true, true, true⟩ ∧
    (PCG_ParaSails mat ps b x tol max_iter).2.trace =
      (PCG_run mat ps b x tol max_iter).2.trace ++
        [Op.free Buf.p, Op.free Buf.s, Op.free Buf.r,
         Op.MatrixMatvec Buf.x Buf.r, Op.ScaleVector Buf.r, Op.Axpy Buf.b Buf.r,
         Op.InnerProd Buf.r Buf.r] ∧
    lifecycle ⟨false, false, false⟩
        ((PCG_run mat ps b x tol max_iter).2.trace ++
          [Op.free Buf.p, Op.free Buf.s, Op.free Buf.r]) = some ⟨false, false, false⟩ ∧
    lifecycle_step ⟨false, false, false⟩ (Op.MatrixMatvec Buf.x Buf.r) = none ∧
    lifecycle ⟨false, false, false⟩ (PCG_ParaSails mat ps b x tol max_iter).2.trace = none := by
  have hrun := lifecycle_run mat ps b x tol max_iter
  have htr : (PCG_ParaSails mat ps b x tol max_iter).2.trace =
      (PCG_run mat ps b x tol max_iter).2.trace ++
        [Op.free Buf.p, Op.free Buf.s, Op.free Buf.r,
         Op.MatrixMatvec Buf.x Buf.r, Op.ScaleVector Buf.r, Op.Axpy Buf.b Buf.r,
         Op.InnerProd Buf.r Buf.r] := by
    rw [PCG_ParaSails_nonzero mat ps b x tol max_iter hb]
    rfl
  refine ⟨hrun, htr, ?_, rfl, ?_⟩
  · rw [lifecycle_append, hrun]; rfl
  · rw [htr, lifecycle_append, hrun]; rfl

/-- C22 at a concrete input: the solve of `diag(1,2,3) x = (1,2,3)` from `x = 0`
ends with the matrix product into the freed `r`. -/
theorem residual_recomputed_after_free_witness :
    InnerProd (vec21 1 2 3) (vec21 1 2 3) ≠ 0 ∧
    lifecycle ⟨false, false, false⟩
      (PCG_ParaSails (diag21 1 2 3) none (vec21 1 2 3) (vec21 0 0 0) (1 / 100) 10).2.trace
        = none :=
  ⟨by decide!,
   (residual_recomputed_after_free (diag21 1 2 3) none (vec21 1 2 3) (vec21 0 0 0) (1 / 100) 10
      (by decide!)).2.2.2.2⟩

/-- C23. Residual invariant: for a linear `mat`, any preconditioner and any input
with `<b,b>` nonzero, the iterated residual is the true residual `b - A x` after
the initialisation, at the stopping tests of every pass and at the head of
every pass.  The step of lines 139-142 keeps it for every value of `alpha`, and
the direction update, the only use of `beta`, changes neither `x` nor `r`.
Hence the residual recomputed after the loop is the residual the loop was left
with, and the squared norm computed from it is that of the iterated residual. -/
theorem residual_invariant (mat : DVec n → DVec n) (ps : Option (DVec n → DVec n))
    (b x : DVec n) (tol : ℚ) (max_iter : Int)
    (hlin : ∀ (a : ℚ) (u v : DVec n), mat (a • u + v) = a • mat u + mat v)
    (hb : InnerProd b b ≠ 0) :
    (PCG_init mat ps b x).r = b - mat (PCG_init mat ps b x).x ∧
    (∀ (alpha : ℚ) (x0 p0 r0 : DVec n), r0 = b - mat x0 →
      Axpy (-alpha) (mat p0) r0 = b - mat (Axpy alpha p0 x0)) ∧
    (∀ st : PCGState n, (PCG_dir st).x = st.x ∧ (PCG_dir st).r = st.r) ∧
    (∀ k : Nat, (PCG_at mat ps (PCG_init mat ps b x) k).r =
      b - mat (PCG_at mat ps (PCG_init mat ps b x) k).x) ∧
    (∀ k : Nat, (PCG_top mat ps (PCG_init mat ps b x) k).r =
      b - mat (PCG_top mat ps (PCG_init mat ps b x) k).x) ∧
    (PCG_ParaSails mat ps b x tol max_iter).2.r = (PCG_run mat ps b x tol max_iter).2.r ∧
    (PCG_ParaSails mat ps b x tol max_iter).2.i_prod =
      InnerProd (PCG_run mat ps b x tol max_iter).2.r (PCG_run mat ps b x tol max_iter).2.r := by
  have hfin : (PCG_final mat b (PCG_run mat ps b x tol max_iter).2).r =
      (PCG_run mat ps b x tol max_iter).2.r := by
    rw [PCG_final_r, PCG_run_residual mat ps b x tol max_iter hlin]
  refine ⟨by rw [PCG_init_r, PCG_init_x], ?_, fun st => ⟨rfl, rfl⟩,
    PCG_at_residual mat ps b x hlin, PCG_top_residual mat ps b x hlin, ?_, ?_⟩
  · intro alpha x0 p0 r0 h
    rw [Axpy_eq, Axpy_eq, hlin, h]
    funext k j
    simp only [Pi.add_apply, Pi.smul_apply, Pi.sub_apply, smul_eq_mul]
    ring
  · rw [PCG_ParaSails_nonzero mat ps b x tol max_iter hb]
    exact hfin
  · rw [PCG_ParaSails_nonzero mat ps b x tol max_iter hb]
    show (PCG_final mat b (PCG_run mat ps b x tol max_iter).2).i_prod = _
    rw [PCG_final_i_prod, hfin]

/-- C23 at a concrete input: `diag(1,5,10) x = (2,5,1)` from `x = 0` with the
preconditioner `diag(1,1/2,1/3)`, stopped by `max_iter = 2`. -/
theorem residual_invariant_witness :
    InnerProd (vec21 2 5 1) (vec21 2 5 1) ≠ 0 ∧
    (PCG_ParaSails (diag21 1 5 10) (some (diag21 1 (1 / 2) (1 / 3))) (vec21 2 5 1)
        (vec21 0 0 0) (1 / 100) 2).2.r =
      (PCG_run (diag21 1 5 10) (some (diag21 1 (1 / 2) (1 / 3))) (vec21 2 5 1)
        (vec21 0 0 0) (1 / 100) 2).2.r :=
  ⟨by decide!,
   (residual_invariant (diag21 1 5 10) (some (diag21 1 (1 / 2) (1 / 3))) (vec21 2 5 1)
      (vec21 0 0 0) (1 / 100) 2 (diag21_linear 1 5 10) (by decide!)).2.2.2.2.2.1⟩

/-- C24. Division safety under positive definiteness: let `mat` be positive
definite for the global inner product (`<A u, u> > 0` for `u ≠ 0`; symmetry is
not needed), the preconditioner absent or positive definite, `b ≠ 0`,
`tol > 0` and the initial residual `b - A x_initial` nonzero.  Then every
division the solve makes, for `alpha` (line 134) and for `beta` (line 172), has
a strictly positive denominator; in every pass `j + 1` made, `<A p, p>` and the
`gamma` that the pass saves in `gamma_old` are strictly positive. -/
theorem division_safety (mat : DVec n → DVec n) (ps : Option (DVec n → DVec n))
    (b x : DVec n) (tol : ℚ) (max_iter : Int)
    (hpd : ∀ u : DVec n, u ≠ 0 → 0 < InnerProd (mat u) u)
    (hps : ∀ C, ps = some C → ∀ u : DVec n, u ≠ 0 → 0 < InnerProd u (C u))
    (hb : b ≠ 0) (htol : 0 < tol) (hr0 : b - mat x ≠ 0) :
    (∀ d, Op.div d ∈ (PCG_ParaSails mat ps b x tol max_iter).2.trace → 0 < d) ∧
    (∀ j : Nat, (j : Int) < (PCG_ParaSails mat ps b x tol max_iter).2.i →
      0 < InnerProd (mat (PCG_top mat ps (PCG_init mat ps b x) j).p)
        (PCG_top mat ps (PCG_init mat ps b x) j).p ∧
      0 < (PCG_top mat ps (PCG_init mat ps b x) j).gamma ∧
      (PCG_at mat ps (PCG_init mat ps b x) j).gamma_old =
        (PCG_top mat ps (PCG_init mat ps b x) j).gamma) := by
  have hbb : 0 < InnerProd b b := InnerProd_self_pos hb
  have heps : 0 < tol * tol * InnerProd b b := mul_pos (mul_pos htol htol) hbb
  rw [PCG_ParaSails_nonzero mat ps b x tol max_iter (ne_of_gt hbb)]
  obtain ⟨m, hm, hexit⟩ := PCG_run_spec mat ps b x tol max_iter
  have hR : ∀ j ≤ m, (PCG_top mat ps (PCG_init mat ps b x) j).r ≠ 0 := by
    intro j hj
    cases j with
    | zero => rw [PCG_top_zero, PCG_init_r]; exact hr0
    | succ j =>
      rw [PCG_top_succ, PCG_dir_r]
      exact r_ne_zero_of_not_conv mat ps _ _ heps (hm j (by omega)).2.1
  have hdpos : ∀ i ≤ m,
      0 < InnerProd (mat (PCG_top mat ps (PCG_init mat ps b x) i).p)
        (PCG_top mat ps (PCG_init mat ps b x) i).p :=
    fun i hi => pd_denominator_pos mat ps b x hpd hps i fun l hl => hR l (le_trans hl hi)
  have hgpos : ∀ i ≤ m, 0 < (PCG_top mat ps (PCG_init mat ps b x) i).gamma :=
    fun i hi => PCG_top_gamma_pos mat ps b x hps i (hR i hi)
  rcases hexit with h | h | h
  · rw [h.1]
    refine ⟨fun d hd => div_pos_at mat ps b x m
      (fun i hi => ⟨hdpos i (le_of_lt hi), hgpos i (le_of_lt hi)⟩) (hdpos m (le_refl m)) d
      (div_mem_final mat b _ d hd), ?_⟩
    intro j hj
    simp only [PCG_final_i, PCG_at_i, PCG_init_i] at hj
    exact ⟨hdpos j (by omega), hgpos j (by omega), rfl⟩
  · rw [h.1]
    refine ⟨fun d hd => div_pos_at mat ps b x m
      (fun i hi => ⟨hdpos i (le_of_lt hi), hgpos i (le_of_lt hi)⟩) (hdpos m (le_refl m)) d
      (div_mem_final mat b _ d hd), ?_⟩
    intro j hj
    simp only [PCG_final_i, PCG_at_i, PCG_init_i] at hj
    exact ⟨hdpos j (by omega), hgpos j (by omega), rfl⟩
  · rw [h.1]
    refine ⟨fun d hd => div_pos_top mat ps b x m
      (fun i hi => ⟨hdpos i (le_of_lt hi), hgpos i (le_of_lt hi)⟩) d
      (div_mem_final mat b _ d hd), ?_⟩
    intro j hj
    simp only [PCG_final_i, PCG_top_i, PCG_init_i] at hj
    exact ⟨hdpos j (by omega), hgpos j (by omega), rfl⟩

/-- C24 at a concrete input: `A = diag(1,5,10)` with the preconditioner
`diag(1,1/2,1/3)`, `b = (2, 5 | 1)`, `x_initial = 0`, `tol = 1/100`: the first
division of the solve, by `<A p, p> = 1309/36`, is recorded and positive. -/
theorem division_safety_witness :
    vec21 2 5 1 ≠ 0 ∧ vec21 2 5 1 - diag21 1 5 10 (vec21 0 0 0) ≠ 0 ∧
    Op.div (1309 / 36) ∈
      (PCG_ParaSails (diag21 1 5 10) (some (diag21 1 (1 / 2) (1 / 3))) (vec21 2 5 1)
        (vec21 0 0 0) (1 / 100) 10).2.trace ∧
    (0 : ℚ) < 1309 / 36 :=
  ⟨by decide!, by decide!, by decide!,
   (division_safety (diag21 1 5 10) (some (diag21 1 (1 / 2) (1 / 3))) (vec21 2 5 1)
      (vec21 0 0 0) (1 / 100) 10
      (diag21_pos_of_pos 1 5 10 (by norm_num) (by norm_num) (by norm_num))
      (fun C hC u hu => by
        cases hC
        rw [InnerProd_comm]
        exact diag21_pos_of_pos 1 (1 / 2) (1 / 3) (by norm_num) (by norm_num) (by norm_num) u hu)
      (by decide!) (by norm_num) (by decide!)).1 (1309 / 36) (by decide!)⟩

/-- C25. No convergence test before the first step: for every input with `<b,b>`
nonzero and `max_iter ≥ 1` the loop is entered, and its first stopping test is
made on the state reached by one full pass from the initial state: the matrix
product `s = A p`, the division for `alpha` and the update of `x` come first.
The iteration count on exit is at least 1, and the operations of the first pass
follow those of the initialisation in the trace of the run, whatever
`x_initial` is, a solution of `A x = b` included. -/
theorem first_pass_before_tests (mat : DVec n → DVec n) (ps : Option (DVec n → DVec n))
    (b x : DVec n) (tol : ℚ) (max_iter : Int) (hb : InnerProd b b ≠ 0)
    (hmax : 1 ≤ max_iter) :
    PCG_run mat ps b x tol max_iter =
      (if conv_test (tol * tol * InnerProd b b) (PCG_iter mat ps (PCG_init mat ps b x)) then
        (Exit.converged, PCG_iter mat ps (PCG_init mat ps b x))
      else if stall_test (InnerProd b b) (PCG_iter mat ps (PCG_init mat ps b x)) then
        (Exit.aborted, PCG_iter mat ps (PCG_init mat ps b x))
      else
        PCG_loop mat ps max_iter (InnerProd b b) (tol * tol * InnerProd b b) max_iter.toNat
          (PCG_dir (PCG_iter mat ps (PCG_init mat ps b x)))) ∧
    (PCG_iter mat ps (PCG_init mat ps b x)).x =
      x + (PCG_iter mat ps (PCG_init mat ps b x)).alpha • (PCG_init mat ps b x).p ∧
    1 ≤ (PCG_ParaSails mat ps b x tol max_iter).2.i ∧
    (PCG_init mat ps b x).trace ++
        [Op.MatrixMatvec Buf.p Buf.s, Op.InnerProd Buf.s Buf.p,
         Op.div (InnerProd (mat (PCG_init mat ps b x).p) (PCG_init mat ps b x).p),
         Op.Axpy Buf.p Buf.x] <+:
      (PCG_ParaSails mat ps b x tol max_iter).2.trace := by
  have hpre : (PCG_init mat ps b x).trace ++
        [Op.MatrixMatvec Buf.p Buf.s, Op.InnerProd Buf.s Buf.p,
         Op.div (InnerProd (mat (PCG_init mat ps b x).p) (PCG_init mat ps b x).p),
         Op.Axpy Buf.p Buf.x] <+: (PCG_iter mat ps (PCG_init mat ps b x)).trace := by
    rw [PCG_iter_trace]
    exact ⟨[Op.Axpy Buf.s Buf.r,
       match ps with
       | some _ => Op.ParaSailsApply Buf.r Buf.s
       | none => Op.CopyVector Buf.r Buf.s,
       Op.InnerProd Buf.r Buf.s, Op.InnerProd Buf.r Buf.r], by simp⟩
  have hinit : (PCG_init mat ps b x).i + 1 ≤ max_iter := by
    rw [PCG_init_i]; omega
  refine ⟨?_, ?_, ?_, ?_⟩
  · rw [PCG_run, PCG_loop]
    simp only [hinit, if_true]
  · rw [PCG_iter_x, PCG_iter_alpha, add_comm, PCG_init_x]
  · rw [PCG_ParaSails_nonzero mat ps b x tol max_iter hb]
    obtain ⟨m, -, hexit⟩ := PCG_run_spec mat ps b x tol max_iter
    rcases hexit with h | h | h
    · rw [h.1]; simp only [PCG_final_i, PCG_at_i, PCG_init_i]; omega
    · rw [h.1]; simp only [PCG_final_i, PCG_at_i, PCG_init_i]; omega
    · rw [h.1]; simp only [PCG_final_i, PCG_top_i, PCG_init_i]
      have := h.2
      omega
  · rw [PCG_ParaSails_nonzero mat ps b x tol max_iter hb]
    obtain ⟨m, -, hexit⟩ := PCG_run_spec mat ps b x tol max_iter
    rcases hexit with h | h | h
    · rw [h.1]
      exact hpre.trans ((trace_prefix_at mat ps _ m).trans (trace_prefix_final mat b _))
    · rw [h.1]
      exact hpre.trans ((trace_prefix_at mat ps _ m).trans (trace_prefix_final mat b _))
    · rw [h.1]
      obtain ⟨q, hq⟩ : ∃ q, m = q + 1 := ⟨m - 1, by have := h.2; omega⟩
      rw [hq]
      exact hpre.trans ((trace_prefix_top mat ps _ q).trans (trace_prefix_final mat b _))

/-- C25 at a concrete input: `x_initial = (1, 1 | 1)` already solves
`diag(1,2,3) x = (1,2,3)`, and the iteration count on exit is at least 1. -/
theorem first_pass_before_tests_witness :
    InnerProd (vec21 1 2 3) (vec21 1 2 3) ≠ 0 ∧
    diag21 1 2 3 (vec21 1 1 1) = vec21 1 2 3 ∧
    1 ≤ (PCG_ParaSails (diag21 1 2 3) none (vec21 1 2 3) (vec21 1 1 1) (1 / 100) 10).2.i :=
  ⟨by decide!, by decide!,
   (first_pass_before_tests (diag21 1 2 3) none (vec21 1 2 3) (vec21 1 1 1) (1 / 100) 10
      (by decide!) (by decide)).2.2.1⟩

/-- C26 as stated fails: `A = diag(1,5,10)` is symmetric positive definite,
`b = (2, 5 | 1)` is nonzero and `x_initial = (2, 1 | 1/10)` solves `A x = b`.
The solve (`max_iter = 10`) makes a first pass with `r = p = 0`,
`gamma = 0` and `<A p, p> = 0`: the division of line 134 is `0 / 0`, recorded in
the trace with denominator `0`, and the iterate of this executed pass has no
exact value. -/
theorem energy_zero_denominator_counterexample :
    (∀ u v : DVec n21, InnerProd (diag21 1 5 10 u) v = InnerProd u (diag21 1 5 10 v)) ∧
    (∀ u : DVec n21, u ≠ 0 → 0 < InnerProd (diag21 1 5 10 u) u) ∧
    vec21 2 5 1 ≠ 0 ∧
    diag21 1 5 10 (vec21 2 1 (1 / 10)) = vec21 2 5 1 ∧
    1 ≤ (PCG_ParaSails (diag21 1 5 10) none (vec21 2 5 1) (vec21 2 1 (1 / 10)) (1 / 100) 10).2.i ∧
    (PCG_init (diag21 1 5 10) none (vec21 2 5 1) (vec21 2 1 (1 / 10))).p = 0 ∧
    (PCG_init (diag21 1 5 10) none (vec21 2 5 1) (vec21 2 1 (1 / 10))).gamma = 0 ∧
    InnerProd
        (diag21 1 5 10 (PCG_init (diag21 1 5 10) none (vec21 2 5 1) (vec21 2 1 (1 / 10))).p)
        (PCG_init (diag21 1 5 10) none (vec21 2 5 1) (vec21 2 1 (1 / 10))).p = 0 ∧
    Op.div 0 ∈
      (PCG_ParaSails (diag21 1 5 10) none (vec21 2 5 1) (vec21 2 1 (1 / 10))
        (1 / 100) 10).2.trace :=
  ⟨diag21_symm 1 5 10,
   diag21_pos_of_pos 1 5 10 (by norm_num) (by norm_num) (by norm_num),
   by decide!, by decide!, by decide!, by decide!, by decide!, by decide!, by decide!⟩

/-- C26, amended. For `mat` the product with a symmetric positive-definite
matrix, `x*` with `A x* = b`, any preconditioner, `b` and `x_initial`: in every
pass `j + 1` up to which no denominator `<A p, p>` was zero, the denominator of
the pass is positive, the step lowers the error energy
`<x* - x, A (x* - x)>` by exactly `gamma^2 / <A p, p>`, and so the energy does
not increase. -/
theorem energy_exact_decrease (mat : DVec n → DVec n) (ps : Option (DVec n → DVec n))
    (b x xs : DVec n)
    (hlin : ∀ (a : ℚ) (u v : DVec n), mat (a • u + v) = a • mat u + mat v)
    (hsym : ∀ u v : DVec n, InnerProd (mat u) v = InnerProd u (mat v))
    (hpd : ∀ u : DVec n, u ≠ 0 → 0 < InnerProd (mat u) u)
    (hxs : mat xs = b) (j : Nat)
    (hden : ∀ i ≤ j,
      InnerProd (mat (PCG_top mat ps (PCG_init mat ps b x) i).p)
        (PCG_top mat ps (PCG_init mat ps b x) i).p ≠ 0) :
    0 < InnerProd (mat (PCG_top mat ps (PCG_init mat ps b x) j).p)
        (PCG_top mat ps (PCG_init mat ps b x) j).p ∧
    InnerProd (xs - (PCG_at mat ps (PCG_init mat ps b x) j).x)
        (mat (xs - (PCG_at mat ps (PCG_init mat ps b x) j).x)) =
      InnerProd (xs - (PCG_top mat ps (PCG_init mat ps b x) j).x)
          (mat (xs - (PCG_top mat ps (PCG_init mat ps b x) j).x)) -
        (PCG_top mat ps (PCG_init mat ps b x) j).gamma ^ 2 /
          InnerProd (mat (PCG_top mat ps (PCG_init mat ps b x) j).p)
            (PCG_top mat ps (PCG_init mat ps b x) j).p ∧
    InnerProd (xs - (PCG_at mat ps (PCG_init mat ps b x) j).x)
        (mat (xs - (PCG_at mat ps (PCG_init mat ps b x) j).x)) ≤
      InnerProd (xs - (PCG_top mat ps (PCG_init mat ps b x) j).x)
        (mat (xs - (PCG_top mat ps (PCG_init mat ps b x) j).x)) ∧
    (PCG_top mat ps (PCG_init mat ps b x) (j + 1)).x =
      (PCG_at mat ps (PCG_init mat ps b x) j).x := by
  have hp : (PCG_top mat ps (PCG_init mat ps b x) j).p ≠ 0 := by
    intro h0
    apply hden j (le_refl j)
    rw [h0, InnerProd_zero_right]
  have hD := hpd _ hp
  have hg := PCG_top_gamma_rp mat ps b x j fun i hi => hden i (le_of_lt hi)
  have hstep := energy_step mat ps b xs hlin hsym hxs
    (PCG_top mat ps (PCG_init mat ps b x) j) (PCG_top_residual mat ps b x hlin j) hg
    (ne_of_gt hD)
  have hq : 0 ≤ (PCG_top mat ps (PCG_init mat ps b x) j).gamma ^ 2 /
      InnerProd (mat (PCG_top mat ps (PCG_init mat ps b x) j).p)
        (PCG_top mat ps (PCG_init mat ps b x) j).p :=
    div_nonneg (sq_nonneg _) (le_of_lt hD)
  refine ⟨hD, ?_, ?_, ?_⟩
  · rw [PCG_at]; exact hstep
  · rw [PCG_at, hstep]; linarith
  · rw [PCG_top_succ, PCG_dir_x]

/-- C26 (amended) at a concrete input: the second pass of the preconditioned
solve of `diag(1,5,10) x = (2,5,1)` from `x = 0`, with `x* = (2, 1 | 1/10)`. -/
theorem energy_exact_decrease_witness :
    diag21 1 5 10 (vec21 2 1 (1 / 10)) = vec21 2 5 1 ∧
    (∀ i ≤ 1,
      InnerProd (diag21 1 5 10 (PCG_top (diag21 1 5 10) (some (diag21 1 (1 / 2) (1 / 3)))
          (PCG_init (diag21 1 5 10) (some (diag21 1 (1 / 2) (1 / 3))) (vec21 2 5 1)
            (vec21 0 0 0)) i).p)
        (PCG_top (diag21 1 5 10) (some (diag21 1 (1 / 2) (1 / 3)))
          (PCG_init (diag21 1 5 10) (some (diag21 1 (1 / 2) (1 / 3))) (vec21 2 5 1)
            (vec21 0 0 0)) i).p ≠ 0) ∧
    0 < InnerProd (diag21 1 5 10 (PCG_top (diag21 1 5 10) (some (diag21 1 (1 / 2) (1 / 3)))
          (PCG_init (diag21 1 5 10) (some (diag21 1 (1 / 2) (1 / 3))) (vec21 2 5 1)
            (vec21 0 0 0)) 1).p)
        (PCG_top (diag21 1 5 10) (some (diag21 1 (1 / 2) (1 / 3)))
          (PCG_init (diag21 1 5 10) (some (diag21 1 (1 / 2) (1 / 3))) (vec21 2 5 1)
            (vec21 0 0 0)) 1).p :=
  ⟨by decide!, by decide!,
   (energy_exact_decrease (diag21 1 5 10) (some (diag21 1 (1 / 2) (1 / 3))) (vec21 2 5 1)
      (vec21 0 0 0) (vec21 2 1 (1 / 10)) (diag21_linear 1 5 10) (diag21_symm 1 5 10)
      (diag21_pos_of_pos 1 5 10 (by norm_num) (by norm_num) (by norm_num))
      (by decide!) 1 (by decide!)).1⟩

/-- C27. Scalar and direction invariant: for any `mat` and any preconditioner, at
the head of pass `j + 1` the scalar `gamma` equals `<r,p>` for the current
residual and direction as long as every denominator `<A p, p>` of the passes
before was nonzero; when the denominator of pass `j + 1` is nonzero too, the
residual after the step is orthogonal to the direction just used. -/
theorem gamma_direction_invariant (mat : DVec n → DVec n) (ps : Option (DVec n → DVec n))
    (b x : DVec n) (j : Nat)
    (hden : ∀ i < j,
      InnerProd (mat (PCG_top mat ps (PCG_init mat ps b x) i).p)
        (PCG_top mat ps (PCG_init mat ps b x) i).p ≠ 0) :
    (PCG_top mat ps (PCG_init mat ps b x) j).gamma =
      InnerProd (PCG_top mat ps (PCG_init mat ps b x) j).r
        (PCG_top mat ps (PCG_init mat ps b x) j).p ∧
    (InnerProd (mat (PCG_top mat ps (PCG_init mat ps b x) j).p)
        (PCG_top mat ps (PCG_init mat ps b x) j).p ≠ 0 →
      InnerProd (PCG_at mat ps (PCG_init mat ps b x) j).r
        (PCG_top mat ps (PCG_init mat ps b x) j).p = 0) := by
  have hg := PCG_top_gamma_rp mat ps b x j hden
  exact ⟨hg, fun hD => PCG_iter_r_orth_p mat ps _ hg hD⟩

/-- C27 at a concrete input: the third pass of the preconditioned solve of
`diag(1,5,10) x = (2,5,1)` from `x = 0`. -/
theorem gamma_direction_invariant_witness :
    (∀ i < 2,
      InnerProd (diag21 1 5 10 (PCG_top (diag21 1 5 10) (some (diag21 1 (1 / 2) (1 / 3)))
          (PCG_init (diag21 1 5 10) (some (diag21 1 (1 / 2) (1 / 3))) (vec21 2 5 1)
            (vec21 0 0 0)) i).p)
        (PCG_top (diag21 1 5 10) (some (diag21 1 (1 / 2) (1 / 3)))
          (PCG_init (diag21 1 5 10) (some (diag21 1 (1 / 2) (1 / 3))) (vec21 2 5 1)
            (vec21 0 0 0)) i).p ≠ 0) ∧
    (PCG_top (diag21 1 5 10) (some (diag21 1 (1 / 2) (1 / 3)))
        (PCG_init (diag21 1 5 10) (some (diag21 1 (1 / 2) (1 / 3))) (vec21 2 5 1)
          (vec21 0 0 0)) 2).gamma =
      InnerProd
        (PCG_top (diag21 1 5 10) (some (diag21 1 (1 / 2) (1 / 3)))
          (PCG_init (diag21 1 5 10) (some (diag21 1 (1 / 2) (1 / 3))) (vec21 2 5 1)
            (vec21 0 0 0)) 2).r
        (PCG_top (diag21 1 5 10) (some (diag21 1 (1 / 2) (1 / 3)))
          (PCG_init (diag21 1 5 10) (some (diag21 1 (1 / 2) (1 / 3))) (vec21 2 5 1)
            (vec21 0 0 0)) 2).p :=
  ⟨by decide!,
   (gamma_direction_invariant (diag21 1 5 10) (some (diag21 1 (1 / 2) (1 / 3))) (vec21 2 5 1)
      (vec21 0 0 0) 2 (by decide!)).1⟩

/-- C28. Operation counts: a solve with `<b,b>` nonzero that makes `k` passes
calls `MatrixMatvec` exactly `k + 2` times, `InnerProd` exactly `3 k + 3` times,
and `ParaSailsApply` exactly `k + 1` times when a preconditioner is supplied and
never otherwise; a solve with `<b,b> = 0` calls `InnerProd` once and neither
`MatrixMatvec` nor `ParaSailsApply`. -/
theorem operation_counts (mat : DVec n → DVec n) (ps : Option (DVec n → DVec n))
    (b x : DVec n) (tol : ℚ) (max_iter : Int) :
    (InnerProd b b ≠ 0 →
      ∃ k : Nat, (PCG_ParaSails mat ps b x tol max_iter).2.i = k ∧
        count_MatrixMatvec (PCG_ParaSails mat ps b x tol max_iter).2.trace = k + 2 ∧
        count_InnerProd (PCG_ParaSails mat ps b x tol max_iter).2.trace = 3 * k + 3 ∧
        count_ParaSailsApply (PCG_ParaSails mat ps b x tol max_iter).2.trace =
          (match ps with
            | some _ => k + 1
            | none => 0)) ∧
    (InnerProd b b = 0 →
      (PCG_ParaSails mat ps b x tol max_iter).2.i = 0 ∧
      count_MatrixMatvec (PCG_ParaSails mat ps b x tol max_iter).2.trace = 0 ∧
      count_InnerProd (PCG_ParaSails mat ps b x tol max_iter).2.trace = 1 ∧
      count_ParaSailsApply (PCG_ParaSails mat ps b x tol max_iter).2.trace = 0) := by
  constructor
  · intro hb
    rw [PCG_ParaSails_nonzero mat ps b x tol max_iter hb]
    have hat : ∀ m : Nat, (PCG_final mat b (PCG_at mat ps (PCG_init mat ps b x) m)).i = ((m + 1 : Nat) : Int) ∧
        count_MatrixMatvec (PCG_final mat b (PCG_at mat ps (PCG_init mat ps b x) m)).trace
          = (m + 1) + 2 ∧
        count_InnerProd (PCG_final mat b (PCG_at mat ps (PCG_init mat ps b x) m)).trace
          = 3 * (m + 1) + 3 ∧
        count_ParaSailsApply (PCG_final mat b (PCG_at mat ps (PCG_init mat ps b x) m)).trace =
          (match ps with
            | some _ => (m + 1) + 1
            | none => 0) := by
      intro m
      have hf := count_final mat b (PCG_at mat ps (PCG_init mat ps b x) m)
      have ha := count_at mat ps b x m
      rw [hf.1, hf.2.1, hf.2.2, ha.1, ha.2.1, ha.2.2, PCG_final_i, PCG_at_i, PCG_init_i]
      refine ⟨by push_cast; ring, rfl, by ring, ?_⟩
      cases ps <;> rfl
    obtain ⟨m, -, hexit⟩ := PCG_run_spec mat ps b x tol max_iter
    rcases hexit with h | h | h
    · rw [h.1]; exact ⟨m + 1, hat m⟩
    · rw [h.1]; exact ⟨m + 1, hat m⟩
    · rw [h.1]
      have hf := count_final mat b (PCG_top mat ps (PCG_init mat ps b x) m)
      have ht := count_top mat ps b x m
      refine ⟨m, ?_, ?_, ?_, ?_⟩
      · rw [PCG_final_i, PCG_top_i, PCG_init_i]; ring
      · show count_MatrixMatvec (PCG_final mat b _).trace = _
        rw [hf.1, ht.1]
      · show count_InnerProd (PCG_final mat b _).trace = _
        rw [hf.2.1, ht.2.1]
      · show count_ParaSailsApply (PCG_final mat b _).trace = _
        rw [hf.2.2, ht.2.2]
  · intro hb
    rw [PCG_ParaSails_zero mat ps b x tol max_iter hb]
    exact ⟨rfl, rfl, rfl, rfl⟩

end ConjGrad

/-! # Method dispatch by name: the binary search of `ior_sidl_DFinder__exec` -/

namespace DFinder

/-- On strings without NUL characters `strcmp` returns `0` for equal strings only. -/
theorem strcmp_chars_eq_zero (s t : List Char) (hs : ∀ c ∈ s, c.toNat ≠ 0)
    (ht : ∀ c ∈ t, c.toNat ≠ 0) (h : strcmp_chars s t = 0) : s = t := by
  induction s generalizing t with
  | nil =>
    cases t with
    | nil => rfl
    | cons c t =>
      exfalso
      have hc := ht c (List.mem_cons_self c t)
      simp only [strcmp_chars] at h
      omega
  | cons a s ih =>
    cases t with
    | nil =>
      exfalso
      have ha := hs a (List.mem_cons_self a s)
      simp only [strcmp_chars] at h
      omega
    | cons c t =>
      simp only [strcmp_chars] at h
      by_cases hac : a = c
      · rw [if_pos hac] at h
        rw [hac, ih t (fun d hd => hs d (List.mem_cons_of_mem a hd))
          (fun d hd => ht d (List.mem_cons_of_mem c hd)) h]
      · rw [if_neg hac] at h
        exfalso
        apply hac
        have hn : a.toNat = c.toNat := by omega
        rw [← Char.ofNat_toNat a, ← Char.ofNat_toNat c, hn]

theorem strcmp_eq_zero (s t : String) (hs : ∀ c ∈ s.data, c.toNat ≠ 0)
    (ht : ∀ c ∈ t.data, c.toNat ≠ 0) (h : strcmp s t = 0) : s = t :=
  String.ext (strcmp_chars_eq_zero s.data t.data hs ht h)

theorem s_methods_no_nul : ∀ e ∈ s_methods, ∀ c ∈ e.d_name.data, c.toNat ≠ 0 := by decide

/-- The loop ends within `u - l + 1` evaluations of its condition, having made no
call or one call of the function stored with the name searched for. -/
theorem exec_loop_result (name : String) (fuel l u : Nat) (hu : u ≤ s_methods.length)
    (hf : u - l < fuel) :
    exec_loop name fuel l u = some [] ∨
      ∃ e ∈ s_methods, strcmp name e.d_name = 0 ∧ exec_loop name fuel l u = some [e.d_func] := by
  induction fuel generalizing l u with
  | zero => omega
  | succ fuel ih =>
    rw [exec_loop]
    by_cases hlu : l < u
    · rw [if_pos hlu]
      have hi : (l + u) >>> 1 = (l + u) / 2 := by
        rw [Nat.shiftRight_eq_div_pow]
      have hlt : (l + u) >>> 1 < s_methods.length := by omega
      dsimp only
      rw [List.getElem?_eq_getElem hlt]
      dsimp only
      by_cases h0 : strcmp name (s_methods[(l + u) >>> 1]).d_name = 0
      · rw [if_pos h0]
        exact Or.inr ⟨_, List.getElem_mem hlt, h0, rfl⟩
      · rw [if_neg h0]
        by_cases hneg : strcmp name (s_methods[(l + u) >>> 1]).d_name < 0
        · rw [if_pos hneg]
          exact ih l _ (by omega) (by omega)
        · rw [if_neg hneg]
          exact ih _ u hu (by omega)
    · rw [if_neg hlu]
      exact Or.inl rfl

/-- C29. Method dispatch by name: the table of `ior_sidl_DFinder__exec` holds the
ten names `addRef`, ..., `setSearchPath` in strictly increasing `strcmp` order.
For each of the ten names the binary search ends and calls the function stored
with that name, once, and nothing else; for every other name (a C string, so
without NUL characters) and for a null name it ends without calling any
function. -/
theorem method_dispatch :
    s_methods.map (fun e => e.d_name) =
      ["addRef", "addSearchPath", "deleteRef", "findLibrary", "getClassInfo", "getSearchPath",
       "isSame", "isType", "queryInt", "setSearchPath"] ∧
    s_methods.Pairwise (fun e f => strcmp e.d_name f.d_name < 0) ∧
    (∀ e ∈ s_methods, ior_sidl_DFinder__exec (some e.d_name) = some [e.d_func]) ∧
    (∀ name : String, (∀ c ∈ name.data, c.toNat ≠ 0) → (∀ e ∈ s_methods, e.d_name ≠ name) →
      ior_sidl_DFinder__exec (some name) = some []) ∧
    ior_sidl_DFinder__exec none = some [] := by
  refine ⟨rfl, by decide, by decide, ?_, rfl⟩
  intro name hnul hne
  rcases exec_loop_result name (s_methods.length + 1) 0 s_methods.length (le_refl _)
    (by omega) with h | ⟨e, he, h0, -⟩
  · exact h
  · exact absurd (strcmp_eq_zero name e.d_name hnul (s_methods_no_nul e he) h0).symm (hne e he)

end DFinder

/-! # Process-grid coordinates of the IJ driver -/

namespace IJ_linear_solvers

theorem int32_eq (z : Int) (h0 : -2147483648 ≤ z) (h1 : z ≤ 2147483647) : int32 z = z := by
  unfold int32
  omega

/-- The coordinates in closed form. -/
theorem pqr_exact_eq (P Q myid : Int) (hP : 1 ≤ P) (hQ : 1 ≤ Q) (h0 : 0 ≤ myid) :
    pqr_exact P Q myid = (myid % P, myid / P % Q, myid / P / Q) := by
  have hp0 : 0 ≤ myid % P := Int.emod_nonneg _ (by omega)
  have ha0 : 0 ≤ myid / P := Int.ediv_nonneg h0 (by omega)
  have hq0 : 0 ≤ myid / P % Q := Int.emod_nonneg _ (by omega)
  have h1 : myid - myid % P = P * (myid / P) := by
    have := Int.emod_add_ediv myid P
    linarith
  have h2 : myid - myid % P - P * (myid / P % Q) = P * Q * (myid / P / Q) := by
    have := Int.emod_add_ediv (myid / P) Q
    rw [h1, ← mul_sub, mul_assoc]
    congr 1
    linarith
  have hPQ : 0 < P * Q := by positivity
  simp only [pqr_exact]
  rw [Int.tmod_eq_emod h0 (by omega), h1, Int.tdiv_eq_ediv (by positivity) (by omega),
    Int.mul_ediv_cancel_left _ (by omega), Int.tmod_eq_emod ha0 (by omega), ← h1, h2,
    Int.tdiv_eq_ediv (by positivity) (le_of_lt hPQ),
    Int.mul_ediv_cancel_left _ (ne_of_gt hPQ)]

theorem pqr_exact_spec (P Q R myid : Int) (hP : 1 ≤ P) (hQ : 1 ≤ Q) (_hR : 1 ≤ R)
    (h0 : 0 ≤ myid) (h1 : myid < P * Q * R) :
    0 ≤ myid % P ∧ myid % P < P ∧ 0 ≤ myid / P % Q ∧ myid / P % Q < Q ∧
    0 ≤ myid / P / Q ∧ myid / P / Q < R ∧
    myid = myid % P + P * (myid / P % Q) + P * Q * (myid / P / Q) := by
  have hp0 : 0 ≤ myid % P := Int.emod_nonneg _ (by omega)
  have hpP : myid % P < P := Int.emod_lt_of_pos _ (by omega)
  have ha0 : 0 ≤ myid / P := Int.ediv_nonneg h0 (by omega)
  have hq0 : 0 ≤ myid / P % Q := Int.emod_nonneg _ (by omega)
  have hqQ : myid / P % Q < Q := Int.emod_lt_of_pos _ (by omega)
  have hr0 : 0 ≤ myid / P / Q := Int.ediv_nonneg ha0 (by omega)
  have haQR : myid / P < R * Q := by
    apply Int.ediv_lt_of_lt_mul (by omega)
    calc myid < P * Q * R := h1
      _ = R * Q * P := by ring
  have hrR : myid / P / Q < R := Int.ediv_lt_of_lt_mul (by omega) haQR
  refine ⟨hp0, hpP, hq0, hqQ, hr0, hrR, ?_⟩
  have e1 := Int.emod_add_ediv myid P
  have e2 := Int.emod_add_ediv (myid / P) Q
  calc myid = myid % P + P * (myid / P) := e1.symm
    _ = myid % P + P * (myid / P % Q + Q * (myid / P / Q)) := by rw [e2]
    _ = _ := by ring

/-- When `P*Q*R` is an `int`, no operation of the computation leaves the range
of `int`. -/
theorem compute_pqr_eq (P Q R myid : Int) (hP : 1 ≤ P) (hQ : 1 ≤ Q) (hR : 1 ≤ R)
    (h0 : 0 ≤ myid) (h1 : myid < P * Q * R) (hM : P * Q * R ≤ 2147483647) :
    compute_pqr P Q myid = pqr_exact P Q myid := by
  obtain ⟨hp0, hpP, hq0, hqQ, hr0, hrR, -⟩ := pqr_exact_spec P Q R myid hP hQ hR h0 h1
  have ha0 : 0 ≤ myid / P := Int.ediv_nonneg h0 (by omega)
  have e1 := Int.emod_add_ediv myid P
  have e2 := Int.emod_add_ediv (myid / P) Q
  have hPQ : 0 < P * Q := by positivity
  have hPQR : P * Q ≤ P * Q * R := le_mul_of_one_le_right (le_of_lt hPQ) hR
  have hRle : R ≤ P * Q * R := le_mul_of_one_le_left (by omega) (by omega)
  have hPa : 0 ≤ P * (myid / P) := by positivity
  have hPq0 : 0 ≤ P * (myid / P % Q) := by positivity
  have hQr0 : 0 ≤ Q * (myid / P / Q) := by positivity
  have hPq : P * (myid / P % Q) ≤ P * (myid / P) :=
    mul_le_mul_of_nonneg_left (by linarith) (by omega)
  have h3 : myid - myid % P = P * (myid / P) := by linarith
  have h4 : myid - myid % P - P * (myid / P % Q) = P * Q * (myid / P / Q) := by
    rw [h3, ← mul_sub, mul_assoc]
    congr 1
    linarith
  have h40 : 0 ≤ P * Q * (myid / P / Q) := by positivity
  have hale : myid / P ≤ myid := by nlinarith
  have e_p : int32 (myid.tmod P) = myid % P := by
    rw [Int.tmod_eq_emod h0 (by omega)]
    exact int32_eq _ (by omega) (by omega)
  have e_1 : int32 (myid - myid % P) = myid - myid % P := int32_eq _ (by omega) (by omega)
  have e_2 : int32 ((myid - myid % P).tdiv P) = myid / P := by
    rw [h3, Int.tdiv_eq_ediv hPa (by omega), Int.mul_ediv_cancel_left _ (by omega)]
    exact int32_eq _ (by omega) (by omega)
  have e_q : int32 ((myid / P).tmod Q) = myid / P % Q := by
    rw [Int.tmod_eq_emod ha0 (by omega)]
    exact int32_eq _ (by omega) (by omega)
  have e_3 : int32 (P * (myid / P % Q)) = P * (myid / P % Q) :=
    int32_eq _ (by omega) (by omega)
  have e_4 : int32 (myid - myid % P - P * (myid / P % Q)) =
      myid - myid % P - P * (myid / P % Q) := int32_eq _ (by omega) (by omega)
  have e_5 : int32 (P * Q) = P * Q := int32_eq _ (by omega) (by omega)
  have e_r : int32 ((myid - myid % P - P * (myid / P % Q)).tdiv (P * Q)) = myid / P / Q := by
    rw [h4, Int.tdiv_eq_ediv h40 (le_of_lt hPQ), Int.mul_ediv_cancel_left _ (ne_of_gt hPQ)]
    exact int32_eq _ (by omega) (by omega)
  rw [pqr_exact_eq P Q myid hP hQ h0]
  simp only [compute_pqr, e_p, e_1, e_2, e_q, e_3, e_4, e_5, e_r]

/-- C30. Process-grid coordinates: for all integers `P, Q, R ≥ 1` and every rank
`myid` with `0 ≤ myid < P*Q*R`, the coordinates `p = myid % P`,
`q = ((myid - p)/P) % Q`, `r = (myid - p - P*q)/(P*Q)` satisfy `0 ≤ p < P`,
`0 ≤ q < Q`, `0 ≤ r < R` and `myid = p + P*q + P*Q*r`, so that two ranks of the
grid with the same coordinates are the same rank.  When `P*Q*R` is an `int`
(at most `2147483647`), as the comparison with `num_procs` requires, the
statements of the driver compute exactly these values on `int`. -/
theorem process_grid_coordinates (P Q R myid : Int) (hP : 1 ≤ P) (hQ : 1 ≤ Q) (hR : 1 ≤ R)
    (h0 : 0 ≤ myid) (h1 : myid < P * Q * R) :
    0 ≤ (pqr_exact P Q myid).1 ∧ (pqr_exact P Q myid).1 < P ∧
    0 ≤ (pqr_exact P Q myid).2.1 ∧ (pqr_exact P Q myid).2.1 < Q ∧
    0 ≤ (pqr_exact P Q myid).2.2 ∧ (pqr_exact P Q myid).2.2 < R ∧
    myid = (pqr_exact P Q myid).1 + P * (pqr_exact P Q myid).2.1 +
      P * Q * (pqr_exact P Q myid).2.2 ∧
    (∀ myid2 : Int, 0 ≤ myid2 → myid2 < P * Q * R →
      pqr_exact P Q myid2 = pqr_exact P Q myid → myid2 = myid) ∧
    (P * Q * R ≤ 2147483647 → compute_pqr P Q myid = pqr_exact P Q myid) := by
  have hs := pqr_exact_spec P Q R myid hP hQ hR h0 h1
  have he := pqr_exact_eq P Q myid hP hQ h0
  refine ⟨?_, ?_, ?_, ?_, ?_, ?_, ?_, ?_, ?_⟩
  · rw [he]; exact hs.1
  · rw [he]; exact hs.2.1
  · rw [he]; exact hs.2.2.1
  · rw [he]; exact hs.2.2.2.1
  · rw [he]; exact hs.2.2.2.2.1
  · rw [he]; exact hs.2.2.2.2.2.1
  · rw [he]; exact hs.2.2.2.2.2.2
  · intro myid2 h20 h21 heq
    have hs2 := (pqr_exact_spec P Q R myid2 hP hQ hR h20 h21).2.2.2.2.2.2
    rw [pqr_exact_eq P Q myid2 hP hQ h20, he] at heq
    simp only [Prod.mk.injEq] at heq
    rw [hs2, heq.1, heq.2.1, heq.2.2]
    exact hs.2.2.2.2.2.2.symm
  · exact compute_pqr_eq P Q R myid hP hQ hR h0 h1

/-- C30 at a concrete input: rank 17 of a `2 x 3 x 4` grid has coordinates
`(1, 2, 2)`, and `17 = 1 + 2*2 + 2*3*2`. -/
theorem process_grid_coordinates_witness :
    compute_pqr 2 3 17 = (1, 2, 2) ∧ pqr_exact 2 3 17 = (1, 2, 2) ∧
    (17 : Int) = (pqr_exact 2 3 17).1 + 2 * (pqr_exact 2 3 17).2.1 +
      2 * 3 * (pqr_exact 2 3 17).2.2 :=
  ⟨by decide, by decide,
   (process_grid_coordinates 2 3 4 17 (by decide) (by decide) (by decide) (by decide)
      (by decide)).2.2.2.2.2.2.1⟩

end IJ_linear_solvers
